import Mathlib

/-!
# HTTP/1.1 server: wire protocol layer

A shallow embedding of `app/http/request.go`, `app/http/response.go`,
`app/handler/*.go`, `app/compression/compression.go` and `app/server/server.go`.

Go strings and byte slices are sequences of bytes; both are modelled as `List Nat`
(every byte is a number below 256).  The connection is a script of inbound events;
the standard library pieces the program relies on (`strings.Split`, `strings.SplitN`,
`strings.TrimSpace`, `strconv.Atoi`, `fmt.Sprintf("%d")`, `bufio.Reader.ReadBytes`,
`regexp`) are modelled by their documented behaviour on bytes.
-/

set_option autoImplicit false

namespace HttpServer

/-! ## Bytes and the string functions of the Go standard library -/

/-- A Go `string` or `[]byte`: a sequence of bytes. -/
abbrev Bytes := List Nat

/-- The bytes of an ASCII literal. -/
def ascii (s : String) : Bytes := s.toList.map Char.toNat

/-- The constant `CRLF = "\r\n"` of `request.go`. -/
def CRLF : Bytes := [13, 10]

/-- Split `s` at the first occurrence of the byte `sep`: the bytes before it and the
bytes after it; `none` when `sep` does not occur. -/
def cut (sep : Nat) : Bytes → Option (Bytes × Bytes)
  | [] => none
  | b :: rest =>
    if b = sep then some ([], rest)
    else match cut sep rest with
      | none => none
      | some (a, r) => some (b :: a, r)

/-- Go `strings.Split(s, sep)` for a one-byte separator: all the pieces between
occurrences of `sep` (the empty string gives one empty piece). -/
def Split (sep : Nat) : Bytes → List Bytes
  | [] => [[]]
  | b :: rest =>
    if b = sep then [] :: Split sep rest
    else (b :: (Split sep rest).headD []) :: (Split sep rest).tail

/-- Go `strings.SplitN(s, sep, n)` for a one-byte separator and `n ≥ 0`: at most `n`
pieces, the last one being the unsplit remainder. -/
def SplitN (sep : Nat) : Nat → Bytes → List Bytes
  | 0, _ => []
  | 1, s => [s]
  | n + 2, s =>
    match cut sep s with
    | none => [s]
    | some (a, rest) => a :: SplitN sep (n + 1) rest

/-- Length of the white-space character (in the sense of Go `unicode.IsSpace`) whose
UTF-8 encoding starts `s`; `0` when `s` does not start with one. -/
def spacePrefix : Bytes → Nat
  | 0xC2 :: 0x85 :: _ => 2
  | 0xC2 :: 0xA0 :: _ => 2
  | 0xE1 :: 0x9A :: 0x80 :: _ => 3
  | 0xE2 :: 0x80 :: x :: _ =>
    if (0x80 ≤ x ∧ x ≤ 0x8A) ∨ x = 0xA8 ∨ x = 0xA9 ∨ x = 0xAF then 3 else 0
  | 0xE2 :: 0x81 :: 0x9F :: _ => 3
  | 0xE3 :: 0x80 :: 0x80 :: _ => 3
  | b :: _ => if b = 9 ∨ b = 10 ∨ b = 11 ∨ b = 12 ∨ b = 13 ∨ b = 32 then 1 else 0
  | [] => 0

/-- Length of the white-space character whose UTF-8 encoding ends the string whose
reversal is `r`; `0` when there is none. -/
def spaceSuffix : Bytes → Nat
  | 0x85 :: 0xC2 :: _ => 2
  | 0xA0 :: 0xC2 :: _ => 2
  | 0x80 :: 0x9A :: 0xE1 :: _ => 3
  | 0x9F :: 0x81 :: 0xE2 :: _ => 3
  | 0x80 :: 0x80 :: 0xE3 :: _ => 3
  | x :: 0x80 :: 0xE2 :: _ =>
    if (0x80 ≤ x ∧ x ≤ 0x8A) ∨ x = 0xA8 ∨ x = 0xA9 ∨ x = 0xAF then 3 else 0
  | b :: _ => if b = 9 ∨ b = 10 ∨ b = 11 ∨ b = 12 ∨ b = 13 ∨ b = 32 then 1 else 0
  | [] => 0

/-- Drop leading white space; `fuel` bounds the number of characters dropped. -/
def trimLeftFuel : Nat → Bytes → Bytes
  | 0, s => s
  | fuel + 1, s => if spacePrefix s = 0 then s else trimLeftFuel fuel (s.drop (spacePrefix s))

/-- Drop trailing white space of the string whose reversal is `r` (result reversed too). -/
def trimRightFuel : Nat → Bytes → Bytes
  | 0, r => r
  | fuel + 1, r => if spaceSuffix r = 0 then r else trimRightFuel fuel (r.drop (spaceSuffix r))

/-- Go `strings.TrimSpace`: the string without its leading and trailing white space. -/
def TrimSpace (s : Bytes) : Bytes :=
  let t := trimLeftFuel s.length s
  (trimRightFuel t.length t.reverse).reverse

/-- Value of a string of decimal digits; `none` if some byte is not a digit. -/
def digitsValue : Bytes → Nat → Option Nat
  | [], acc => some acc
  | d :: ds, acc => if 48 ≤ d ∧ d ≤ 57 then digitsValue ds (acc * 10 + (d - 48)) else none

/-- Go `strconv.Atoi` on a 64-bit platform: an optional sign, then one or more decimal
digits, the value within the range of `int`; `none` stands for the returned error. -/
def Atoi (s : Bytes) : Option Int :=
  let (neg, ds) : Bool × Bytes :=
    match s with
    | 45 :: ds => (true, ds)
    | 43 :: ds => (false, ds)
    | ds => (false, ds)
  if ds = [] then none
  else match digitsValue ds 0 with
    | none => none
    | some n =>
      if neg then (if n ≤ 2 ^ 63 then some (-(n : Int)) else none)
      else (if n < 2 ^ 63 then some (n : Int) else none)

/-- Decimal digits of `n`, most significant first, in front of `acc`. -/
def natDigits : Nat → Nat → Bytes → Bytes
  | 0, _, acc => acc
  | fuel + 1, n, acc =>
    if n < 10 then (48 + n) :: acc else natDigits fuel (n / 10) ((48 + n % 10) :: acc)

/-- Go `fmt.Sprintf("%d", n)` for a natural number. -/
def natToDec (n : Nat) : Bytes := natDigits (n + 1) n []

/-- Go `fmt.Sprintf("%d", i)`: decimal, with a minus sign when negative. -/
def intToDec (i : Int) : Bytes :=
  if i < 0 then 45 :: natToDec i.natAbs else natToDec i.natAbs

/-! ## Go maps -/

/-- A Go `map[string]string`, as the list of its entries (one entry per key). -/
abbrev Headers := List (Bytes × Bytes)

/-- Map lookup `m[k]` with the `ok` flag: `none` when the key is absent. -/
def mapGet : Headers → Bytes → Option Bytes
  | [], _ => none
  | (k', v) :: m, k => if k' = k then some v else mapGet m k

/-- Map assignment `m[k] = v`: replaces the entry of `k` if there is one, adds one otherwise. -/
def mapSet : Headers → Bytes → Bytes → Headers
  | [], k, v => [(k, v)]
  | (k', v') :: m, k, v => if k' = k then (k, v) :: m else (k', v') :: mapSet m k v

/-- The keys of a map. -/
def mapKeys (m : Headers) : List Bytes := m.map Prod.fst

/-! ## The connection -/

/-- The errors a read of the connection reports: `io.EOF`, a `net.Error` whose
`Timeout()` is true, and any other error. -/
inductive NetErr where
  | EOF
  | Timeout
  | Other
  deriving DecidableEq

/-- What the peer does next: a segment of bytes arrives together, nothing arrives
for longer than a read deadline, or the connection breaks. -/
inductive Event where
  | data (bs : Bytes)
  | idle
  | reset
  deriving DecidableEq

/-- How a call of `conn.Write` ends: all bytes accepted, or an error after `n` bytes. -/
inductive WriteOutcome where
  | ok
  | fail (n : Nat)
  deriving DecidableEq

/-- A `net.Conn`: the inbound events still to come (end of stream after the last one),
whether a read deadline is set, the outcome of the coming writes (success once the
script is used up), the payload of every `Write` call so far, the bytes the stream
accepted, and whether `Close` was called. -/
structure Conn where
  input : List Event
  deadline : Bool
  wscript : List WriteOutcome
  written : List Bytes
  wire : Bytes
  closed : Bool
  deriving DecidableEq

/-- One read of at most `n ≥ 1` bytes from the event script: bytes of the first
non-empty segment (what does not fit stays for the next read), a time-out when the
peer is idle and a deadline is set (without deadline the read waits), `io.EOF` at the
end of the stream. -/
def recv (deadline : Bool) (n : Nat) : List Event → (Bytes × Option NetErr) × List Event
  | [] => (([], some .EOF), [])
  | .data bs :: rest =>
    if bs = [] then recv deadline n rest
    else if bs.length ≤ n then ((bs, none), rest)
    else ((bs.take n, none), .data (bs.drop n) :: rest)
  | .idle :: rest => if deadline then (([], some .Timeout), rest) else recv deadline n rest
  | .reset :: rest => (([], some .Other), rest)

/-- Go `conn.Read(p)` with `len(p) = n`: the bytes read and the error; a zero-length
read returns at once. -/
def Conn.Read (c : Conn) (n : Nat) : (Bytes × Option NetErr) × Conn :=
  if n = 0 then (([], none), c)
  else ((recv c.deadline n c.input).1, { c with input := (recv c.deadline n c.input).2 })

/-- Go `conn.SetReadDeadline`: `true` for a deadline in the future, `false` for the zero time. -/
def Conn.SetReadDeadline (c : Conn) (d : Bool) : Conn := { c with deadline := d }

/-- Go `conn.Write(p)`: `true` when an error is returned. -/
def Conn.Write (c : Conn) (p : Bytes) : Bool × Conn :=
  match c.wscript with
  | [] => (false, { c with written := c.written ++ [p], wire := c.wire ++ p })
  | .ok :: ws => (false, { c with wscript := ws, written := c.written ++ [p], wire := c.wire ++ p })
  | .fail n :: ws =>
    (true, { c with wscript := ws, written := c.written ++ [p], wire := c.wire ++ p.take n })

/-- Go `conn.Close()`. -/
def Conn.Close (c : Conn) : Conn := { c with closed := true }

/-- Size of the inbound script: one per event plus one per byte.  Every read that
does not report end of stream makes it smaller. -/
def weight : List Event → Nat
  | [] => 0
  | .data bs :: rest => bs.length + 1 + weight rest
  | _ :: rest => 1 + weight rest

/-! ## `bufio.Reader` -/

/-- Default buffer size of `bufio.NewReader`. -/
def bufSize : Nat := 4096

/-- Split `s` after the first occurrence of the byte `d`: the bytes up to and including
it, and the rest; `none` when `d` does not occur. -/
def cutAfter (d : Nat) : Bytes → Option (Bytes × Bytes)
  | [] => none
  | b :: rest =>
    if b = d then some ([b], rest)
    else match cutAfter d rest with
      | none => none
      | some (a, r) => some (b :: a, r)

/-- The loop of `bufio.Reader.ReadBytes('\n')`.  `buf` holds the bytes fetched from the
connection and not yet handed out, `acc` the full buffers already set aside.  A line
feed in the buffer ends the call; otherwise a full buffer is set aside and the reader
fetches what one `Read` of the free space gives. An error of that `Read` ends the call
with the bytes collected so far.  Result: bytes, error, the reader's buffer, the
connection; `none` when `fuel` runs out. -/
def ReadBytesFuel : Nat → Bytes → Bytes → Conn → Option ((Bytes × Option NetErr) × Bytes × Conn)
  | 0, _, _, _ => none
  | fuel + 1, acc, buf, c =>
    match cutAfter 10 buf with
    | some (line, rest) => some ((acc ++ line, none), rest, c)
    | none =>
      let acc1 := if bufSize ≤ buf.length then acc ++ buf else acc
      let buf1 := if bufSize ≤ buf.length then [] else buf
      match c.Read (bufSize - buf1.length) with
      | ((bs, some e), c1) => some ((acc1 ++ buf1 ++ bs, some e), [], c1)
      | ((bs, none), c1) => ReadBytesFuel fuel acc1 (buf1 ++ bs) c1

/-- Go `reader.ReadBytes('\n')` on a reader whose buffer holds `buf`. -/
def ReadBytes (buf : Bytes) (c : Conn) : (Bytes × Option NetErr) × Bytes × Conn :=
  (ReadBytesFuel (weight c.input + 1) [] buf c).getD (([], some .Other), [], c)

/-! ## `app/http/request.go` -/

/-- The loop of `readUntilCRLF`: `buf` is the `bytes.Buffer`, `rd` the buffer of the
`bufio.Reader` created at the start of the call.  Result: the string, the error, the
connection; `none` when `fuel` runs out. -/
def readLoopFuel : Nat → Bytes → Bytes → Conn → Option ((Bytes × Option NetErr) × Conn)
  | 0, _, _, _ => none
  | fuel + 1, buf, rd, c =>
    match ReadBytes rd c with
    | ((_, some .EOF), _, c1) => some ((buf, some .EOF), c1)
    | ((_, some .Timeout), _, c1) => some ((buf, none), c1)
    | ((_, some .Other), _, c1) => some (([], some .Other), c1)
    | ((line, none), rd1, c1) =>
      let result := buf ++ line
      if 2 ≤ result.length ∧ result.drop (result.length - 2) = CRLF then
        some ((result.take (result.length - 2), none), c1)
      else readLoopFuel fuel result rd1 c1

/-- The function `readUntilCRLF`: sets the read deadline, creates a new `bufio.Reader`
(empty buffer) on the connection, runs the loop, and clears the deadline on return.
Whatever that reader still holds in its buffer is dropped with it. -/
def readUntilCRLF (c : Conn) : (Bytes × Option NetErr) × Conn :=
  let r := (readLoopFuel (weight c.input + 1) [] [] (c.SetReadDeadline true)).getD
    (([], some .Other), c.SetReadDeadline true)
  (r.1, r.2.SetReadDeadline false)

/-- The struct `Request`. -/
structure Request where
  Method : Bytes
  RequestTarget : Bytes
  Version : Bytes
  Headers : Headers
  deriving DecidableEq

/-- The errors of `ParseRequest`: reading the request line failed, the request line
has not three tokens (with their number), reading a header failed, a header line has
no colon (with the line). -/
inductive ParseErr where
  | readRequestLine (e : NetErr)
  | badRequestLine (tokens : Nat)
  | readHeader (e : NetErr)
  | badHeader (line : Bytes)
  deriving DecidableEq

deriving instance DecidableEq for Except

/-- The function `parseRequestLine`. -/
def parseRequestLine (req : Request) (c : Conn) : Except ParseErr Request × Conn :=
  match readUntilCRLF c with
  | ((_, some e), c1) => (.error (.readRequestLine e), c1)
  | ((line, none), c1) =>
    let tokens := Split 32 line
    if tokens.length ≠ 3 then (.error (.badRequestLine tokens.length), c1)
    else (.ok { req with Method := tokens.getD 0 [], RequestTarget := tokens.getD 1 [],
                         Version := tokens.getD 2 [] }, c1)

/-- The request after the assignment `req.Headers[key] = value` of `parseHeaders` for
a header line: `key` and `value` are the trimmed parts of `strings.SplitN(line, ":", 2)`. -/
def storeHeader (req : Request) (line : Bytes) : Request :=
  let parts := SplitN 58 2 line
  let key := TrimSpace (parts.getD 0 [])
  let value := TrimSpace (parts.getD 1 [])
  { req with Headers := mapSet req.Headers key value }

/-- The loop of `parseHeaders`; `none` when `fuel` runs out. -/
def parseHeadersFuel : Nat → Request → Conn → Option (Except ParseErr Request × Conn)
  | 0, _, _ => none
  | fuel + 1, req, c =>
    match readUntilCRLF c with
    | ((_, some e), c1) => some (.error (.readHeader e), c1)
    | ((line, none), c1) =>
      if line = [] then some (.ok req, c1)
      else
        let parts := SplitN 58 2 line
        if parts.length ≠ 2 then some (.error (.badHeader line), c1)
        else parseHeadersFuel fuel (storeHeader req line) c1

/-- The function `parseHeaders`. -/
def parseHeaders (req : Request) (c : Conn) : Except ParseErr Request × Conn :=
  (parseHeadersFuel (weight c.input + 1) req c).getD (.error (.readHeader .Other), c)

/-- The function `ParseRequest`. -/
def ParseRequest (c : Conn) : Except ParseErr Request × Conn :=
  match parseRequestLine { Method := [], RequestTarget := [], Version := [], Headers := [] } c with
  | (.error e, c1) => (.error e, c1)
  | (.ok req, c1) =>
    match parseHeaders req c1 with
    | (.error e, c2) => (.error e, c2)
    | (.ok req2, c2) => (.ok req2, c2)

/-- The errors of `ReadBody`: no `Content-Length` header, a value `strconv.Atoi`
rejects, a failed read. -/
inductive BodyErr where
  | missingContentLength
  | invalidContentLength
  | read (e : NetErr)
  deriving DecidableEq

/-- How a call of `ReadBody` ends: with the data, with an error, or in a run-time
panic of `make([]byte, contentLength)`. -/
inductive BodyResult where
  | data (bs : Bytes)
  | error (e : BodyErr)
  | panic
  deriving DecidableEq

/-- The function `ReadBody`.  `memLimit` is the largest slice the run time can
allocate: `make` panics on a negative length and on one above the limit.  The slice of
`contentLength` zero bytes is filled by ONE `Read`, and returned whole. -/
def ReadBody (memLimit : Nat) (req : Request) (c : Conn) : BodyResult × Conn :=
  match mapGet req.Headers (ascii "Content-Length") with
  | none => (.error .missingContentLength, c)
  | some contentLengthStr =>
    match Atoi contentLengthStr with
    | none => (.error .invalidContentLength, c)
    | some contentLength =>
      if contentLength < 0 ∨ (memLimit : Int) < contentLength then (.panic, c)
      else
        match c.Read contentLength.toNat with
        | ((bs, none), c1) => (.data (bs ++ List.replicate (contentLength.toNat - bs.length) 0), c1)
        | ((bs, some .EOF), c1) =>
          (.data (bs ++ List.replicate (contentLength.toNat - bs.length) 0), c1)
        | ((_, some e), c1) => (.error (.read e), c1)

/-- A connection with the given inbound events and nothing written yet. -/
def Conn.fresh (input : List Event) : Conn :=
  { input := input, deadline := false, wscript := [], written := [], wire := [], closed := false }

/-! ## `app/http/response.go` -/

/-- The struct `Response`; `Body = none` is the nil slice. -/
structure Response where
  StatusCode : Int
  StatusText : Bytes
  Headers : Headers
  Body : Option Bytes
  deriving DecidableEq

/-- What the program takes from its environment: the order in which `range` visits
the entries of a map (it may differ from one write to the next, and always visits
every entry once), the gzip compressor (`none` for its error), and the largest slice
the run time can allocate. -/
structure Env where
  order : Nat → Headers → Headers
  order_perm : ∀ (n : Nat) (m : Headers), (order n m).Perm m
  gzip : Bytes → Option Bytes
  memLimit : Nat

/-- The line `fmt.Sprintf("%s: %s%s", key, value, CRLF)` of one header. -/
def headerLine (kv : Bytes × Bytes) : Bytes := kv.1 ++ ascii ": " ++ kv.2 ++ CRLF

/-- The bytes `WriteResponse` builds when `range` visits the headers in the order `hs`. -/
def responseBytes (resp : Response) (hs : Headers) : Bytes :=
  let statusLine := ascii "HTTP/1.1 " ++ intToDec resp.StatusCode ++ [32] ++ resp.StatusText ++ CRLF
  let headers := (hs.map headerLine).flatten ++ CRLF
  let response := statusLine ++ headers
  match resp.Body with
  | some body => response ++ body
  | none => response

/-- The function `WriteResponse`: builds the bytes and hands them to one `conn.Write`;
`true` when the write error is returned. -/
def WriteResponse (env : Env) (resp : Response) (c : Conn) : Bool × Conn :=
  c.Write (responseBytes resp (env.order c.written.length resp.Headers))

/-- The function `StatusCodeToText`. -/
def StatusCodeToText (code : Int) : Bytes :=
  if code = 200 then ascii "OK"
  else if code = 201 then ascii "Created"
  else if code = 400 then ascii "Bad Request"
  else if code = 404 then ascii "Not Found"
  else if code = 500 then ascii "Internal Server Error"
  else ascii "Unknown"

/-! ## `app/compression/compression.go` -/

/-- The function `SupportsGzip`. -/
def SupportsGzip (acceptEncoding : Bytes) : Bool :=
  if acceptEncoding = [] then false
  else (Split 44 acceptEncoding).any fun enc => decide (TrimSpace enc = ascii "gzip")

/-! ## `app/handler/handlers.go` and `app/handler/router.go` -/

/-- The struct `handler.Config`. -/
structure Config where
  Directory : Bytes
  deriving DecidableEq

/-- What a path of the file system holds: nothing (a file can be created there),
nothing and no directory to create a file in (`os.Open` reports that the file does not
exist, `os.WriteFile` fails), a file that can be neither opened nor written, a file that
opens but cannot be read, or a file with its content. -/
inductive FileState where
  | absent
  | noDirectory
  | denied
  | unreadable
  | content (bs : Bytes)
  deriving DecidableEq

/-- What a handler acts on: the connection and the file system (paths are compared as
written). -/
structure World where
  conn : Conn
  files : List (Bytes × FileState)
  deriving DecidableEq

/-- The state of a path. -/
def World.file (w : World) (path : Bytes) : FileState :=
  match w.files.find? (fun e => decide (e.1 = path)) with
  | some e => e.2
  | none => .absent

/-- Go `os.WriteFile`: `true` when it fails (the path cannot be opened for writing: the
file is denied, or there is no directory to create it in). -/
def World.WriteFile (w : World) (path : Bytes) (body : Bytes) : Bool × World :=
  if w.file path = .denied ∨ w.file path = .noDirectory then (true, w)
  else (false, { w with files := (path, .content body) :: w.files })

/-- How a call of a handler ends: it returns (`true` with an error), the process
exits through `os.Exit`, or the goroutine panics. -/
inductive Fate where
  | returned (err : Bool)
  | exit (code : Nat)
  | panic
  deriving DecidableEq

/-- A regular expression `^` prefix `(.+)$`: the text after the prefix when `s`
starts with the prefix and goes on with one or more bytes, none a line feed (`.` does
not match `\n`, `$` matches at the end of the text only); `none` when `s` does not match. -/
def matchAfter (pre : Bytes) (s : Bytes) : Option Bytes :=
  if s.take pre.length = pre ∧ s.drop pre.length ≠ [] ∧ 10 ∉ s.drop pre.length then
    some (s.drop pre.length)
  else none

/-- The regular expression `^/echo/(.+)$`: its first submatch. -/
def EchoEndpointRegex (s : Bytes) : Option Bytes := matchAfter (ascii "/echo/") s

/-- The regular expression `^/files/(.+)$`: its first submatch. -/
def FileEndpointRegex (s : Bytes) : Option Bytes := matchAfter (ascii "/files/") s

/-- Send `resp` with `WriteResponse` and return its error. -/
def respond (env : Env) (resp : Response) (w : World) : Fate × World :=
  (.returned (WriteResponse env resp w.conn).1, { w with conn := (WriteResponse env resp w.conn).2 })

/-- The function `RootHandler`. -/
def RootHandler (env : Env) (_config : Config) (_req : Request) (w : World) : Fate × World :=
  respond env { StatusCode := 200, StatusText := StatusCodeToText 200, Headers := [], Body := none } w

/-- The function `NotFoundHandler`. -/
def NotFoundHandler (env : Env) (_config : Config) (_req : Request) (w : World) : Fate × World :=
  respond env { StatusCode := 404, StatusText := StatusCodeToText 404, Headers := [], Body := none } w

/-- The function `BadRequestHandler`. -/
def BadRequestHandler (env : Env) (_config : Config) (_req : Request) (w : World) : Fate × World :=
  respond env { StatusCode := 400, StatusText := StatusCodeToText 400, Headers := [], Body := none } w

/-- The function `InternalServerErrorHandler`. -/
def InternalServerErrorHandler (env : Env) (_config : Config) (_req : Request) (w : World) :
    Fate × World :=
  respond env { StatusCode := 500, StatusText := StatusCodeToText 500, Headers := [], Body := none } w

/-- The function `EchoHandler`. -/
def EchoHandler (env : Env) (config : Config) (req : Request) (w : World) : Fate × World :=
  match EchoEndpointRegex req.RequestTarget with
  | none => NotFoundHandler env config req w
  | some str =>
    let acceptEncoding := (mapGet req.Headers (ascii "Accept-Encoding")).getD []
    if SupportsGzip acceptEncoding then
      match env.gzip str with
      | none => InternalServerErrorHandler env config req w
      | some compressed =>
        respond env
          { StatusCode := 200, StatusText := StatusCodeToText 200,
            Headers := mapSet (mapSet (mapSet [] (ascii "Content-Type") (ascii "text/plain"))
              (ascii "Content-Encoding") (ascii "gzip"))
              (ascii "Content-Length") (natToDec compressed.length),
            Body := some compressed } w
    else
      respond env
        { StatusCode := 200, StatusText := StatusCodeToText 200,
          Headers := mapSet (mapSet [] (ascii "Content-Type") (ascii "text/plain"))
            (ascii "Content-Length") (natToDec str.length),
          Body := some str } w

/-- The function `UserAgentHandler`. -/
def UserAgentHandler (env : Env) (_config : Config) (req : Request) (w : World) : Fate × World :=
  match mapGet req.Headers (ascii "User-Agent") with
  | none => (.exit 1, w)
  | some userAgent =>
    respond env
      { StatusCode := 200, StatusText := StatusCodeToText 200,
        Headers := [(ascii "Content-Type", ascii "text/plain"),
                    (ascii "Content-Length", natToDec userAgent.length)],
        Body := some userAgent } w

/-- The function `GetFileHandler`. -/
def GetFileHandler (env : Env) (config : Config) (req : Request) (w : World) : Fate × World :=
  if config.Directory = [] then InternalServerErrorHandler env config req w
  else
    match FileEndpointRegex req.RequestTarget with
    | none => BadRequestHandler env config req w
    | some filename =>
      if filename = [] then BadRequestHandler env config req w
      else
        match w.file (config.Directory ++ ascii "/" ++ filename) with
        | .absent => NotFoundHandler env config req w
        | .noDirectory => NotFoundHandler env config req w
        | .denied => InternalServerErrorHandler env config req w
        | .unreadable => InternalServerErrorHandler env config req w
        | .content content =>
          respond env
            { StatusCode := 200, StatusText := StatusCodeToText 200,
              Headers := [(ascii "Content-Type", ascii "application/octet-stream"),
                          (ascii "Content-Length", natToDec content.length)],
              Body := some content } w

/-- The function `SaveFileHandler`. -/
def SaveFileHandler (env : Env) (config : Config) (req : Request) (w : World) : Fate × World :=
  if config.Directory = [] then InternalServerErrorHandler env config req w
  else
    match FileEndpointRegex req.RequestTarget with
    | none => BadRequestHandler env config req w
    | some filename =>
      if filename = [] then BadRequestHandler env config req w
      else
        match ReadBody env.memLimit req w.conn with
        | (.panic, c1) => (.panic, { w with conn := c1 })
        | (.error _, c1) => InternalServerErrorHandler env config req { w with conn := c1 }
        | (.data body, c1) =>
          match World.WriteFile { w with conn := c1 } (config.Directory ++ ascii "/" ++ filename) body with
          | (true, w1) => InternalServerErrorHandler env config req w1
          | (false, w1) =>
            respond env
              { StatusCode := 201, StatusText := StatusCodeToText 201, Headers := [], Body := none } w1

/-- The function `Router.HandleRequest`. -/
def HandleRequest (env : Env) (config : Config) (req : Request) (w : World) : Fate × World :=
  if req.RequestTarget = ascii "/" then RootHandler env config req w
  else if req.RequestTarget = ascii "/user-agent" then UserAgentHandler env config req w
  else if (EchoEndpointRegex req.RequestTarget).isSome then EchoHandler env config req w
  else if (FileEndpointRegex req.RequestTarget).isSome then
    if req.Method = ascii "GET" then GetFileHandler env config req w
    else if req.Method = ascii "POST" then SaveFileHandler env config req w
    else NotFoundHandler env config req w
  else NotFoundHandler env config req w

/-- The function `Router.ShouldCloseConnection`. -/
def ShouldCloseConnection (req : Request) : Bool :=
  match mapGet req.Headers (ascii "Connection") with
  | some connection => decide (connection = ascii "close")
  | none => false

/-! ## `app/server/server.go` -/

/-- Where a connection stands after one turn of the loop of `handleConnection`:
back at the top of the loop, closed (the function returned), or gone with the
process (exit or panic in a handler). -/
inductive Phase where
  | awaiting
  | closed
  | dead
  deriving DecidableEq

/-- One turn of the loop of `handleConnection`: the request parsed in this turn (if
one was), whether `HandleRequest` returned an error, the phase, the world.  A parse
error returns from the function, and so does `Connection: close`; the deferred
`conn.Close()` runs on every return.  An error of `HandleRequest` is printed and
nothing else. -/
def turn (env : Env) (config : Config) (w : World) : Option Request × Bool × Phase × World :=
  match ParseRequest w.conn with
  | (.error _, c1) => (none, false, .closed, { w with conn := c1.Close })
  | (.ok req, c1) =>
    match HandleRequest env config req { w with conn := c1 } with
    | (.exit _, w1) => (some req, false, .dead, w1)
    | (.panic, w1) => (some req, false, .dead, w1)
    | (.returned err, w1) =>
      if ShouldCloseConnection req then (some req, err, .closed, { w1 with conn := w1.conn.Close })
      else (some req, err, .awaiting, w1)

/-- The loop of `handleConnection`: the requests parsed, in order, the final phase
and world; `none` when `fuel` runs out. -/
def handleConnectionFuel (env : Env) (config : Config) :
    Nat → World → Option (List Request × Phase × World)
  | 0, _ => none
  | fuel + 1, w =>
    match turn env config w with
    | (some req, _, .awaiting, w1) =>
      match handleConnectionFuel env config fuel w1 with
      | some (reqs, ph, w2) => some (req :: reqs, ph, w2)
      | none => none
    | (some req, _, ph, w1) => some ([req], ph, w1)
    | (none, _, ph, w1) => some ([], ph, w1)

/-- The function `handleConnection`. -/
def handleConnection (env : Env) (config : Config) (w : World) : List Request × Phase × World :=
  (handleConnectionFuel env config (weight w.conn.input + 1) w).getD ([], .closed, w)

/-- An environment whose `range` visits the entries in the order of the list. -/
def Env.plain : Env :=
  { order := fun _ m => m, order_perm := fun _ m => List.Perm.refl m,
    gzip := fun bs => some bs, memLimit := 2 ^ 32 }

/-! ## Vocabulary of the statements -/

/-- The results of the next `n` calls of `readUntilCRLF`, and the connection after them. -/
def readLines : Nat → Conn → List (Bytes × Option NetErr) × Conn
  | 0, c => ([], c)
  | n + 1, c =>
    ((readUntilCRLF c).1 :: (readLines n (readUntilCRLF c).2).1, (readLines n (readUntilCRLF c).2).2)

/-- The name a header line carries: the text before its first colon, trimmed. -/
def headerName (line : Bytes) : Bytes := TrimSpace ((SplitN 58 2 line).getD 0 [])

/-- The value a header line carries: the text after its first colon, trimmed. -/
def headerValue (line : Bytes) : Bytes := TrimSpace ((SplitN 58 2 line).getD 1 [])

/-- The value of the last line of `lines` that carries the name `k`, if there is one. -/
def lastValue (k : Bytes) : List Bytes → Option Bytes
  | [] => none
  | l :: ls =>
    match lastValue k ls with
    | some v => some v
    | none => if headerName l = k then some (headerValue l) else none

/-- The body of the loop of `handleConnection`, with the rest of the loop as `k`. -/
def loopBody (t : Option Request × Bool × Phase × World)
    (k : World → Option (List Request × Phase × World)) : Option (List Request × Phase × World) :=
  match t with
  | (some req, _, .awaiting, w1) =>
    match k w1 with
    | some (reqs, ph, w2) => some (req :: reqs, ph, w2)
    | none => none
  | (some req, _, ph, w1) => some ([req], ph, w1)
  | (none, _, ph, w1) => some ([], ph, w1)

/-- The bytes still to come on the connection, in order. -/
def streamBytes : List Event → Bytes
  | [] => []
  | .data bs :: rest => bs ++ streamBytes rest
  | _ :: rest => streamBytes rest

/-- A decimal integer: an optional sign followed by one or more decimal digits. -/
def isDecimalInteger (s : Bytes) : Bool :=
  match s with
  | 45 :: ds => !ds.isEmpty && ds.all fun d => decide (48 ≤ d ∧ d ≤ 57)
  | 43 :: ds => !ds.isEmpty && ds.all fun d => decide (48 ≤ d ∧ d ≤ 57)
  | ds => !ds.isEmpty && ds.all fun d => decide (48 ≤ d ∧ d ≤ 57)

/-- Split `s` at its first CRLF: the text before it and the bytes after it; `none`
when `s` holds no CRLF. -/
def cutCRLF : Bytes → Option (Bytes × Bytes)
  | [] => none
  | a :: rest =>
    if a = 13 ∧ rest.head? = some 10 then some ([], rest.tail)
    else match cutCRLF rest with
      | none => none
      | some (l, r) => some (a :: l, r)

/-- The header block of a response read back by the rule of `parseHeaders`: lines up
to CRLF, each split at its first colon, both parts trimmed and stored; the empty line
ends the block and what follows it is the body.  `none` when a line has no colon or
the block does not end. -/
def readBackHeaders : Nat → Headers → Bytes → Option (Headers × Bytes)
  | 0, _, _ => none
  | fuel + 1, m, s =>
    match cutCRLF s with
    | none => none
    | some (line, rest) =>
      if line = [] then some (m, rest)
      else if (SplitN 58 2 line).length ≠ 2 then none
      else readBackHeaders fuel (mapSet m (headerName line) (headerValue line)) rest

/-- The parse of the round trip, from the words of the claim: the status line is
split into version, code and text, the header block is parsed by the rule of
`parseHeaders`, and the remainder is the body.  Result: status code, headers, body. -/
def readBack (s : Bytes) : Option (Int × Headers × Bytes) :=
  match cutCRLF s with
  | none => none
  | some (statusLine, rest) =>
    match SplitN 32 3 statusLine with
    | [_, code, _] =>
      match Atoi code with
      | none => none
      | some n =>
        match readBackHeaders (rest.length + 1) [] rest with
        | none => none
        | some (m, body) => some (n, m, body)
    | _ => none

/-- The segments of lines that arrive one per read, each with its CRLF. -/
def lineSegments (lines : List Bytes) : List Event := lines.map fun l => Event.data (l ++ CRLF)

/-- What the handlers keep to in every response: the status text is the text of the
status code, and a response with a body declares the byte length of that body, in
decimal, in its `Content-Length` header. -/
def wellFormedResponse (resp : Response) : Prop :=
  resp.StatusText = StatusCodeToText resp.StatusCode ∧
  ∀ body, resp.Body = some body →
    mapGet resp.Headers (ascii "Content-Length") = some (natToDec body.length)

/-- How a call of a handler can end: it hands ONE well-formed response to
`WriteResponse` (on the world the handler's own reads and file writes left), or the
process exits, or the goroutine panics. -/
def sendsWellFormed (env : Env) (out : Fate × World) : Prop :=
  (∃ resp w1, out = respond env resp w1 ∧ wellFormedResponse resp) ∨
  out.1 = .exit 1 ∨ out.1 = .panic

/-- The bytes of `s` up to and including its last line feed; nothing when `s` holds no
line feed. -/
def throughLastLF : Bytes → Bytes
  | [] => []
  | b :: rest => if b = 10 ∨ 10 ∈ rest then b :: throughLastLF rest else []

/-! ## Reads consume the inbound script -/

theorem recv_weight_le (d : Bool) (n : Nat) (evs : List Event) :
    weight (recv d n evs).2 ≤ weight evs := by
  induction evs with
  | nil => simp [recv, weight]
  | cons ev rest ih =>
    cases ev with
    | data bs =>
      simp only [recv]
      split_ifs with h1 h2
      · simp only [weight]; omega
      · simp only [weight]; omega
      · simp only [weight, List.length_drop]; omega
    | idle =>
      simp only [recv]
      split_ifs
      · simp only [weight]; omega
      · simp only [weight]; omega
    | reset => simp only [recv, weight]; omega

theorem recv_data (d : Bool) (n : Nat) (evs : List Event) (hn : 1 ≤ n)
    (h : (recv d n evs).1.2 = none) :
    1 ≤ (recv d n evs).1.1.length ∧
      (recv d n evs).1.1.length + weight (recv d n evs).2 ≤ weight evs := by
  induction evs with
  | nil => simp [recv] at h
  | cons ev rest ih =>
    cases ev with
    | data bs =>
      by_cases h1 : bs = []
      · simp only [recv, h1, if_true] at h ⊢
        have := ih h
        simp only [weight]; omega
      · have hl : bs.length ≠ 0 := by simpa using h1
        by_cases h2 : bs.length ≤ n
        · simp only [recv, h1, h2, if_true, if_false, weight]; omega
        · have h3 : (bs.take n).length = n := by rw [List.length_take]; omega
          have h4 : (bs.drop n).length = bs.length - n := List.length_drop n bs
          simp only [recv, h1, h2, if_false, weight, h3, h4]; omega
    | idle =>
      cases d with
      | true => simp [recv] at h
      | false =>
        simp only [recv, Bool.false_eq_true, if_false] at h ⊢
        have := ih h
        simp only [weight]; omega
    | reset => simp [recv] at h

theorem recv_err (d : Bool) (n : Nat) (evs : List Event) (e : NetErr)
    (h : (recv d n evs).1.2 = some e) :
    (recv d n evs).1.1 = [] ∧ (e ≠ .EOF → weight (recv d n evs).2 < weight evs) := by
  induction evs with
  | nil =>
    simp only [recv, Option.some.injEq] at h
    exact ⟨rfl, fun he => absurd h.symm he⟩
  | cons ev rest ih =>
    cases ev with
    | data bs =>
      by_cases h1 : bs = []
      · simp only [recv, h1, if_true] at h ⊢
        have := ih h
        refine ⟨this.1, fun he => ?_⟩
        have := this.2 he
        simp only [weight]; omega
      · by_cases h2 : bs.length ≤ n
        · simp [recv, h1, h2] at h
        · simp [recv, h1, h2] at h
    | idle =>
      cases d with
      | true =>
        simp only [recv, if_true, weight, true_and]
        intro _; omega
      | false =>
        simp only [recv, Bool.false_eq_true, if_false] at h ⊢
        have := ih h
        refine ⟨this.1, fun he => ?_⟩
        have := this.2 he
        simp only [weight]; omega
    | reset =>
      simp only [recv, weight, true_and]
      intro _; omega

theorem cutAfter_length (d : Nat) (s a r : Bytes) (h : cutAfter d s = some (a, r)) :
    1 ≤ a.length ∧ a.length + r.length = s.length := by
  induction s generalizing a r with
  | nil => simp [cutAfter] at h
  | cons b rest ih =>
    simp only [cutAfter] at h
    split_ifs at h with hb
    · simp only [Option.some.injEq, Prod.mk.injEq] at h
      obtain ⟨rfl, rfl⟩ := h
      simp only [List.length_cons, List.length_nil]; omega
    · cases hc : cutAfter d rest with
      | none => simp [hc] at h
      | some p =>
        obtain ⟨a1, r1⟩ := p
        simp only [hc, Option.some.injEq, Prod.mk.injEq] at h
        obtain ⟨rfl, rfl⟩ := h
        have := ih a1 r1 hc
        simp only [List.length_cons]; omega

theorem Read_input_le (c : Conn) (n : Nat) : weight (c.Read n).2.input ≤ weight c.input := by
  unfold Conn.Read
  split_ifs
  · exact le_refl _
  · exact recv_weight_le _ _ _

theorem Read_data (c : Conn) (n : Nat) (hn : 1 ≤ n) (h : (c.Read n).1.2 = none) :
    1 ≤ (c.Read n).1.1.length ∧ (c.Read n).1.1.length + weight (c.Read n).2.input ≤ weight c.input := by
  have hn0 : n ≠ 0 := by omega
  simp only [Conn.Read, hn0, if_false] at h ⊢
  exact recv_data _ _ _ hn h

theorem Read_err (c : Conn) (n : Nat) (e : NetErr) (hn : 1 ≤ n) (h : (c.Read n).1.2 = some e) :
    (c.Read n).1.1 = [] ∧ (e ≠ .EOF → weight (c.Read n).2.input < weight c.input) := by
  have hn0 : n ≠ 0 := by omega
  simp only [Conn.Read, hn0, if_false] at h ⊢
  exact recv_err _ _ _ e h

/-- With more fuel than the weight of the inbound script the loop of `ReadBytes` ends;
a successful call takes at least one byte out of reader buffer and script together. -/
theorem ReadBytesFuel_spec (fuel : Nat) : ∀ (acc buf : Bytes) (c : Conn), weight c.input < fuel →
    ∃ r, ReadBytesFuel fuel acc buf c = some r ∧ weight r.2.2.input ≤ weight c.input ∧
      (r.1.2 = none → r.2.1.length + weight r.2.2.input < buf.length + weight c.input) ∧
      (∀ e, r.1.2 = some e → e ≠ .EOF → weight r.2.2.input < weight c.input) := by
  induction fuel with
  | zero => intro _ _ c h; omega
  | succ fuel ih =>
    intro acc buf c hf
    unfold ReadBytesFuel
    cases hc : cutAfter 10 buf with
    | some p =>
      obtain ⟨line, rest⟩ := p
      have := cutAfter_length 10 buf line rest hc
      refine ⟨_, rfl, le_refl _, fun _ => ?_, fun e he => ?_⟩
      · simp only; omega
      · simp at he
    | none =>
      simp only
      have hb : 1 ≤ bufSize - (if bufSize ≤ buf.length then ([] : Bytes) else buf).length := by
        split_ifs with hfull
        · simp [bufSize]
        · omega
      have hl : (if bufSize ≤ buf.length then ([] : Bytes) else buf).length ≤ buf.length := by
        split_ifs <;> simp
      generalize (if bufSize ≤ buf.length then ([] : Bytes) else buf) = buf1 at hb hl ⊢
      generalize (if bufSize ≤ buf.length then acc ++ buf else acc) = acc1
      have hle := Read_input_le c (bufSize - buf1.length)
      have hd := Read_data c (bufSize - buf1.length) hb
      have he := Read_err c (bufSize - buf1.length)
      rcases hr : c.Read (bufSize - buf1.length) with ⟨⟨bs, e⟩, c1⟩
      rw [hr] at hle hd he
      cases e with
      | some e =>
        refine ⟨_, rfl, hle, fun h => ?_, fun e1 he1 hne => ?_⟩
        · simp at h
        · simp only [Option.some.injEq] at he1
          subst he1
          exact (he e hb rfl).2 hne
      | none =>
        have hd := hd rfl
        simp only at hd hle
        obtain ⟨r, hr1, hr2, hr3, hr4⟩ := ih acc1 (buf1 ++ bs) c1 (by omega)
        refine ⟨r, hr1, by omega, fun h => ?_, fun e1 he1 hne => ?_⟩
        · have := hr3 h
          simp only [List.length_append] at this
          omega
        · have := hr4 e1 he1 hne
          omega

theorem ReadBytes_spec (buf : Bytes) (c : Conn) :
    weight (ReadBytes buf c).2.2.input ≤ weight c.input ∧
      ((ReadBytes buf c).1.2 = none →
        (ReadBytes buf c).2.1.length + weight (ReadBytes buf c).2.2.input < buf.length + weight c.input) ∧
      (∀ e, (ReadBytes buf c).1.2 = some e → e ≠ .EOF →
        weight (ReadBytes buf c).2.2.input < weight c.input) := by
  obtain ⟨r, h1, h2⟩ := ReadBytesFuel_spec (weight c.input + 1) [] buf c (by omega)
  simp only [ReadBytes, h1, Option.getD_some]
  exact h2

/-- With more fuel than reader buffer and script together the loop of `readUntilCRLF`
ends; a call that returns no error has consumed part of the script. -/
theorem readLoopFuel_spec (fuel : Nat) : ∀ (buf rd : Bytes) (c : Conn),
    rd.length + weight c.input < fuel →
    ∃ r, readLoopFuel fuel buf rd c = some r ∧ weight r.2.input ≤ weight c.input ∧
      (r.1.2 = none → weight r.2.input < rd.length + weight c.input) := by
  induction fuel with
  | zero => intro _ _ c h; omega
  | succ fuel ih =>
    intro buf rd c hf
    unfold readLoopFuel
    obtain ⟨h1, h2, h3⟩ := ReadBytes_spec rd c
    rcases hr : ReadBytes rd c with ⟨⟨line, e⟩, rd1, c1⟩
    rw [hr] at h1 h2 h3
    simp only at h1 h2 h3
    cases e with
    | some e =>
      cases e with
      | EOF => exact ⟨_, rfl, h1, fun h => by simp at h⟩
      | Timeout =>
        refine ⟨_, rfl, h1, fun _ => ?_⟩
        have := h3 .Timeout rfl (by decide)
        simp only; omega
      | Other => exact ⟨_, rfl, h1, fun h => by simp at h⟩
    | none =>
      have h2 := h2 rfl
      simp only
      split_ifs with hcr
      · refine ⟨_, rfl, h1, fun _ => ?_⟩
        simp only; omega
      · obtain ⟨r, hr1, hr2, hr3⟩ := ih (buf ++ line) rd1 c1 (by omega)
        refine ⟨r, hr1, by omega, fun h => ?_⟩
        have := hr3 h
        omega

theorem readUntilCRLF_eq (c : Conn) :
    ∃ r, readLoopFuel (weight c.input + 1) [] [] (c.SetReadDeadline true) = some r ∧
      readUntilCRLF c = (r.1, r.2.SetReadDeadline false) := by
  obtain ⟨r, h1, _⟩ := readLoopFuel_spec (weight c.input + 1) [] [] (c.SetReadDeadline true)
    (by simp [Conn.SetReadDeadline])
  exact ⟨r, h1, by simp only [readUntilCRLF, h1, Option.getD_some]⟩

/-- Reading a line never adds to the inbound script, and takes from it whenever it
returns without error. -/
theorem readUntilCRLF_weight (c : Conn) :
    weight (readUntilCRLF c).2.input ≤ weight c.input ∧
      ((readUntilCRLF c).1.2 = none → weight (readUntilCRLF c).2.input < weight c.input) := by
  obtain ⟨r, h1, h2, h3⟩ := readLoopFuel_spec (weight c.input + 1) [] [] (c.SetReadDeadline true)
    (by simp [Conn.SetReadDeadline])
  have he : readUntilCRLF c = (r.1, r.2.SetReadDeadline false) := by
    simp only [readUntilCRLF, h1, Option.getD_some]
  rw [he]
  simp only [Conn.SetReadDeadline, List.length_nil, zero_add] at h2 h3 ⊢
  exact ⟨h2, h3⟩

/-- The loop of `parseHeaders` ends with more fuel than the weight of the script, and
its result does not depend on how much more. -/
theorem parseHeadersFuel_spec (fuel : Nat) : ∀ (req : Request) (c : Conn), weight c.input < fuel →
    ∃ r, parseHeadersFuel fuel req c = some r ∧
      ∀ fuel2, weight c.input < fuel2 → parseHeadersFuel fuel2 req c = some r := by
  induction fuel with
  | zero => intro _ c h; omega
  | succ fuel ih =>
    intro req c hf
    obtain ⟨hw1, hw2⟩ := readUntilCRLF_weight c
    have key : ∀ f, weight c.input < f + 1 → parseHeadersFuel (f + 1) req c =
        (match readUntilCRLF c with
        | ((_, some e), c1) => some (.error (.readHeader e), c1)
        | ((line, none), c1) =>
          if line = [] then some (.ok req, c1)
          else if (SplitN 58 2 line).length ≠ 2 then some (.error (.badHeader line), c1)
          else parseHeadersFuel f
            (storeHeader req line) c1) := by
      intro f _
      rw [parseHeadersFuel]
    rcases hr : readUntilCRLF c with ⟨⟨line, e⟩, c1⟩
    rw [hr] at hw1 hw2
    simp only at hw1 hw2
    have hsucc : ∀ fuel2, weight c.input < fuel2 → ∃ f, fuel2 = f + 1 := fun fuel2 h =>
      ⟨fuel2 - 1, by omega⟩
    cases e with
    | some e =>
      refine ⟨_, by rw [key fuel hf, hr], fun fuel2 h2 => ?_⟩
      obtain ⟨f, rfl⟩ := hsucc fuel2 h2
      rw [key f h2, hr]
    | none =>
      have hlt := hw2 rfl
      by_cases hl : line = []
      · refine ⟨(.ok req, c1), by rw [key fuel hf, hr]; simp [hl], fun fuel2 h2 => ?_⟩
        obtain ⟨f, rfl⟩ := hsucc fuel2 h2
        rw [key f h2, hr]; simp [hl]
      · by_cases hp : (SplitN 58 2 line).length ≠ 2
        · refine ⟨(.error (.badHeader line), c1), by rw [key fuel hf, hr]; simp [hl, hp],
            fun fuel2 h2 => ?_⟩
          obtain ⟨f, rfl⟩ := hsucc fuel2 h2
          rw [key f h2, hr]; simp [hl, hp]
        · obtain ⟨r, hr1, hr2⟩ := ih
            (storeHeader req line) c1 (by omega)
          refine ⟨r, by rw [key fuel hf, hr]; simp only [hl, hp, if_false]; exact hr1,
            fun fuel2 h2 => ?_⟩
          obtain ⟨f, rfl⟩ := hsucc fuel2 h2
          rw [key f h2, hr]; simp only [hl, hp, if_false]
          exact hr2 f (by omega)

/-- The loop of `parseHeaders`, one turn at a time: an error of the read is returned;
an empty line ends the loop; a line without colon is an error; any other line is split at
its first colon, both parts are trimmed and stored, and the loop goes on. -/
theorem parseHeaders_unfold (req : Request) (c : Conn) :
    parseHeaders req c =
      (match readUntilCRLF c with
      | ((_, some e), c1) => (.error (.readHeader e), c1)
      | ((line, none), c1) =>
        if line = [] then (.ok req, c1)
        else if (SplitN 58 2 line).length ≠ 2 then (.error (.badHeader line), c1)
        else parseHeaders
          (storeHeader req line) c1) := by
  obtain ⟨hw1, hw2⟩ := readUntilCRLF_weight c
  unfold parseHeaders
  rw [parseHeadersFuel]
  rcases hr : readUntilCRLF c with ⟨⟨line, e⟩, c1⟩
  rw [hr] at hw1 hw2
  simp only at hw1 hw2
  cases e with
  | some e => simp
  | none =>
    have hlt := hw2 rfl
    by_cases hl : line = []
    · simp [hl]
    · by_cases hp : (SplitN 58 2 line).length ≠ 2
      · simp [hl, hp]
      · simp only [hl, hp, if_false]
        obtain ⟨r, _, hr2⟩ := parseHeadersFuel_spec (weight c1.input + 1)
          (storeHeader req line) c1 (by omega)
        rw [hr2 (weight c.input) hlt, hr2 (weight c1.input + 1) (by omega)]
        rfl

theorem ReadBytesFuel_mono (fuel : Nat) : ∀ (acc buf : Bytes) (c : Conn)
    (r : (Bytes × Option NetErr) × Bytes × Conn), ReadBytesFuel fuel acc buf c = some r →
    ∀ k, ReadBytesFuel (fuel + k) acc buf c = some r := by
  induction fuel with
  | zero => intro _ _ _ _ h; simp [ReadBytesFuel] at h
  | succ fuel ih =>
    intro acc buf c r h k
    rw [show fuel + 1 + k = (fuel + k) + 1 by omega]
    rw [ReadBytesFuel] at h ⊢
    cases hc : cutAfter 10 buf with
    | some p => rw [hc] at h; exact h
    | none =>
      rw [hc] at h
      simp only at h ⊢
      rcases hr : c.Read (bufSize - (if bufSize ≤ buf.length then ([] : Bytes) else buf).length)
        with ⟨⟨bs, e⟩, c1⟩
      rw [hr] at h
      cases e with
      | some e => exact h
      | none => exact ih _ _ _ _ h k

/-- A run of the loop of `ReadBytes` with any fuel that is enough gives the result of `ReadBytes`. -/
theorem ReadBytes_of_fuel (fuel : Nat) (buf : Bytes) (c : Conn)
    (r : (Bytes × Option NetErr) × Bytes × Conn) (h : ReadBytesFuel fuel [] buf c = some r) :
    ReadBytes buf c = r := by
  obtain ⟨r2, h2, _⟩ := ReadBytesFuel_spec (weight c.input + 1) [] buf c (by omega)
  have h3 := ReadBytesFuel_mono _ _ _ _ _ h (weight c.input + 1)
  have h4 := ReadBytesFuel_mono _ _ _ _ _ h2 fuel
  rw [show weight c.input + 1 + fuel = fuel + (weight c.input + 1) by omega, h3] at h4
  simp only [ReadBytes, h2, Option.getD_some]
  exact (Option.some.inj h4).symm

theorem readLoopFuel_mono (fuel : Nat) : ∀ (buf rd : Bytes) (c : Conn)
    (r : (Bytes × Option NetErr) × Conn), readLoopFuel fuel buf rd c = some r →
    ∀ k, readLoopFuel (fuel + k) buf rd c = some r := by
  induction fuel with
  | zero => intro _ _ _ _ h; simp [readLoopFuel] at h
  | succ fuel ih =>
    intro buf rd c r h k
    rw [show fuel + 1 + k = (fuel + k) + 1 by omega]
    rw [readLoopFuel] at h ⊢
    rcases hr : ReadBytes rd c with ⟨⟨line, e⟩, rd1, c1⟩
    rw [hr] at h
    cases e with
    | some e => cases e <;> exact h
    | none =>
      simp only at h ⊢
      split_ifs at h ⊢ with hcr
      · exact h
      · exact ih _ _ _ _ h k

/-- A run of the loop of `readUntilCRLF` with any fuel that is enough gives the result
of `readUntilCRLF`. -/
theorem readUntilCRLF_of_fuel (fuel : Nat) (c : Conn) (r : (Bytes × Option NetErr) × Conn)
    (h : readLoopFuel fuel [] [] (c.SetReadDeadline true) = some r) :
    readUntilCRLF c = (r.1, r.2.SetReadDeadline false) := by
  obtain ⟨r2, h2, h5⟩ := readUntilCRLF_eq c
  have h3 := readLoopFuel_mono _ _ _ _ _ h (weight c.input + 1)
  have h4 := readLoopFuel_mono _ _ _ _ _ h2 fuel
  rw [show weight c.input + 1 + fuel = fuel + (weight c.input + 1) by omega, h3] at h4
  rw [h5, ← Option.some.inj h4]

theorem cutAfter_none (d : Nat) (s : Bytes) (h : d ∉ s) : cutAfter d s = none := by
  induction s with
  | nil => rfl
  | cons b rest ih =>
    simp only [List.mem_cons, not_or] at h
    have hb : ¬ b = d := fun h1 => h.1 h1.symm
    simp only [cutAfter, hb, if_false, ih h.2]

theorem cutAfter_first (d : Nat) (pre rest : Bytes) (h : d ∉ pre) :
    cutAfter d (pre ++ d :: rest) = some (pre ++ [d], rest) := by
  induction pre with
  | nil => simp [cutAfter]
  | cons b pre ih =>
    simp only [List.mem_cons, not_or] at h
    have hb : ¬ b = d := fun h1 => h.1 h1.symm
    have ih2 := ih h.2
    rw [List.cons_append, cutAfter]
    simp only [hb, if_false, ih2, List.cons_append]

/-- A line without line feed that arrives with its CRLF as one segment, the segment
fitting the reader's buffer: `readUntilCRLF` returns the line and leaves the following
segments on the connection. -/
theorem readUntilCRLF_segment (c : Conn) (line : Bytes) (rest : List Event)
    (hin : c.input = .data (line ++ CRLF) :: rest) (hlf : 10 ∉ line)
    (hlen : line.length + 2 ≤ bufSize) :
    readUntilCRLF c = ((line, none), { c with input := rest, deadline := false }) := by
  have hread : (c.SetReadDeadline true).Read (bufSize - ([] : Bytes).length)
      = ((line ++ CRLF, none), { c with input := rest, deadline := true }) := by
    have h0 : ¬ bufSize - ([] : Bytes).length = 0 := by simp [bufSize]
    have h1 : ¬ line ++ CRLF = [] := by simp [CRLF]
    have h2 : (line ++ CRLF).length ≤ bufSize - ([] : Bytes).length := by
      simp only [List.length_append, CRLF, List.length_cons, List.length_nil]
      omega
    simp only [Conn.Read, h0, if_false, Conn.SetReadDeadline, hin, recv, h1, h2, if_true]
  have hcut : cutAfter 10 ([] ++ (line ++ CRLF)) = some (line ++ CRLF, []) := by
    have h13 : 10 ∉ line ++ [13] := by simp [hlf]
    have := cutAfter_first 10 (line ++ [13]) [] h13
    simpa [CRLF] using this
  have hbytes : ReadBytes [] (c.SetReadDeadline true)
      = ((line ++ CRLF, none), [], { c with input := rest, deadline := true }) := by
    apply ReadBytes_of_fuel 2
    rw [ReadBytesFuel]
    have hfull : ¬ bufSize ≤ ([] : Bytes).length := by simp [bufSize]
    simp only [cutAfter, hfull, if_false, hread]
    rw [ReadBytesFuel, hcut]
    rfl
  have hloop : readLoopFuel 1 [] [] (c.SetReadDeadline true)
      = some ((line, none), { c with input := rest, deadline := true }) := by
    rw [readLoopFuel, hbytes]
    have hsuffix : 2 ≤ ([] ++ (line ++ CRLF)).length ∧
        ([] ++ (line ++ CRLF)).drop (([] ++ (line ++ CRLF)).length - 2) = CRLF := by
      simp [CRLF]
    simp only [hsuffix, and_self, if_true]
    simp [CRLF]
  rw [readUntilCRLF_of_fuel 1 c _ hloop]
  rfl

/-! ## Splitting -/

theorem cut_eq_none (sep : Nat) (s : Bytes) : cut sep s = none ↔ sep ∉ s := by
  induction s with
  | nil => simp [cut]
  | cons b rest ih =>
    simp only [cut, List.mem_cons, not_or]
    split_ifs with hb
    · simp [hb]
    · cases hc : cut sep rest with
      | none =>
        simp only [true_iff]
        exact ⟨fun h => hb h.symm, ih.mp hc⟩
      | some p =>
        simp only [false_iff, not_and, not_not, reduceCtorEq]
        intro _
        by_contra hn
        rw [ih.mpr hn] at hc
        cases hc

theorem cut_eq_some (sep : Nat) (s a r : Bytes) :
    cut sep s = some (a, r) ↔ s = a ++ sep :: r ∧ sep ∉ a := by
  induction s generalizing a with
  | nil => simp [cut]
  | cons b rest ih =>
    simp only [cut]
    split_ifs with hb
    · subst hb
      constructor
      · intro h
        simp only [Option.some.injEq, Prod.mk.injEq] at h
        obtain ⟨rfl, rfl⟩ := h
        simp
      · rintro ⟨h1, h2⟩
        cases a with
        | nil => simp at h1; simp [h1]
        | cons x a' =>
          simp only [List.cons_append, List.cons.injEq] at h1
          simp [h1.1] at h2
    · constructor
      · intro h
        cases hc : cut sep rest with
        | none => simp [hc] at h
        | some p =>
          obtain ⟨a1, r1⟩ := p
          simp only [hc, Option.some.injEq, Prod.mk.injEq] at h
          obtain ⟨rfl, rfl⟩ := h
          obtain ⟨h1, h2⟩ := (ih a1).mp hc
          refine ⟨by simp [h1], ?_⟩
          simp only [List.mem_cons, not_or]
          exact ⟨fun h => hb h.symm, h2⟩
      · rintro ⟨h1, h2⟩
        cases a with
        | nil =>
          simp only [List.nil_append, List.cons.injEq] at h1
          exact absurd h1.1 hb
        | cons x a' =>
          simp only [List.cons_append, List.cons.injEq] at h1
          obtain ⟨rfl, h1⟩ := h1
          simp only [List.mem_cons, not_or] at h2
          rw [(ih a').mpr ⟨h1, h2.2⟩]

/-- `strings.SplitN(line, ":", 2)` gives two parts exactly when the line has a colon. -/
theorem SplitN_two_length (sep : Nat) (s : Bytes) : (SplitN sep 2 s).length = 2 ↔ sep ∈ s := by
  simp only [SplitN]
  cases hc : cut sep s with
  | none => simp [(cut_eq_none sep s).mp hc]
  | some p =>
    have : ¬ (cut sep s = none) := by simp [hc]
    rw [cut_eq_none] at this
    simpa using this

/-- The two parts of `strings.SplitN(line, ":", 2)`: the text before the first colon
and the text after it. -/
theorem SplitN_two_parts (sep : Nat) (a r : Bytes) (h : sep ∉ a) :
    SplitN sep 2 (a ++ sep :: r) = [a, r] := by
  simp only [SplitN]
  rw [(cut_eq_some sep (a ++ sep :: r) a r).mpr ⟨rfl, h⟩]

theorem Split_ne_nil (sep : Nat) (s : Bytes) : Split sep s ≠ [] := by
  cases s with
  | nil => simp [Split]
  | cons b rest =>
    simp only [Split]
    split_ifs <;> simp

/-- The pieces of `strings.Split` hold no separator, and joined by the separator they
give back the string. -/
theorem Split_spec (sep : Nat) (s : Bytes) :
    (∀ t ∈ Split sep s, sep ∉ t) ∧ List.intercalate [sep] (Split sep s) = s := by
  induction s with
  | nil => simp [Split, List.intercalate]
  | cons b rest ih =>
    obtain ⟨ih1, ih2⟩ := ih
    have hne := Split_ne_nil sep rest
    cases hs : Split sep rest with
    | nil => exact absurd hs hne
    | cons t ts =>
      rw [hs] at ih1 ih2
      simp only [Split, hs, List.headD_cons, List.tail_cons]
      split_ifs with hb
      · subst hb
        refine ⟨?_, ?_⟩
        · intro u hu
          simp only [List.mem_cons] at hu
          rcases hu with rfl | hu
          · simp
          · exact ih1 u (by simpa using hu)
        · rw [← ih2]
          cases ts <;> simp [List.intercalate]
      · refine ⟨?_, ?_⟩
        · intro u hu
          simp only [List.mem_cons] at hu
          rcases hu with rfl | hu
          · simp only [List.mem_cons, not_or]
            exact ⟨fun h => hb h.symm, ih1 t (by simp)⟩
          · exact ih1 u (by simp [hu])
        · rw [← ih2]
          cases ts <;> simp [List.intercalate]

/-! ## The request parser -/

theorem parseHeadersFuel_inv (fuel : Nat) : ∀ (req : Request) (c c2 : Conn)
    (res : Except ParseErr Request), parseHeadersFuel fuel req c = some (res, c2) →
    (∀ r, res = .ok r → r.Method = req.Method ∧ r.RequestTarget = req.RequestTarget ∧
      r.Version = req.Version) ∧
    (∀ l, res = .error (.badHeader l) → 58 ∉ l) := by
  induction fuel with
  | zero => intro _ _ _ _ h; simp [parseHeadersFuel] at h
  | succ fuel ih =>
    intro req c c2 res h
    rw [parseHeadersFuel] at h
    rcases hr : readUntilCRLF c with ⟨⟨line, e⟩, c1⟩
    rw [hr] at h
    cases e with
    | some e =>
      simp only [Option.some.injEq, Prod.mk.injEq] at h
      obtain ⟨rfl, _⟩ := h
      exact ⟨fun r hr => (by cases hr), fun l hl => (by cases hl)⟩
    | none =>
      simp only at h
      split_ifs at h with hl hp
      · simp only [Option.some.injEq, Prod.mk.injEq] at h
        obtain ⟨rfl, _⟩ := h
        refine ⟨fun r hr => ?_, fun l hl => (by cases hl)⟩
        cases hr
        exact ⟨rfl, rfl, rfl⟩
      · simp only [Option.some.injEq, Prod.mk.injEq] at h
        obtain ⟨rfl, _⟩ := h
        refine ⟨fun r hr => (by cases hr), fun l hl => ?_⟩
        cases hl
        intro hmem
        exact hp ((SplitN_two_length 58 line).mpr hmem)
      · exact ih (storeHeader req line) c1 c2 res h

theorem parseHeaders_inv (req : Request) (c c2 : Conn) (res : Except ParseErr Request)
    (h : parseHeaders req c = (res, c2)) :
    (∀ r, res = .ok r → r.Method = req.Method ∧ r.RequestTarget = req.RequestTarget ∧
      r.Version = req.Version) ∧
    (∀ l, res = .error (.badHeader l) → 58 ∉ l) := by
  obtain ⟨r, h1, _⟩ := parseHeadersFuel_spec (weight c.input + 1) req c (by omega)
  have : parseHeaders req c = r := by simp only [parseHeaders, h1, Option.getD_some]
  rw [this] at h
  subst h
  exact parseHeadersFuel_inv _ req c c2 res h1

theorem Split_three (sep : Nat) (s a b d : Bytes) (h : Split sep s = [a, b, d]) :
    sep ∉ a ∧ sep ∉ b ∧ sep ∉ d ∧ s = a ++ sep :: b ++ sep :: d := by
  obtain ⟨h1, h2⟩ := Split_spec sep s
  rw [h] at h1 h2
  refine ⟨h1 a (by simp), h1 b (by simp), h1 d (by simp), ?_⟩
  rw [← h2]
  simp [List.intercalate]

theorem list_length_three {α : Type} (l : List α) (h : l.length = 3) :
    ∃ a b d, l = [a, b, d] := by
  match l, h with
  | [a, b, d], _ => exact ⟨a, b, d, rfl⟩

theorem mapGet_mapSet_self (m : Headers) (k v : Bytes) : mapGet (mapSet m k v) k = some v := by
  induction m with
  | nil => simp [mapSet, mapGet]
  | cons e m ih =>
    obtain ⟨k1, v1⟩ := e
    simp only [mapSet]
    split_ifs with h
    · simp [mapGet]
    · simp [mapGet, h, ih]

theorem mapGet_mapSet_other (m : Headers) (k v k2 : Bytes) (h : k2 ≠ k) :
    mapGet (mapSet m k v) k2 = mapGet m k2 := by
  induction m with
  | nil => simp [mapSet, mapGet, h.symm]
  | cons e m ih =>
    obtain ⟨k1, v1⟩ := e
    simp only [mapSet]
    split_ifs with h1
    · subst h1
      simp [mapGet, h.symm]
    · by_cases h2 : k1 = k2
      · simp [mapGet, h2]
      · simp [mapGet, h2, ih]

theorem storeHeader_eq (req : Request) (line : Bytes) :
    storeHeader req line =
      { req with Headers := mapSet req.Headers (headerName line) (headerValue line) } := rfl

/-- What `parseHeaders` does with the next line, when it is not empty and has a colon. -/
theorem parseHeaders_step (req : Request) (c c1 : Conn) (line : Bytes)
    (h : readUntilCRLF c = ((line, none), c1)) (hne : line ≠ []) (hcolon : 58 ∈ line) :
    parseHeaders req c = parseHeaders (storeHeader req line) c1 := by
  rw [parseHeaders_unfold req c, h]
  have : (SplitN 58 2 line).length = 2 := (SplitN_two_length 58 line).mpr hcolon
  simp [hne, this]

theorem parseHeaders_empty (req : Request) (c c1 : Conn)
    (h : readUntilCRLF c = (([], none), c1)) : parseHeaders req c = (.ok req, c1) := by
  rw [parseHeaders_unfold req c, h]
  simp

theorem parseHeaders_nocolon (req : Request) (c c1 : Conn) (line : Bytes)
    (h : readUntilCRLF c = ((line, none), c1)) (hne : line ≠ []) (hcolon : 58 ∉ line) :
    parseHeaders req c = (.error (.badHeader line), c1) := by
  rw [parseHeaders_unfold req c, h]
  have : (SplitN 58 2 line).length ≠ 2 := fun h2 => hcolon ((SplitN_two_length 58 line).mp h2)
  simp [hne, this]

/-- When the next calls of `readUntilCRLF` return the header lines `lines` and then an
empty line, `parseHeaders` stores the lines one after the other and returns. -/
theorem parseHeaders_lines (lines : List Bytes) : ∀ (req : Request) (c c2 : Conn),
    readLines (lines.length + 1) c = (lines.map (fun l => (l, none)) ++ [([], none)], c2) →
    (∀ l ∈ lines, l ≠ [] ∧ 58 ∈ l) →
    parseHeaders req c = (.ok (lines.foldl storeHeader req), c2) := by
  induction lines with
  | nil =>
    intro req c c2 h _
    simp only [List.length_nil, zero_add, readLines, List.map_nil, List.nil_append,
      Prod.mk.injEq, List.cons.injEq, and_true] at h
    exact parseHeaders_empty req c c2 (Prod.ext h.1 h.2)
  | cons l ls ih =>
    intro req c c2 h hwf
    simp only [List.length_cons, readLines, List.map_cons, List.cons_append, Prod.mk.injEq,
      List.cons.injEq] at h
    obtain ⟨⟨h1, h2⟩, h3⟩ := h
    have hr : readUntilCRLF c = ((l, none), (readUntilCRLF c).2) := Prod.ext h1 rfl
    have hl := hwf l (by simp)
    rw [parseHeaders_step req c _ l hr hl.1 hl.2, List.foldl_cons]
    refine ih _ _ _ ?_ (fun l1 h1 => hwf l1 (by simp [h1]))
    simp only [readLines]
    exact Prod.ext h2 h3

theorem mapGet_foldl_storeHeader (lines : List Bytes) : ∀ (req : Request) (k : Bytes),
    mapGet (lines.foldl storeHeader req).Headers k =
      (match lastValue k lines with
      | some v => some v
      | none => mapGet req.Headers k) := by
  induction lines with
  | nil => intro req k; simp [lastValue]
  | cons l ls ih =>
    intro req k
    rw [List.foldl_cons, ih, lastValue]
    cases hlast : lastValue k ls with
    | some v => rfl
    | none =>
      simp only [storeHeader_eq]
      split_ifs with hk
      · subst hk
        exact mapGet_mapSet_self _ _ _
      · exact mapGet_mapSet_other _ _ _ _ (fun h => hk h.symm)

theorem lastValue_filter (k : Bytes) (lines : List Bytes) :
    lastValue k (lines.filter (fun l => decide (headerName l = k))) = lastValue k lines := by
  induction lines with
  | nil => rfl
  | cons l ls ih =>
    by_cases hk : headerName l = k
    · simp only [List.filter_cons, hk, decide_True, if_true, lastValue, ih]
    · have hf : (l :: ls).filter (fun l => decide (headerName l = k))
          = ls.filter (fun l => decide (headerName l = k)) := by
        simp [List.filter_cons, hk]
      rw [hf, ih]
      simp only [lastValue, hk, if_false]
      cases lastValue k ls <;> rfl

/-! ## The handlers leave the inbound script alone, except for the one read of `ReadBody` -/

theorem Write_input (c : Conn) (p : Bytes) : (c.Write p).2.input = c.input := by
  unfold Conn.Write
  split <;> rfl

theorem respond_input (env : Env) (resp : Response) (w : World) :
    (respond env resp w).2.conn.input = w.conn.input := by
  simp [respond, WriteResponse, Write_input]

theorem ReadBody_input (memLimit : Nat) (req : Request) (c : Conn) :
    weight (ReadBody memLimit req c).2.input ≤ weight c.input := by
  unfold ReadBody
  split
  · exact le_refl _
  · split
    · exact le_refl _
    · split_ifs
      · exact le_refl _
      · rename_i contentLength _ _
        have := Read_input_le c contentLength.toNat
        split <;> simp_all

theorem HandleRequest_input (env : Env) (config : Config) (req : Request) (w : World) :
    weight (HandleRequest env config req w).2.conn.input ≤ weight w.conn.input := by
  have hsave : weight (SaveFileHandler env config req w).2.conn.input ≤ weight w.conn.input := by
    unfold SaveFileHandler
    have hb := ReadBody_input env.memLimit req w.conn
    split_ifs
    · simp [InternalServerErrorHandler, respond_input]
    · split
      · simp [BadRequestHandler, respond_input]
      · split_ifs
        · simp [BadRequestHandler, respond_input]
        · rcases hr : ReadBody env.memLimit req w.conn with ⟨res, c1⟩
          rw [hr] at hb
          cases res with
          | panic => simpa using hb
          | error e => simpa [InternalServerErrorHandler, respond_input] using hb
          | data body =>
            simp only [World.WriteFile]
            split_ifs <;> simpa [InternalServerErrorHandler, respond_input] using hb
  have hget : weight (GetFileHandler env config req w).2.conn.input ≤ weight w.conn.input := by
    unfold GetFileHandler
    split_ifs
    · simp [InternalServerErrorHandler, respond_input]
    · split
      · simp [BadRequestHandler, respond_input]
      · split_ifs
        · simp [BadRequestHandler, respond_input]
        · split <;> simp [InternalServerErrorHandler, NotFoundHandler, respond_input]
  have hecho : weight (EchoHandler env config req w).2.conn.input ≤ weight w.conn.input := by
    unfold EchoHandler
    split
    · simp [NotFoundHandler, respond_input]
    · simp only
      split_ifs
      · split <;> simp [InternalServerErrorHandler, respond_input]
      · simp [respond_input]
  have hua : weight (UserAgentHandler env config req w).2.conn.input ≤ weight w.conn.input := by
    unfold UserAgentHandler
    split <;> simp [respond_input]
  unfold HandleRequest
  split_ifs <;> first | assumption | simp [RootHandler, NotFoundHandler, respond_input]

/-! ## The loop of `handleConnection` ends -/

theorem parseHeadersFuel_weight (fuel : Nat) : ∀ (req : Request) (c : Conn)
    (r : Except ParseErr Request × Conn), parseHeadersFuel fuel req c = some r →
    weight r.2.input ≤ weight c.input := by
  induction fuel with
  | zero => intro _ _ _ h; simp [parseHeadersFuel] at h
  | succ fuel ih =>
    intro req c r h
    rw [parseHeadersFuel] at h
    have hw := (readUntilCRLF_weight c).1
    rcases hr : readUntilCRLF c with ⟨⟨line, e⟩, c1⟩
    rw [hr] at h hw
    simp only at hw
    cases e with
    | some e =>
      simp only [Option.some.injEq] at h
      subst h
      exact hw
    | none =>
      simp only at h
      split_ifs at h with hl hp
      · simp only [Option.some.injEq] at h
        subst h
        exact hw
      · simp only [Option.some.injEq] at h
        subst h
        exact hw
      · exact le_trans (ih _ _ _ h) hw

theorem parseHeaders_weight (req : Request) (c : Conn) :
    weight (parseHeaders req c).2.input ≤ weight c.input := by
  obtain ⟨r, h1, _⟩ := parseHeadersFuel_spec (weight c.input + 1) req c (by omega)
  have : parseHeaders req c = r := by simp only [parseHeaders, h1, Option.getD_some]
  rw [this]
  exact parseHeadersFuel_weight _ req c r h1

/-- A request that is parsed takes something out of the inbound script. -/
theorem ParseRequest_weight (c c2 : Conn) (req : Request) (h : ParseRequest c = (.ok req, c2)) :
    weight c2.input < weight c.input := by
  unfold ParseRequest at h
  rcases hl : parseRequestLine { Method := [], RequestTarget := [], Version := [], Headers := [] } c
    with ⟨res, c1⟩
  rw [hl] at h
  cases res with
  | error e => simp at h
  | ok req1 =>
    simp only at h
    have hw := parseHeaders_weight req1 c1
    rcases hh : parseHeaders req1 c1 with ⟨res2, c3⟩
    rw [hh] at h hw
    cases res2 with
    | error e => simp at h
    | ok req2 =>
      simp only [Prod.mk.injEq, Except.ok.injEq] at h
      obtain ⟨_, rfl⟩ := h
      have hlt : weight c1.input < weight c.input := by
        unfold parseRequestLine at hl
        have hw2 := (readUntilCRLF_weight c).2
        rcases hr : readUntilCRLF c with ⟨⟨line, e⟩, c4⟩
        rw [hr] at hl hw2
        cases e with
        | some e => simp at hl
        | none =>
          simp only at hl
          split_ifs at hl
          · simp at hl
          · simp only [Prod.mk.injEq] at hl
            rw [← hl.2]
            exact hw2 rfl
      simp only at hw
      omega

/-- A turn of the loop that goes back to awaiting has taken something out of the script. -/
theorem turn_weight (env : Env) (config : Config) (w w1 : World) (req : Option Request)
    (err : Bool) (h : turn env config w = (req, err, .awaiting, w1)) :
    weight w1.conn.input < weight w.conn.input := by
  unfold turn at h
  rcases hp : ParseRequest w.conn with ⟨res, c1⟩
  rw [hp] at h
  cases res with
  | error e => simp at h
  | ok r =>
    simp only at h
    have hlt := ParseRequest_weight _ _ _ hp
    have hle := HandleRequest_input env config r { w with conn := c1 }
    rcases hh : HandleRequest env config r { w with conn := c1 } with ⟨fate, w2⟩
    rw [hh] at h hle
    simp only at hle
    cases fate with
    | exit code => simp at h
    | panic => simp at h
    | returned e =>
      simp only at h
      split_ifs at h
      · simp at h
      · simp only [Prod.mk.injEq] at h
        obtain ⟨_, _, _, rfl⟩ := h
        omega

theorem handleConnectionFuel_succ (env : Env) (config : Config) (fuel : Nat) (w : World) :
    handleConnectionFuel env config (fuel + 1) w =
      loopBody (turn env config w) (handleConnectionFuel env config fuel) := by
  rw [handleConnectionFuel]
  unfold loopBody
  rfl

theorem loopBody_congr (t : Option Request × Bool × Phase × World)
    (k1 k2 : World → Option (List Request × Phase × World))
    (h : ∀ req err w1, t = (req, err, .awaiting, w1) → k1 w1 = k2 w1) :
    loopBody t k1 = loopBody t k2 := by
  obtain ⟨req, err, ph, w1⟩ := t
  cases req with
  | none => rfl
  | some r =>
    cases ph with
    | awaiting => simp only [loopBody, h (some r) err w1 rfl]
    | closed => rfl
    | dead => rfl

/-- With more fuel than the weight of the inbound script the loop of `handleConnection`
ends, and its result does not depend on how much more. -/
theorem handleConnectionFuel_spec (env : Env) (config : Config) (fuel : Nat) :
    ∀ (w : World), weight w.conn.input < fuel →
    ∃ r, handleConnectionFuel env config fuel w = some r ∧
      ∀ fuel2, weight w.conn.input < fuel2 → handleConnectionFuel env config fuel2 w = some r := by
  induction fuel with
  | zero => intro w h; omega
  | succ fuel ih =>
    intro w hf
    have hind : ∀ fuel2, weight w.conn.input < fuel2 →
        handleConnectionFuel env config fuel2 w = handleConnectionFuel env config (fuel + 1) w := by
      intro fuel2 h2
      obtain ⟨f, rfl⟩ : ∃ f, fuel2 = f + 1 := ⟨fuel2 - 1, by omega⟩
      rw [handleConnectionFuel_succ, handleConnectionFuel_succ]
      apply loopBody_congr
      intro req err w1 ht
      have hlt := turn_weight env config w w1 req err ht
      obtain ⟨r, hr1, hr2⟩ := ih w1 (by omega)
      rw [hr1, hr2 f (by omega)]
    have hsome : ∃ r, handleConnectionFuel env config (fuel + 1) w = some r := by
      rw [handleConnectionFuel_succ]
      rcases ht : turn env config w with ⟨req, err, ph, w1⟩
      cases req with
      | none => exact ⟨_, rfl⟩
      | some r =>
        cases ph with
        | awaiting =>
          have hlt := turn_weight env config w w1 _ err ht
          obtain ⟨r2, hr1, _⟩ := ih w1 (by omega)
          obtain ⟨reqs, ph2, w2⟩ := r2
          exact ⟨(r :: reqs, ph2, w2), by simp only [loopBody, hr1]⟩
        | closed => exact ⟨_, rfl⟩
        | dead => exact ⟨_, rfl⟩
    obtain ⟨r, hr⟩ := hsome
    exact ⟨r, hr, fun fuel2 h2 => by rw [hind fuel2 h2, hr]⟩

/-- The loop of `handleConnection`, one turn at a time: after a turn that ends
awaiting, the next turn runs on the world that turn left; any other turn ends the loop. -/
theorem handleConnection_unfold (env : Env) (config : Config) (w : World) :
    handleConnection env config w =
      (match turn env config w with
      | (some req, _, .awaiting, w1) =>
        (req :: (handleConnection env config w1).1, (handleConnection env config w1).2)
      | (some req, _, ph, w1) => ([req], ph, w1)
      | (none, _, ph, w1) => ([], ph, w1)) := by
  unfold handleConnection
  rw [handleConnectionFuel_succ]
  rcases ht : turn env config w with ⟨req, err, ph, w1⟩
  cases req with
  | none => rfl
  | some r =>
    cases ph with
    | awaiting =>
      have hlt := turn_weight env config w w1 _ err ht
      obtain ⟨r2, hr1, hr2⟩ := handleConnectionFuel_spec env config (weight w1.conn.input + 1) w1
        (by omega)
      simp only [loopBody, hr2 (weight w.conn.input) hlt, hr1, Option.getD_some]
    | closed => rfl
    | dead => rfl

/-! ## `ReadBody` -/

theorem recv_stream (d : Bool) (n : Nat) (evs : List Event) (h : (recv d n evs).1.2 = none) :
    streamBytes evs = (recv d n evs).1.1 ++ streamBytes (recv d n evs).2 := by
  induction evs with
  | nil => simp [recv] at h
  | cons ev rest ih =>
    cases ev with
    | data bs =>
      by_cases h1 : bs = []
      · simp only [recv, h1, if_true] at h ⊢
        simpa [streamBytes] using ih h
      · by_cases h2 : bs.length ≤ n
        · simp [recv, h1, h2, streamBytes]
        · simp only [recv, h1, h2, if_false, streamBytes]
          rw [← List.append_assoc, List.take_append_drop]
    | idle =>
      cases d with
      | true => simp [recv] at h
      | false =>
        simp only [recv, Bool.false_eq_true, if_false] at h ⊢
        simpa [streamBytes] using ih h
    | reset => simp [recv] at h

/-- The bytes a successful read returns are the next bytes of the stream. -/
theorem Read_stream (c c1 : Conn) (n : Nat) (bs : Bytes) (h : c.Read n = ((bs, none), c1)) :
    streamBytes c.input = bs ++ streamBytes c1.input ∧ bs.length ≤ n := by
  unfold Conn.Read at h
  split_ifs at h with hn
  · simp only [Prod.mk.injEq, and_true] at h
    obtain ⟨rfl, rfl⟩ := h
    simp
  · simp only [Prod.mk.injEq] at h
    obtain ⟨h1, rfl⟩ := h
    have h2 : (recv c.deadline n c.input).1.2 = none := by rw [h1]
    have h3 := recv_stream c.deadline n c.input h2
    have h4 := recv_data c.deadline n c.input (by omega) h2
    rw [h1] at h3 h4
    refine ⟨h3, ?_⟩
    clear h3 h4 h2
    -- the length bound comes from the shape of `recv`
    have : ∀ evs, (recv c.deadline n evs).1.1.length ≤ n := by
      intro evs
      induction evs with
      | nil => simp [recv]
      | cons ev rest ih =>
        cases ev with
        | data bs2 =>
          simp only [recv]
          split_ifs with a b
          · exact ih
          · exact b
          · simp only [List.length_take]; omega
        | idle =>
          simp only [recv]
          split_ifs
          · simp
          · exact ih
        | reset => simp [recv]
    have := this c.input
    rw [h1] at this
    exact this

theorem digitsValue_none (ds : Bytes) : ∀ acc : Nat,
    (ds.all fun d => decide (48 ≤ d ∧ d ≤ 57)) = false → digitsValue ds acc = none := by
  induction ds with
  | nil => intro acc h; simp at h
  | cons d ds ih =>
    intro acc h
    simp only [digitsValue]
    split_ifs with hd
    · apply ih
      simp only [List.all_cons, Bool.and_eq_false_imp, decide_eq_true_eq] at h
      exact h hd
    · rfl

/-- `strconv.Atoi` rejects whatever is not a decimal integer. -/
theorem Atoi_not_decimal (s : Bytes) (h : isDecimalInteger s = false) : Atoi s = none := by
  have key : ∀ ds : Bytes, (!ds.isEmpty && ds.all fun d => decide (48 ≤ d ∧ d ≤ 57)) = false →
      ds = [] ∨ digitsValue ds 0 = none := by
    intro ds hds
    cases ds with
    | nil => exact Or.inl rfl
    | cons d ds =>
      right
      apply digitsValue_none
      simpa using hds
  unfold isDecimalInteger at h
  unfold Atoi
  split at h
  · rcases key _ h with h1 | h1
    · simp [h1]
    · simp only [h1]
      split_ifs <;> rfl
  · rcases key _ h with h1 | h1
    · simp [h1]
    · simp only [h1]
      split_ifs <;> rfl
  · rcases key _ h with h1 | h1
    · simp [h1]
    · simp only [h1]
      split_ifs <;> rfl

/-! ## Reading a response back -/

theorem cutCRLF_line (line rest : Bytes) (h : 13 ∉ line) :
    cutCRLF (line ++ 13 :: 10 :: rest) = some (line, rest) := by
  induction line with
  | nil => simp [cutCRLF]
  | cons a l ih =>
    simp only [List.mem_cons, not_or] at h
    have ha : ¬ a = 13 := fun h1 => h.1 h1.symm
    have ih2 := ih h.2
    rw [List.cons_append, cutCRLF]
    simp only [ha, false_and, if_false, ih2]

theorem digitsValue_append (xs ys : Bytes) : ∀ a : Nat,
    digitsValue (xs ++ ys) a =
      (match digitsValue xs a with
      | none => none
      | some b => digitsValue ys b) := by
  induction xs with
  | nil => intro a; rfl
  | cons d xs ih =>
    intro a
    simp only [List.cons_append, digitsValue]
    split_ifs
    · exact ih _
    · rfl

/-- The decimal digits `fmt.Sprintf("%d")` writes for `n`: at least one, all digits,
and their value is `n`. -/
theorem natDigits_spec (fuel : Nat) : ∀ (n : Nat) (acc : Bytes), n < fuel →
    ∃ ds : Bytes, natDigits fuel n acc = ds ++ acc ∧ ds ≠ [] ∧
      (∀ d ∈ ds, 48 ≤ d ∧ d ≤ 57) ∧ digitsValue ds 0 = some n := by
  induction fuel with
  | zero => intro n _ h; omega
  | succ fuel ih =>
    intro n acc hn
    simp only [natDigits]
    split_ifs with h10
    · refine ⟨[48 + n], rfl, by simp, ?_, ?_⟩
      · intro d hd
        simp only [List.mem_singleton] at hd
        omega
      · have h1 : 48 ≤ 48 + n ∧ 48 + n ≤ 57 := by omega
        simp [digitsValue, h1]
    · obtain ⟨ds, h1, h2, h3, h4⟩ := ih (n / 10) ((48 + n % 10) :: acc) (by omega)
      refine ⟨ds ++ [48 + n % 10], by rw [h1]; simp, by simp, ?_, ?_⟩
      · intro d hd
        simp only [List.mem_append, List.mem_singleton] at hd
        rcases hd with hd | hd
        · exact h3 d hd
        · omega
      · rw [digitsValue_append, h4]
        have h5 : 48 ≤ 48 + n % 10 ∧ 48 + n % 10 ≤ 57 := by omega
        simp only [digitsValue, h5, and_self, if_true, Nat.add_sub_cancel_left, Option.some.injEq]
        omega

theorem natToDec_spec (n : Nat) :
    natToDec n ≠ [] ∧ (∀ d ∈ natToDec n, 48 ≤ d ∧ d ≤ 57) ∧ digitsValue (natToDec n) 0 = some n := by
  obtain ⟨ds, h1, h2, h3, h4⟩ := natDigits_spec (n + 1) n [] (by omega)
  simp only [List.append_nil] at h1
  simp only [natToDec, h1]
  exact ⟨h2, h3, h4⟩

/-- `strconv.Atoi` reads back what `fmt.Sprintf("%d")` wrote, for every value of a Go `int`. -/
theorem Atoi_intToDec (i : Int) (hlo : -(2 : Int) ^ 63 ≤ i) (hhi : i < (2 : Int) ^ 63) :
    Atoi (intToDec i) = some i := by
  obtain ⟨h1, h2, h3⟩ := natToDec_spec i.natAbs
  unfold intToDec
  split_ifs with hneg
  · have hb : i.natAbs ≤ 2 ^ 63 := by omega
    simp only [Atoi, h1, if_false, h3, hb, if_true, Option.some.injEq]
    omega
  · cases hd : natToDec i.natAbs with
    | nil => exact absurd hd h1
    | cons d ds =>
      have hdig := h2 d (by rw [hd]; simp)
      have hb : i.natAbs < 2 ^ 63 := by omega
      rw [hd] at h3
      unfold Atoi
      split
      rename_i neg ds1 heq
      have hm : neg = false ∧ ds1 = d :: ds := by
        split at heq
        · rename_i h45
          simp only [List.cons.injEq] at h45
          omega
        · rename_i h43
          simp only [List.cons.injEq] at h43
          omega
        · simp only [Prod.mk.injEq] at heq
          exact ⟨heq.1.symm, heq.2.symm⟩
      obtain ⟨rfl, rfl⟩ := hm
      simp only [reduceCtorEq, if_false, h3, Bool.false_eq_true, hb, if_true,
        Option.some.injEq]
      omega

theorem intToDec_chars (i : Int) : ∀ d ∈ intToDec i, d = 45 ∨ (48 ≤ d ∧ d ≤ 57) := by
  intro d hd
  obtain ⟨_, h2, _⟩ := natToDec_spec i.natAbs
  unfold intToDec at hd
  split_ifs at hd
  · simp only [List.mem_cons] at hd
    rcases hd with hd | hd
    · exact Or.inl hd
    · exact Or.inr (h2 d hd)
  · exact Or.inr (h2 d hd)

theorem spacePrefix_space (v : Bytes) : spacePrefix (32 :: v) = 1 := by
  simp [spacePrefix]

/-- Trimming drops the space `WriteResponse` puts after the colon. -/
theorem TrimSpace_space (v : Bytes) : TrimSpace (32 :: v) = TrimSpace v := by
  simp [TrimSpace, trimLeftFuel, spacePrefix_space]

theorem mapSet_new (m : Headers) (k v : Bytes) (h : k ∉ mapKeys m) :
    mapSet m k v = m ++ [(k, v)] := by
  induction m with
  | nil => rfl
  | cons e m ih =>
    obtain ⟨k1, v1⟩ := e
    simp only [mapKeys, List.map_cons, List.mem_cons, not_or] at h
    have hne : ¬ k1 = k := fun h1 => h.1 h1.symm
    simp only [mapSet, hne, if_false, List.cons_append, List.cons.injEq, true_and]
    exact ih h.2

theorem mapGet_eq_none (m : Headers) (k : Bytes) : mapGet m k = none ↔ k ∉ mapKeys m := by
  induction m with
  | nil => simp [mapGet, mapKeys]
  | cons e m ih =>
    obtain ⟨k1, v1⟩ := e
    simp only [mapGet, mapKeys, List.map_cons, List.mem_cons, not_or]
    split_ifs with h
    · simp [h]
    · simp only [mapKeys] at ih
      rw [ih]
      exact ⟨fun h2 => ⟨fun h3 => h h3.symm, h2⟩, fun h2 => h2.2⟩

theorem mapGet_eq_some (m : Headers) (k v : Bytes) (hn : (mapKeys m).Nodup) :
    mapGet m k = some v ↔ (k, v) ∈ m := by
  induction m with
  | nil => simp [mapGet]
  | cons e m ih =>
    obtain ⟨k1, v1⟩ := e
    simp only [mapKeys, List.map_cons, List.nodup_cons] at hn
    simp only [mapGet, List.mem_cons, Prod.mk.injEq]
    split_ifs with h
    · subst h
      constructor
      · intro h1
        simp only [Option.some.injEq] at h1
        exact Or.inl ⟨rfl, h1.symm⟩
      · rintro (⟨_, rfl⟩ | h1)
        · rfl
        · exact absurd (List.mem_map_of_mem Prod.fst h1) hn.1
    · rw [ih hn.2]
      constructor
      · exact fun h1 => Or.inr h1
      · rintro (⟨rfl, _⟩ | h1)
        · exact absurd rfl h
        · exact h1

/-- Two lists of entries with one entry per key and the same entries are the same map. -/
theorem mapGet_perm (m hs : Headers) (hp : hs.Perm m) (hn : (mapKeys m).Nodup) (k : Bytes) :
    mapGet hs k = mapGet m k := by
  have hn2 : (mapKeys hs).Nodup := (hp.map Prod.fst).nodup_iff.mpr hn
  cases hm : mapGet m k with
  | none =>
    rw [mapGet_eq_none] at hm ⊢
    intro h
    exact hm ((hp.map Prod.fst).mem_iff.mp h)
  | some v =>
    rw [mapGet_eq_some _ _ _ hn] at hm
    rw [mapGet_eq_some _ _ _ hn2]
    exact hp.mem_iff.mpr hm

theorem headerLine_eq (k v : Bytes) : headerLine (k, v) = (k ++ 58 :: 32 :: v) ++ [13, 10] := by
  simp [headerLine, ascii, CRLF]

theorem headerLines_length (hs : Headers) : hs.length ≤ ((hs.map headerLine).flatten).length := by
  induction hs with
  | nil => simp
  | cons kv hs ih =>
    obtain ⟨k, v⟩ := kv
    simp only [List.map_cons, List.flatten_cons, List.length_append, List.length_cons,
      headerLine_eq]
    omega

/-- Reading back the header block `WriteResponse` wrote for the entries `hs`: every
entry comes back, in the order written. -/
theorem readBackHeaders_lines (hs : Headers) : ∀ (m : Headers) (fuel : Nat) (body : Bytes),
    hs.length < fuel →
    (∀ kv ∈ hs, 13 ∉ kv.1 ∧ 13 ∉ kv.2 ∧ 58 ∉ kv.1 ∧ TrimSpace kv.1 = kv.1 ∧ TrimSpace kv.2 = kv.2) →
    (mapKeys (m ++ hs)).Nodup →
    readBackHeaders fuel m ((hs.map headerLine).flatten ++ 13 :: 10 :: body) = some (m ++ hs, body) := by
  induction hs with
  | nil =>
    intro m fuel body hf _ _
    obtain ⟨f, rfl⟩ : ∃ f, fuel = f + 1 := ⟨fuel - 1, by simp at hf; omega⟩
    have := cutCRLF_line [] body (by simp)
    simp only [List.nil_append] at this
    simp [readBackHeaders, this]
  | cons kv hs ih =>
    intro m fuel body hf hwf hnd
    obtain ⟨k, v⟩ := kv
    obtain ⟨f, rfl⟩ : ∃ f, fuel = f + 1 := ⟨fuel - 1, by simp at hf; omega⟩
    obtain ⟨hk13, hv13, hk58, hkt, hvt⟩ := hwf (k, v) (by simp)
    simp only at hk13 hv13 hk58 hkt hvt
    have hbytes : (((k, v) :: hs).map headerLine).flatten ++ 13 :: 10 :: body
        = (k ++ 58 :: 32 :: v) ++ 13 :: 10 :: ((hs.map headerLine).flatten ++ 13 :: 10 :: body) := by
      simp [headerLine_eq]
    have h13 : 13 ∉ k ++ 58 :: 32 :: v := by
      simp only [List.mem_append, List.mem_cons, not_or]
      exact ⟨hk13, by decide, by decide, hv13⟩
    have hne : k ++ 58 :: 32 :: v ≠ [] := by simp
    have hsplit : SplitN 58 2 (k ++ 58 :: 32 :: v) = [k, 32 :: v] := SplitN_two_parts 58 k _ hk58
    have hname : headerName (k ++ 58 :: 32 :: v) = k := by
      simp [headerName, hsplit, hkt]
    have hvalue : headerValue (k ++ 58 :: 32 :: v) = v := by
      simp [headerValue, hsplit, TrimSpace_space, hvt]
    have hknew : k ∉ mapKeys m := by
      simp only [mapKeys, List.map_append, List.map_cons] at hnd
      have := (List.nodup_append.mp hnd).2.2
      intro hmem
      exact this hmem (by simp)
    rw [hbytes, readBackHeaders, cutCRLF_line _ _ h13]
    simp only [hne, if_false, hsplit, List.length_cons, List.length_nil, ne_eq,
      not_true_eq_false, hname, hvalue, mapSet_new m k v hknew]
    have := ih (m ++ [(k, v)]) f body (by simp at hf; omega)
      (fun kv hkv => hwf kv (by simp [hkv])) (by simpa using hnd)
    simpa using this

/-! ## Requests that arrive one line per read -/

theorem Split_no_sep (sep : Nat) (a : Bytes) (h : sep ∉ a) : Split sep a = [a] := by
  induction a with
  | nil => rfl
  | cons b a ih =>
    simp only [List.mem_cons, not_or] at h
    have hb : ¬ b = sep := fun h1 => h.1 h1.symm
    simp [Split, hb, ih h.2]

theorem Split_first (sep : Nat) (a r : Bytes) (h : sep ∉ a) :
    Split sep (a ++ sep :: r) = a :: Split sep r := by
  induction a with
  | nil => simp [Split]
  | cons b a ih =>
    simp only [List.mem_cons, not_or] at h
    have hb : ¬ b = sep := fun h1 => h.1 h1.symm
    simp [Split, hb, ih h.2]

theorem headerName_line (k v : Bytes) (h58 : 58 ∉ k) (hk : TrimSpace k = k) :
    headerName (k ++ 58 :: 32 :: v) = k := by
  simp [headerName, SplitN_two_parts 58 k _ h58, hk]

theorem headerValue_line (k v : Bytes) (h58 : 58 ∉ k) (hv : TrimSpace v = v) :
    headerValue (k ++ 58 :: 32 :: v) = v := by
  simp [headerValue, SplitN_two_parts 58 k _ h58, TrimSpace_space, hv]

/-- Header lines that arrive one per read, followed by the empty line, are all stored. -/
theorem parseHeaders_segments (hdrs : Headers) : ∀ (req : Request) (c : Conn) (rest : List Event),
    c.input = lineSegments (hdrs.map fun kv => kv.1 ++ 58 :: 32 :: kv.2) ++ .data CRLF :: rest →
    (∀ kv ∈ hdrs, 10 ∉ kv.1 ∧ 10 ∉ kv.2 ∧ 58 ∉ kv.1 ∧ TrimSpace kv.1 = kv.1 ∧
      TrimSpace kv.2 = kv.2 ∧ kv.1.length + kv.2.length + 4 ≤ bufSize) →
    parseHeaders req c =
      (.ok { req with Headers := hdrs.foldl (fun m kv => mapSet m kv.1 kv.2) req.Headers },
        { c with input := rest, deadline := false }) := by
  induction hdrs with
  | nil =>
    intro req c rest hin _
    have hin2 : c.input = .data ([] ++ CRLF) :: rest := by simpa [lineSegments] using hin
    exact parseHeaders_empty req c _ (readUntilCRLF_segment c [] rest hin2 (by simp) (by simp [bufSize]))
  | cons kv hdrs ih =>
    intro req c rest hin hwf
    obtain ⟨k, v⟩ := kv
    obtain ⟨hk10, hv10, hk58, hkt, hvt, hlen⟩ := hwf (k, v) (by simp)
    simp only at hk10 hv10 hk58 hkt hvt hlen
    have hin2 : c.input = .data ((k ++ 58 :: 32 :: v) ++ CRLF) ::
        (lineSegments (hdrs.map fun kv => kv.1 ++ 58 :: 32 :: kv.2) ++ .data CRLF :: rest) := by
      simpa [lineSegments] using hin
    have hlf : 10 ∉ k ++ 58 :: 32 :: v := by
      simp only [List.mem_append, List.mem_cons, not_or]
      exact ⟨hk10, by decide, by decide, hv10⟩
    have hread := readUntilCRLF_segment c (k ++ 58 :: 32 :: v) _ hin2 hlf
      (by simp only [List.length_append, List.length_cons]; omega)
    rw [parseHeaders_step req c _ _ hread (by simp) (by simp), storeHeader_eq,
      headerName_line k v hk58 hkt, headerValue_line k v hk58 hvt]
    rw [ih _ _ rest rfl (fun kv hkv => hwf kv (by simp [hkv]))]
    rfl

/-- A request whose request line and header lines arrive one per read (each line free
of line feeds and fitting the reader's buffer) is parsed in full: method, target,
version and every header. -/
theorem ParseRequest_line_per_segment (c : Conn) (method target version : Bytes)
    (hdrs : Headers) (rest : List Event)
    (hin : c.input = .data ((method ++ 32 :: (target ++ 32 :: version)) ++ CRLF) ::
      (lineSegments (hdrs.map fun kv => kv.1 ++ 58 :: 32 :: kv.2) ++ .data CRLF :: rest))
    (hm : 32 ∉ method ∧ 10 ∉ method) (ht : 32 ∉ target ∧ 10 ∉ target)
    (hv : 32 ∉ version ∧ 10 ∉ version)
    (hlen : method.length + target.length + version.length + 4 ≤ bufSize)
    (hh : ∀ kv ∈ hdrs, 10 ∉ kv.1 ∧ 10 ∉ kv.2 ∧ 58 ∉ kv.1 ∧ TrimSpace kv.1 = kv.1 ∧
      TrimSpace kv.2 = kv.2 ∧ kv.1.length + kv.2.length + 4 ≤ bufSize) :
    ParseRequest c =
      (.ok ⟨method, target, version, hdrs.foldl (fun m kv => mapSet m kv.1 kv.2) []⟩,
        { c with input := rest, deadline := false }) := by
  have hlf : 10 ∉ method ++ 32 :: (target ++ 32 :: version) := by
    simp only [List.mem_append, List.mem_cons, not_or]
    exact ⟨hm.2, by decide, ht.2, by decide, hv.2⟩
  have hread := readUntilCRLF_segment c _ _ hin hlf
    (by simp only [List.length_append, List.length_cons]; omega)
  have hsplit : Split 32 (method ++ 32 :: (target ++ 32 :: version)) = [method, target, version] := by
    rw [Split_first 32 _ _ hm.1, Split_first 32 _ _ ht.1, Split_no_sep 32 _ hv.1]
  have hline : parseRequestLine { Method := [], RequestTarget := [], Version := [], Headers := [] } c
      = (.ok ⟨method, target, version, []⟩,
          { c with input := lineSegments (hdrs.map fun kv => kv.1 ++ 58 :: 32 :: kv.2) ++
              .data CRLF :: rest, deadline := false }) := by
    simp [parseRequestLine, hread, hsplit]
  rw [ParseRequest, hline]
  simp only
  rw [parseHeaders_segments hdrs _ _ rest rfl hh]

/-! ## The router -/

theorem matchAfter_eq_some (pre s r : Bytes) :
    matchAfter pre s = some r ↔ s = pre ++ r ∧ r ≠ [] ∧ 10 ∉ r := by
  unfold matchAfter
  split_ifs with h
  · simp only [Option.some.injEq]
    constructor
    · intro hr
      subst hr
      refine ⟨?_, h.2.1, h.2.2⟩
      conv_lhs => rw [← List.take_append_drop pre.length s, h.1]
    · rintro ⟨hs, _, _⟩
      subst hs
      simp
  · simp only [false_iff, not_and, reduceCtorEq]
    rintro hs hne hlf
    subst hs
    apply h
    simp [hne, hlf]

theorem matchAfter_prefix (pre r : Bytes) (hne : r ≠ []) (hlf : 10 ∉ r) :
    matchAfter pre (pre ++ r) = some r :=
  (matchAfter_eq_some pre (pre ++ r) r).mpr ⟨rfl, hne, hlf⟩

theorem matchAfter_eq_none (pre s : Bytes) (h : s.take pre.length ≠ pre) :
    matchAfter pre s = none := by
  unfold matchAfter
  simp [h]

theorem order_nil (env : Env) (n : Nat) : env.order n [] = [] :=
  List.Perm.eq_nil (env.order_perm n [])

theorem respond_written (env : Env) (resp : Response) (w : World) :
    (respond env resp w).2.conn.written = w.conn.written ++
      [responseBytes resp (env.order w.conn.written.length resp.Headers)] := by
  unfold respond WriteResponse Conn.Write
  split <;> rfl

theorem respond_files (env : Env) (resp : Response) (w : World) :
    (respond env resp w).2.files = w.files := rfl

/-- When the write succeeds, `respond` returns no error and the stream gets the bytes. -/
theorem respond_wire (env : Env) (resp : Response) (w : World)
    (hok : ∀ n, w.conn.wscript.head? ≠ some (.fail n)) :
    (respond env resp w).1 = .returned false ∧
    (respond env resp w).2.conn.wire = w.conn.wire ++
      responseBytes resp (env.order w.conn.written.length resp.Headers) := by
  unfold respond WriteResponse Conn.Write
  cases hw : w.conn.wscript with
  | nil => simp
  | cons o ws =>
    cases o with
    | ok => simp
    | fail n => exact absurd (by simp [hw]) (hok n)

/-- The router on a target that is none of its routes: `NotFoundHandler`. -/
theorem HandleRequest_default (env : Env) (config : Config) (req : Request) (w : World)
    (h1 : req.RequestTarget ≠ ascii "/") (h2 : req.RequestTarget ≠ ascii "/user-agent")
    (h3 : EchoEndpointRegex req.RequestTarget = none)
    (h4 : FileEndpointRegex req.RequestTarget = none) :
    HandleRequest env config req w =
      respond env { StatusCode := 404, StatusText := ascii "Not Found", Headers := [], Body := none } w := by
  simp [HandleRequest, h1, h2, h3, h4, NotFoundHandler]
  rfl

theorem ascii_files : ascii "/files/" = [47, 102, 105, 108, 101, 115, 47] := by decide

theorem ascii_echo : ascii "/echo/" = [47, 101, 99, 104, 111, 47] := by decide

theorem ascii_root : ascii "/" = [47] := by decide

theorem ascii_user_agent :
    ascii "/user-agent" = [47, 117, 115, 101, 114, 45, 97, 103, 101, 110, 116] := by decide

/-- A target under `/files/` is none of the routes the router tries before. -/
theorem files_target (name : Bytes) :
    ascii "/files/" ++ name ≠ ascii "/" ∧ ascii "/files/" ++ name ≠ ascii "/user-agent" ∧
      EchoEndpointRegex (ascii "/files/" ++ name) = none := by
  refine ⟨?_, ?_, ?_⟩
  · rw [ascii_files, ascii_root]; simp
  · rw [ascii_files, ascii_user_agent]; simp
  · apply matchAfter_eq_none
    rw [ascii_files, ascii_echo]; simp

/-- A target under `/echo/` is none of the routes the router tries before. -/
theorem echo_target (t : Bytes) :
    ascii "/echo/" ++ t ≠ ascii "/" ∧ ascii "/echo/" ++ t ≠ ascii "/user-agent" := by
  refine ⟨?_, ?_⟩
  · rw [ascii_echo, ascii_root]; simp
  · rw [ascii_echo, ascii_user_agent]; simp

/-- With no directory configured, GET and POST under `/files/` go to
`InternalServerErrorHandler` at once. -/
theorem HandleRequest_files_unconfigured (env : Env) (config : Config) (req : Request)
    (w : World) (name : Bytes) (hdir : config.Directory = [])
    (hmatch : FileEndpointRegex req.RequestTarget = some name)
    (hmethod : req.Method = ascii "GET" ∨ req.Method = ascii "POST") :
    HandleRequest env config req w =
      respond env
        { StatusCode := 500, StatusText := ascii "Internal Server Error", Headers := [],
          Body := none } w := by
  have htarget := ((matchAfter_eq_some _ _ _).mp hmatch).1
  obtain ⟨h1, h2, h3⟩ := files_target name
  rw [← htarget] at h1 h2 h3
  rcases hmethod with hm | hm
  · simp [HandleRequest, h1, h2, h3, hmatch, hm, GetFileHandler, hdir, InternalServerErrorHandler]
    rfl
  · have hne : ascii "POST" ≠ ascii "GET" := by decide
    simp [HandleRequest, h1, h2, h3, hmatch, hm, hne, SaveFileHandler, hdir,
      InternalServerErrorHandler]
    rfl

theorem echo_headers (v : Bytes) :
    mapSet (mapSet [] (ascii "Content-Type") (ascii "text/plain")) (ascii "Content-Length") v
      = [(ascii "Content-Type", ascii "text/plain"), (ascii "Content-Length", v)] := by
  have hne : ¬ ascii "Content-Type" = ascii "Content-Length" := by decide
  simp [mapSet, hne]

theorem echo_gzip_headers (v : Bytes) :
    mapSet (mapSet (mapSet [] (ascii "Content-Type") (ascii "text/plain"))
        (ascii "Content-Encoding") (ascii "gzip")) (ascii "Content-Length") v
      = [(ascii "Content-Type", ascii "text/plain"), (ascii "Content-Encoding", ascii "gzip"),
         (ascii "Content-Length", v)] := by
  have h1 : ¬ ascii "Content-Type" = ascii "Content-Length" := by decide
  have h2 : ¬ ascii "Content-Type" = ascii "Content-Encoding" := by decide
  have h3 : ¬ ascii "Content-Encoding" = ascii "Content-Length" := by decide
  simp [mapSet, h1, h2, h3]

/-- The router on a target `/echo/` followed by a text: `EchoHandler`, with the text as
the submatch. -/
theorem HandleRequest_echo (env : Env) (config : Config) (req : Request) (w : World)
    (t : Bytes) (ht : t ≠ []) (hlf : 10 ∉ t) (htarget : req.RequestTarget = ascii "/echo/" ++ t) :
    EchoEndpointRegex req.RequestTarget = some t ∧
      HandleRequest env config req w = EchoHandler env config req w := by
  have hm : EchoEndpointRegex req.RequestTarget = some t := by
    rw [htarget]
    exact matchAfter_prefix _ _ ht hlf
  obtain ⟨h1, h2⟩ := echo_target t
  rw [← htarget] at h1 h2
  exact ⟨hm, by simp [HandleRequest, h1, h2, hm]⟩

/-! ## The responses of the handlers -/

theorem wellFormed_plain (code : Int) :
    wellFormedResponse
      { StatusCode := code, StatusText := StatusCodeToText code, Headers := [], Body := none } :=
  ⟨rfl, fun body h => by cases h⟩

theorem sends_plain (env : Env) (code : Int) (w : World) :
    sendsWellFormed env (respond env
      { StatusCode := code, StatusText := StatusCodeToText code, Headers := [], Body := none } w) :=
  Or.inl ⟨_, w, rfl, wellFormed_plain code⟩

theorem sends_Echo (env : Env) (config : Config) (req : Request) (w : World) :
    sendsWellFormed env (EchoHandler env config req w) := by
  unfold EchoHandler
  split
  · exact sends_plain env 404 w
  · simp only
    split_ifs
    · split
      · exact sends_plain env 500 w
      · refine Or.inl ⟨_, w, rfl, rfl, fun body h => ?_⟩
        simp only [Option.some.injEq] at h
        subst h
        exact mapGet_mapSet_self _ _ _
    · refine Or.inl ⟨_, w, rfl, rfl, fun body h => ?_⟩
      simp only [Option.some.injEq] at h
      subst h
      exact mapGet_mapSet_self _ _ _

theorem sends_UserAgent (env : Env) (config : Config) (req : Request) (w : World) :
    sendsWellFormed env (UserAgentHandler env config req w) := by
  unfold UserAgentHandler
  split
  · exact Or.inr (Or.inl rfl)
  · refine Or.inl ⟨_, w, rfl, rfl, fun body h => ?_⟩
    simp only [Option.some.injEq] at h
    subst h
    have hne : ¬ ascii "Content-Type" = ascii "Content-Length" := by decide
    simp [mapGet, hne]

theorem sends_GetFile (env : Env) (config : Config) (req : Request) (w : World) :
    sendsWellFormed env (GetFileHandler env config req w) := by
  unfold GetFileHandler
  split_ifs
  · exact sends_plain env 500 w
  · split
    · exact sends_plain env 400 w
    · split_ifs
      · exact sends_plain env 400 w
      · split
        · exact sends_plain env 404 w
        · exact sends_plain env 404 w
        · exact sends_plain env 500 w
        · exact sends_plain env 500 w
        · refine Or.inl ⟨_, w, rfl, rfl, fun body h => ?_⟩
          simp only [Option.some.injEq] at h
          subst h
          have hne : ¬ ascii "Content-Type" = ascii "Content-Length" := by decide
          simp [mapGet, hne]

theorem sends_SaveFile (env : Env) (config : Config) (req : Request) (w : World) :
    sendsWellFormed env (SaveFileHandler env config req w) := by
  unfold SaveFileHandler
  split_ifs
  · exact sends_plain env 500 w
  · split
    · exact sends_plain env 400 w
    · split_ifs
      · exact sends_plain env 400 w
      · split
        · exact Or.inr (Or.inr rfl)
        · exact sends_plain env 500 _
        · split
          · exact sends_plain env 500 _
          · exact sends_plain env 201 _

/-! ## One call of `readUntilCRLF`, whatever the split of the bytes -/

theorem cutAfter_eq_none (d : Nat) (s : Bytes) : cutAfter d s = none ↔ d ∉ s := by
  constructor
  · intro h hmem
    induction s with
    | nil => simp at hmem
    | cons b rest ih =>
      simp only [cutAfter] at h
      split_ifs at h with hb
      cases hc : cutAfter d rest with
      | none =>
        simp only [List.mem_cons] at hmem
        rcases hmem with hm | hm
        · exact hb hm.symm
        · exact ih hc hm
      | some p => simp [hc] at h
  · exact cutAfter_none d s

/-- The bytes through the first line feed: a piece without line feed, the line feed,
and the rest. -/
theorem cutAfter_eq_some (d : Nat) (s line rem : Bytes) (h : cutAfter d s = some (line, rem)) :
    ∃ l0, line = l0 ++ [d] ∧ d ∉ l0 ∧ s = l0 ++ d :: rem := by
  induction s generalizing line with
  | nil => simp [cutAfter] at h
  | cons b rest ih =>
    simp only [cutAfter] at h
    split_ifs at h with hb
    · simp only [Option.some.injEq, Prod.mk.injEq] at h
      obtain ⟨rfl, rfl⟩ := h
      exact ⟨[], by simp [hb], by simp, by simp [hb]⟩
    · cases hc : cutAfter d rest with
      | none => simp [hc] at h
      | some p =>
        obtain ⟨a1, r1⟩ := p
        simp only [hc, Option.some.injEq, Prod.mk.injEq] at h
        obtain ⟨rfl, rfl⟩ := h
        obtain ⟨l0, h1, h2, h3⟩ := ih a1 hc
        refine ⟨b :: l0, by simp [h1], ?_, by simp [h3]⟩
        simp only [List.mem_cons, not_or]
        exact ⟨fun h => hb h.symm, h2⟩

theorem cutAfter_append (d : Nat) (s line rem x : Bytes) (h : cutAfter d s = some (line, rem)) :
    cutAfter d (s ++ x) = some (line, rem ++ x) := by
  obtain ⟨l0, rfl, h2, rfl⟩ := cutAfter_eq_some d s line rem h
  have := cutAfter_first d l0 (rem ++ x) h2
  simpa using this

/-- The text before the first CRLF of `s`, as `cutCRLF` gives it: `s` is that text, the
CRLF and the rest, and no CRLF of `s` starts earlier. -/
theorem cutCRLF_spec (s : Bytes) : ∀ (pre post : Bytes), cutCRLF s = some (pre, post) →
    s = pre ++ 13 :: 10 :: post ∧
      ∀ pre2 post2, s = pre2 ++ 13 :: 10 :: post2 → pre.length ≤ pre2.length := by
  induction s with
  | nil => intro _ _ h; simp [cutCRLF] at h
  | cons a rest ih =>
    intro pre post h
    rw [cutCRLF] at h
    split_ifs at h with hc
    · simp only [Option.some.injEq, Prod.mk.injEq] at h
      obtain ⟨rfl, rfl⟩ := h
      obtain ⟨ha, hh⟩ := hc
      subst ha
      cases rest with
      | nil => simp at hh
      | cons b rest2 =>
        simp only [List.head?_cons, Option.some.injEq] at hh
        subst hh
        exact ⟨rfl, fun _ _ _ => Nat.zero_le _⟩
    · cases hr : cutCRLF rest with
      | none => simp [hr] at h
      | some p =>
        obtain ⟨l, r⟩ := p
        simp only [hr, Option.some.injEq, Prod.mk.injEq] at h
        obtain ⟨rfl, rfl⟩ := h
        obtain ⟨h1, h2⟩ := ih l r hr
        refine ⟨by rw [h1]; rfl, ?_⟩
        intro pre2 post2 hs
        cases pre2 with
        | nil =>
          simp only [List.nil_append, List.cons.injEq] at hs
          exact absurd ⟨hs.1, by rw [hs.2]; rfl⟩ hc
        | cons x pre2 =>
          simp only [List.cons_append, List.cons.injEq] at hs
          have := h2 pre2 post2 hs.2
          simp only [List.length_cons]
          omega

theorem cutCRLF_no_lf (s : Bytes) (h : 10 ∉ s) : cutCRLF s = none := by
  induction s with
  | nil => rfl
  | cons a rest ih =>
    simp only [List.mem_cons, not_or] at h
    rw [cutCRLF]
    have hh : ¬ (a = 13 ∧ rest.head? = some 10) := by
      rintro ⟨_, hh⟩
      cases rest with
      | nil => simp at hh
      | cons b r =>
        simp only [List.head?_cons, Option.some.injEq] at hh
        exact h.2 (by simp [hh])
    simp only [hh, if_false, ih h.2]

/-- A piece without line feed that ends in a carriage return, then a line feed: the
first CRLF is this one. -/
theorem cutCRLF_first (l1 rem : Bytes) (h : 10 ∉ l1) :
    cutCRLF (l1 ++ 13 :: 10 :: rem) = some (l1, rem) := by
  induction l1 with
  | nil => simp [cutCRLF]
  | cons a l ih =>
    simp only [List.mem_cons, not_or] at h
    rw [List.cons_append, cutCRLF]
    have hh : ¬ (a = 13 ∧ (l ++ 13 :: 10 :: rem).head? = some 10) := by
      rintro ⟨_, hh⟩
      cases l with
      | nil => simp at hh
      | cons b r =>
        simp only [List.cons_append, List.head?_cons, Option.some.injEq] at hh
        exact h.2 (by simp [hh])
    simp only [hh, if_false, ih h.2]

/-- A piece without line feed that does not end in a carriage return, then a line
feed: no CRLF here, the first CRLF is the first one of the rest. -/
theorem cutCRLF_bare_lf (l0 rem : Bytes) (h : 10 ∉ l0) (hcr : ∀ l1, l0 ≠ l1 ++ [13]) :
    cutCRLF (l0 ++ 10 :: rem) =
      (match cutCRLF rem with
      | none => none
      | some (a, r) => some (l0 ++ 10 :: a, r)) := by
  induction l0 with
  | nil =>
    rw [List.nil_append, cutCRLF]
    simp only [show ¬ ((10 : Nat) = 13) by decide, false_and, if_false]
    cases cutCRLF rem with
    | none => rfl
    | some p => rfl
  | cons a l ih =>
    simp only [List.mem_cons, not_or] at h
    rw [List.cons_append, cutCRLF]
    have hh : ¬ (a = 13 ∧ (l ++ 10 :: rem).head? = some 10) := by
      rintro ⟨ha, hh⟩
      cases l with
      | nil => exact hcr [] (by simp [ha])
      | cons b r =>
        simp only [List.cons_append, List.head?_cons, Option.some.injEq] at hh
        exact h.2 (by simp [hh])
    have ih2 := ih h.2 (fun l1 hl => hcr (a :: l1) (by simp [hl]))
    simp only [hh, if_false, ih2]
    cases cutCRLF rem with
    | none => rfl
    | some p => rfl

theorem cutAfter_skip (d : Nat) (buf x : Bytes) (h : d ∉ buf) :
    cutAfter d (buf ++ x) =
      (match cutAfter d x with
      | none => none
      | some (a, r) => some (buf ++ a, r)) := by
  induction buf with
  | nil =>
    simp only [List.nil_append]
    cases cutAfter d x with
    | none => rfl
    | some p => rfl
  | cons b buf ih =>
    simp only [List.mem_cons, not_or] at h
    have hb : ¬ b = d := fun h1 => h.1 h1.symm
    rw [List.cons_append, cutAfter]
    simp only [hb, if_false, ih h.2]
    cases cutAfter d x with
    | none => rfl
    | some p => rfl

/-- A read from a script that starts with data segments holding at least one byte:
it returns bytes, and what is left starts with the remaining data. -/
theorem recv_segments (d : Bool) (n : Nat) (tail : List Event) (segs : List Bytes)
    (hne : segs.flatten ≠ []) :
    ∃ (bs : Bytes) (segs2 : List Bytes), recv d n (segs.map Event.data ++ tail) = ((bs, none), segs2.map Event.data ++ tail) ∧
      bs ++ segs2.flatten = segs.flatten := by
  induction segs with
  | nil => simp at hne
  | cons s segs ih =>
    by_cases hs : s = []
    · subst hs
      obtain ⟨bs, segs2, h1, h2⟩ := ih (by simpa using hne)
      exact ⟨bs, segs2, by simpa [recv] using h1, by simpa using h2⟩
    · by_cases hl : s.length ≤ n
      · exact ⟨s, segs, by simp [recv, hs, hl], by simp⟩
      · refine ⟨s.take n, s.drop n :: segs, by simp [recv, hs, hl], ?_⟩
        simp only [List.flatten_cons, ← List.append_assoc, List.take_append_drop]

/-- A read from a script whose data segments are all empty is a read of what follows them. -/
theorem recv_no_data (d : Bool) (n : Nat) (tail : List Event) (segs : List Bytes)
    (hnil : segs.flatten = []) :
    recv d n (segs.map Event.data ++ tail) = recv d n tail := by
  induction segs with
  | nil => rfl
  | cons s segs ih =>
    simp only [List.flatten_cons, List.append_eq_nil] at hnil
    obtain ⟨rfl, h2⟩ := hnil
    simp only [List.map_cons, List.cons_append, recv, if_true]
    exact ih h2

theorem Read_segments (c : Conn) (n : Nat) (hn : 1 ≤ n) (tail : List Event) (segs : List Bytes)
    (hin : c.input = segs.map Event.data ++ tail) (hne : segs.flatten ≠ []) :
    ∃ (bs : Bytes) (segs2 : List Bytes), c.Read n = ((bs, none), { c with input := segs2.map Event.data ++ tail }) ∧
      bs ++ segs2.flatten = segs.flatten := by
  obtain ⟨bs, segs2, h1, h2⟩ := recv_segments c.deadline n tail segs hne
  refine ⟨bs, segs2, ?_, h2⟩
  have hn0 : n ≠ 0 := by omega
  simp only [Conn.Read, hn0, if_false, hin, h1]

/-- `ReadBytes` on a reader and a script that together hold a line feed, the script
starting with data segments up to it: the call returns the bytes through the first line
feed, and the rest stays in the reader's buffer and on the connection. -/
theorem ReadBytesFuel_line (fuel : Nat) : ∀ (acc buf : Bytes) (segs : List Bytes)
    (tail : List Event) (c : Conn) (line rem : Bytes),
    c.input = segs.map Event.data ++ tail →
    cutAfter 10 (buf ++ segs.flatten) = some (line, rem) →
    weight c.input < fuel →
    ∃ (rd2 : Bytes) (segs2 : List Bytes), ReadBytesFuel fuel acc buf c
        = some ((acc ++ line, none), rd2, { c with input := segs2.map Event.data ++ tail }) ∧
      rd2 ++ segs2.flatten = rem := by
  induction fuel with
  | zero => intro _ _ _ _ c _ _ _ _ h; omega
  | succ fuel ih =>
    intro acc buf segs tail c line rem hin hcut hf
    rw [ReadBytesFuel]
    cases hc : cutAfter 10 buf with
    | some p =>
      obtain ⟨l, r⟩ := p
      rw [cutAfter_append 10 buf l r _ hc] at hcut
      simp only [Option.some.injEq, Prod.mk.injEq] at hcut
      obtain ⟨rfl, rfl⟩ := hcut
      refine ⟨r, segs, ?_, rfl⟩
      simp only [← hin]
    | none =>
      have hbuf : 10 ∉ buf := (cutAfter_eq_none 10 buf).mp hc
      rw [cutAfter_skip 10 buf _ hbuf] at hcut
      cases hx : cutAfter 10 segs.flatten with
      | none => simp [hx] at hcut
      | some p =>
        obtain ⟨l2, r2⟩ := p
        simp only [hx, Option.some.injEq, Prod.mk.injEq] at hcut
        obtain ⟨rfl, rfl⟩ := hcut
        have hne : segs.flatten ≠ [] := by
          intro h0
          rw [h0] at hx
          simp [cutAfter] at hx
        simp only
        have hb : 1 ≤ bufSize - (if bufSize ≤ buf.length then ([] : Bytes) else buf).length := by
          split_ifs with hfull
          · simp [bufSize]
          · omega
        have hacc : (if bufSize ≤ buf.length then acc ++ buf else acc)
            ++ (if bufSize ≤ buf.length then ([] : Bytes) else buf) = acc ++ buf := by
          split_ifs <;> simp
        have hbuf1 : 10 ∉ (if bufSize ≤ buf.length then ([] : Bytes) else buf) := by
          split_ifs
          · simp
          · exact hbuf
        generalize (if bufSize ≤ buf.length then ([] : Bytes) else buf) = buf1 at hb hacc hbuf1 ⊢
        generalize (if bufSize ≤ buf.length then acc ++ buf else acc) = acc1 at hacc ⊢
        obtain ⟨bs, segs2, hread, hbs⟩ := Read_segments c _ hb tail segs hin hne
        have hd := Read_data c (bufSize - buf1.length) hb (by rw [hread])
        rw [hread] at hd ⊢
        simp only at hd ⊢
        have hcut2 : cutAfter 10 ((buf1 ++ bs) ++ segs2.flatten) = some (buf1 ++ l2, r2) := by
          rw [List.append_assoc, hbs, cutAfter_skip 10 buf1 _ hbuf1, hx]
        obtain ⟨rd2, segs3, h1, h2⟩ := ih acc1 (buf1 ++ bs) segs2 tail
          { c with input := segs2.map Event.data ++ tail } _ _ rfl hcut2
          (by show weight (segs2.map Event.data ++ tail) < fuel; omega)
        refine ⟨rd2, segs3, ?_, h2⟩
        rw [h1, ← List.append_assoc, hacc, List.append_assoc]

/-- `ReadBytes` on a reader and a script without line feed, the data segments followed
by the end of the stream, an idle peer or a broken connection: the call returns the error
that the read after the last segment reports. -/
theorem ReadBytesFuel_no_line (fuel : Nat) : ∀ (acc buf : Bytes) (segs : List Bytes)
    (tail : List Event) (c : Conn) (e : NetErr),
    c.input = segs.map Event.data ++ tail →
    10 ∉ buf ++ segs.flatten →
    (∀ n, (recv c.deadline n tail).1.2 = some e) →
    weight c.input < fuel →
    ∃ out c2, ReadBytesFuel fuel acc buf c = some ((out, some e), [], c2) := by
  induction fuel with
  | zero => intro _ _ _ _ c _ _ _ _ h; omega
  | succ fuel ih =>
    intro acc buf segs tail c e hin hlf htail hf
    rw [ReadBytesFuel]
    have hbuf : 10 ∉ buf := fun h => hlf (by simp [h])
    rw [cutAfter_none 10 buf hbuf]
    simp only
    have hb : 1 ≤ bufSize - (if bufSize ≤ buf.length then ([] : Bytes) else buf).length := by
      split_ifs with hfull
      · simp [bufSize]
      · omega
    have hbuf1 : 10 ∉ (if bufSize ≤ buf.length then ([] : Bytes) else buf) := by
      split_ifs
      · simp
      · exact hbuf
    generalize (if bufSize ≤ buf.length then ([] : Bytes) else buf) = buf1 at hb hbuf1 ⊢
    generalize (if bufSize ≤ buf.length then acc ++ buf else acc) = acc1
    by_cases hne : segs.flatten = []
    · have hn0 : bufSize - buf1.length ≠ 0 := by omega
      have hrecv := recv_no_data c.deadline (bufSize - buf1.length) tail segs hne
      have he := htail (bufSize - buf1.length)
      rcases hr : recv c.deadline (bufSize - buf1.length) tail with ⟨⟨bs, e2⟩, rest⟩
      rw [hr] at he
      simp only at he
      subst he
      simp only [Conn.Read, hn0, if_false, hin, hrecv, hr]
      exact ⟨_, _, rfl⟩
    · obtain ⟨bs, segs2, hread, hbs⟩ := Read_segments c _ hb tail segs hin hne
      have hd := Read_data c (bufSize - buf1.length) hb (by rw [hread])
      rw [hread] at hd ⊢
      simp only at hd ⊢
      have hlf2 : 10 ∉ (buf1 ++ bs) ++ segs2.flatten := by
        rw [List.append_assoc, hbs]
        simp only [List.mem_append, not_or]
        exact ⟨hbuf1, fun h => hlf (by simp [h])⟩
      exact ih acc1 (buf1 ++ bs) segs2 tail { c with input := segs2.map Event.data ++ tail } e rfl
        hlf2 htail (by show weight (segs2.map Event.data ++ tail) < fuel; omega)

theorem ReadBytes_line (buf : Bytes) (segs : List Bytes) (tail : List Event) (c : Conn)
    (line rem : Bytes) (hin : c.input = segs.map Event.data ++ tail)
    (hcut : cutAfter 10 (buf ++ segs.flatten) = some (line, rem)) :
    ∃ (rd2 : Bytes) (segs2 : List Bytes),
      ReadBytes buf c = ((line, none), rd2, { c with input := segs2.map Event.data ++ tail }) ∧
      rd2 ++ segs2.flatten = rem := by
  obtain ⟨rd2, segs2, h1, h2⟩ := ReadBytesFuel_line (weight c.input + 1) [] buf segs tail c line rem
    hin hcut (by omega)
  exact ⟨rd2, segs2, ReadBytes_of_fuel _ _ _ _ h1, h2⟩

theorem ReadBytes_no_line (buf : Bytes) (segs : List Bytes) (tail : List Event) (c : Conn)
    (e : NetErr) (hin : c.input = segs.map Event.data ++ tail) (hlf : 10 ∉ buf ++ segs.flatten)
    (htail : ∀ n, (recv c.deadline n tail).1.2 = some e) :
    ∃ out c2, ReadBytes buf c = ((out, some e), [], c2) := by
  obtain ⟨out, c2, h1⟩ := ReadBytesFuel_no_line (weight c.input + 1) [] buf segs tail c e
    hin hlf htail (by omega)
  exact ⟨out, c2, ReadBytes_of_fuel _ _ _ _ h1⟩

/-- The test of `readUntilCRLF` on the bytes collected: they end in CRLF. -/
theorem endsCRLF_iff (r : Bytes) :
    (2 ≤ r.length ∧ r.drop (r.length - 2) = CRLF) ↔ ∃ p, r = p ++ [13, 10] := by
  constructor
  · rintro ⟨_, h2⟩
    refine ⟨r.take (r.length - 2), ?_⟩
    have := List.take_append_drop (r.length - 2) r
    rw [h2] at this
    exact this.symm
  · rintro ⟨p, rfl⟩
    simp [CRLF]

/-- The bytes collected do not end in CRLF after a line whose line feed follows no
carriage return. -/
theorem not_endsCRLF (buf l0 : Bytes) (hinv : buf = [] ∨ ∃ b, buf = b ++ [10])
    (hcr : ∀ l1, l0 ≠ l1 ++ [13]) :
    ¬ (2 ≤ (buf ++ (l0 ++ [10])).length ∧
      (buf ++ (l0 ++ [10])).drop ((buf ++ (l0 ++ [10])).length - 2) = CRLF) := by
  rw [endsCRLF_iff]
  rintro ⟨p, hp⟩
  have hp2 : (buf ++ l0) ++ [10] = (p ++ [13]) ++ [10] := by simpa using hp
  have hp3 : buf ++ l0 = p ++ [13] := List.append_cancel_right hp2
  rcases List.eq_nil_or_concat' l0 with rfl | ⟨l1, y, rfl⟩
  · simp only [List.append_nil] at hp3
    rcases hinv with rfl | ⟨b, rfl⟩
    · simp at hp3
    · have := List.append_inj_right' hp3 rfl
      simp at this
  · rw [← List.append_assoc] at hp3
    have h1 := List.append_inj_right' hp3 rfl
    simp only [List.cons.injEq, and_true] at h1
    subst h1
    exact hcr l1 rfl

/-- The loop of `readUntilCRLF` on a reader and a script that together hold a CRLF, the
script starting with data segments up to it: the call returns what it had collected
followed by the text before the first CRLF. -/
theorem readLoopFuel_line (fuel : Nat) : ∀ (buf rd : Bytes) (segs : List Bytes)
    (tail : List Event) (c : Conn) (pre post : Bytes),
    c.input = segs.map Event.data ++ tail →
    (buf = [] ∨ ∃ b, buf = b ++ [10]) →
    cutCRLF (rd ++ segs.flatten) = some (pre, post) →
    rd.length + weight c.input < fuel →
    ∃ segs2 : List Bytes, readLoopFuel fuel buf rd c
      = some ((buf ++ pre, none), { c with input := segs2.map Event.data ++ tail }) := by
  induction fuel with
  | zero => intro _ _ _ _ c _ _ _ _ _ h; omega
  | succ fuel ih =>
    intro buf rd segs tail c pre post hin hinv hcrlf hf
    rw [readLoopFuel]
    cases hcut : cutAfter 10 (rd ++ segs.flatten) with
    | none =>
      rw [cutCRLF_no_lf _ ((cutAfter_eq_none 10 _).mp hcut)] at hcrlf
      cases hcrlf
    | some p =>
      obtain ⟨line, rem⟩ := p
      obtain ⟨l0, rfl, hl0, hP⟩ := cutAfter_eq_some 10 _ line rem hcut
      obtain ⟨rd2, segs2, hrb, hrem⟩ := ReadBytes_line rd segs tail c _ rem hin hcut
      have hw := (ReadBytes_spec rd c).2.1
      rw [hrb] at hw ⊢
      have hw2 : rd2.length + weight (segs2.map Event.data ++ tail) < rd.length + weight c.input :=
        hw rfl
      simp only
      by_cases hend : ∃ l1, l0 = l1 ++ [13]
      · obtain ⟨l1, rfl⟩ := hend
        have hl1 : 10 ∉ l1 := fun h => hl0 (by simp [h])
        have hres : buf ++ (l1 ++ [13] ++ [10]) = (buf ++ l1) ++ [13, 10] := by simp
        have htest : 2 ≤ (buf ++ (l1 ++ [13] ++ [10])).length ∧
            (buf ++ (l1 ++ [13] ++ [10])).drop ((buf ++ (l1 ++ [13] ++ [10])).length - 2) = CRLF :=
          (endsCRLF_iff _).mpr ⟨buf ++ l1, hres⟩
        rw [if_pos htest]
        have hpre : pre = l1 := by
          rw [hP] at hcrlf
          have := cutCRLF_first l1 rem hl1
          simp only [List.append_assoc, List.singleton_append] at hcrlf
          rw [this] at hcrlf
          simp only [Option.some.injEq, Prod.mk.injEq] at hcrlf
          exact hcrlf.1.symm
        subst hpre
        refine ⟨segs2, ?_⟩
        have htake : ((buf ++ pre) ++ [13, 10]).take (((buf ++ pre) ++ [13, 10]).length - 2)
            = buf ++ pre := by
          have hlen : ((buf ++ pre) ++ [13, 10]).length - 2 = (buf ++ pre).length := by
            simp only [List.length_append, List.length_cons, List.length_nil]
            omega
          rw [hlen, List.take_left']
          rfl
        rw [hres, htake]
      · have hcr : ∀ l1, l0 ≠ l1 ++ [13] := fun l1 h => hend ⟨l1, h⟩
        rw [if_neg (not_endsCRLF buf l0 hinv hcr)]
        rw [hP, cutCRLF_bare_lf l0 rem hl0 hcr] at hcrlf
        cases hrem2 : cutCRLF rem with
        | none => simp [hrem2] at hcrlf
        | some q =>
          obtain ⟨a, r⟩ := q
          simp only [hrem2, Option.some.injEq, Prod.mk.injEq] at hcrlf
          obtain ⟨rfl, rfl⟩ := hcrlf
          obtain ⟨segs3, h3⟩ := ih (buf ++ (l0 ++ [10])) rd2 segs2 tail
            { c with input := segs2.map Event.data ++ tail } a r rfl
            (Or.inr ⟨buf ++ l0, by simp⟩) (by rw [hrem]; exact hrem2)
            (by show rd2.length + weight (segs2.map Event.data ++ tail) < fuel; omega)
          refine ⟨segs3, ?_⟩
          rw [h3]
          simp

theorem throughLastLF_no_lf (s : Bytes) (h : 10 ∉ s) : throughLastLF s = [] := by
  cases s with
  | nil => rfl
  | cons b rest =>
    have h1 : ¬ (b = 10 ∨ 10 ∈ rest) := by
      rintro (hb | hr)
      · exact h (by simp [hb])
      · exact h (by simp [hr])
    rw [throughLastLF, if_neg h1]

theorem throughLastLF_cut (l0 rem : Bytes) :
    throughLastLF (l0 ++ 10 :: rem) = l0 ++ 10 :: throughLastLF rem := by
  induction l0 with
  | nil => simp [throughLastLF]
  | cons a l0 ih =>
    have h1 : a = 10 ∨ 10 ∈ l0 ++ 10 :: rem := Or.inr (by simp)
    rw [List.cons_append, throughLastLF, if_pos h1, ih]
    rfl

/-- The loop of `readUntilCRLF` on a reader and a script that hold no CRLF, the data
segments followed by the end of the stream, an idle peer or a broken connection: the
call ends on the error `e` of the read after the last segment.  End of stream gives
the error `io.EOF`, a time-out gives no error; both return exactly the bytes of the
stream up to and including its last line feed: the bytes after it, which `ReadBytes`
hands back together with the error, are never written to the buffer. -/
theorem readLoopFuel_no_line (fuel : Nat) : ∀ (buf rd : Bytes) (segs : List Bytes)
    (tail : List Event) (c : Conn) (e : NetErr),
    c.input = segs.map Event.data ++ tail →
    (buf = [] ∨ ∃ b, buf = b ++ [10]) →
    cutCRLF (rd ++ segs.flatten) = none →
    (∀ n, (recv c.deadline n tail).1.2 = some e) →
    rd.length + weight c.input < fuel →
    ∃ text c2, readLoopFuel fuel buf rd c
        = some ((text, if e = .Timeout then none else some e), c2) ∧
      (e ≠ .Other → text = buf ++ throughLastLF (rd ++ segs.flatten)) := by
  induction fuel with
  | zero => intro _ _ _ _ c _ _ _ _ _ h; omega
  | succ fuel ih =>
    intro buf rd segs tail c e hin hinv hcrlf htail hf
    rw [readLoopFuel]
    cases hcut : cutAfter 10 (rd ++ segs.flatten) with
    | none =>
      obtain ⟨out, c2, hrb⟩ := ReadBytes_no_line rd segs tail c e hin
        ((cutAfter_eq_none 10 _).mp hcut) htail
      rw [hrb]
      cases e with
      | EOF =>
        exact ⟨buf, c2, rfl, fun _ => by
          rw [throughLastLF_no_lf _ ((cutAfter_eq_none 10 _).mp hcut)]; simp⟩
      | Timeout =>
        exact ⟨buf, c2, rfl, fun _ => by
          rw [throughLastLF_no_lf _ ((cutAfter_eq_none 10 _).mp hcut)]; simp⟩
      | Other => exact ⟨[], c2, rfl, fun h => absurd rfl h⟩
    | some p =>
      obtain ⟨line, rem⟩ := p
      obtain ⟨l0, rfl, hl0, hP⟩ := cutAfter_eq_some 10 _ line rem hcut
      obtain ⟨rd2, segs2, hrb, hrem⟩ := ReadBytes_line rd segs tail c _ rem hin hcut
      have hw := (ReadBytes_spec rd c).2.1
      rw [hrb] at hw ⊢
      have hw2 : rd2.length + weight (segs2.map Event.data ++ tail) < rd.length + weight c.input :=
        hw rfl
      simp only
      have hcr : ∀ l1, l0 ≠ l1 ++ [13] := by
        intro l1 hl
        subst hl
        have hl1 : 10 ∉ l1 := fun h => hl0 (by simp [h])
        rw [hP] at hcrlf
        simp only [List.append_assoc, List.singleton_append] at hcrlf
        rw [cutCRLF_first l1 rem hl1] at hcrlf
        cases hcrlf
      rw [if_neg (not_endsCRLF buf l0 hinv hcr)]
      rw [hP, cutCRLF_bare_lf l0 rem hl0 hcr] at hcrlf
      have hrem2 : cutCRLF rem = none := by
        cases hq : cutCRLF rem with
        | none => rfl
        | some q => simp [hq] at hcrlf
      obtain ⟨text, c3, h3, h4⟩ := ih (buf ++ (l0 ++ [10])) rd2 segs2 tail
        { c with input := segs2.map Event.data ++ tail } e rfl
        (Or.inr ⟨buf ++ l0, by simp⟩) (by rw [hrem]; exact hrem2) htail
        (by show rd2.length + weight (segs2.map Event.data ++ tail) < fuel; omega)
      refine ⟨text, c3, h3, fun he => ?_⟩
      rw [h4 he, hrem, hP]
      simp [throughLastLF_cut]

/-! ## Claims -/

/-- C4: for every line read as the request line, `parseRequestLine` fails if and only
if splitting the line on single spaces does not give exactly three tokens; when it
gives exactly three, it succeeds and sets Method, RequestTarget and Version to the
first, second and third token, leaving Headers unchanged. -/
theorem parseRequestLine_tokens (req : Request) (c c1 : Conn) (line : Bytes)
    (h : readUntilCRLF c = ((line, none), c1)) :
    ((∃ e, (parseRequestLine req c).1 = .error e) ↔ (Split 32 line).length ≠ 3) ∧
    ((Split 32 line).length ≠ 3 →
      parseRequestLine req c = (.error (.badRequestLine (Split 32 line).length), c1)) ∧
    (∀ a b d, Split 32 line = [a, b, d] →
      parseRequestLine req c =
        (.ok { Method := a, RequestTarget := b, Version := d, Headers := req.Headers }, c1)) := by
  refine ⟨?_, ?_, ?_⟩
  · by_cases h3 : (Split 32 line).length ≠ 3
    · simp [parseRequestLine, h, h3]
    · simp [parseRequestLine, h, h3]
  · intro h3
    simp [parseRequestLine, h, h3]
  · intro a b d ht
    simp [parseRequestLine, h, ht]

/-- A request line of three tokens arriving in one segment. -/
theorem parseRequestLine_tokens_witness :
    readUntilCRLF (Conn.fresh [.data (ascii "GET /a HTTP/1.1\r\n")])
        = ((ascii "GET /a HTTP/1.1", none), Conn.fresh []) ∧
      parseRequestLine ⟨[], [], [], [(ascii "K", ascii "v")]⟩
          (Conn.fresh [.data (ascii "GET /a HTTP/1.1\r\n")])
        = (.ok ⟨ascii "GET", ascii "/a", ascii "HTTP/1.1", [(ascii "K", ascii "v")]⟩,
            Conn.fresh []) :=
  ⟨by decide,
   (parseRequestLine_tokens ⟨[], [], [], [(ascii "K", ascii "v")]⟩
      (Conn.fresh [.data (ascii "GET /a HTTP/1.1\r\n")]) (Conn.fresh [])
      (ascii "GET /a HTTP/1.1") (by decide)).2.2 (ascii "GET") (ascii "/a") (ascii "HTTP/1.1")
      (by decide)⟩

/-- C3, as the code has it: when `ParseRequest` returns a Request, its Method,
RequestTarget and Version are the three tokens of the request line, separated there by
single spaces and holding no space themselves; any of them may be empty. -/
theorem ParseRequest_tokens (c c2 : Conn) (req : Request)
    (h : ParseRequest c = (.ok req, c2)) :
    32 ∉ req.Method ∧ 32 ∉ req.RequestTarget ∧ 32 ∉ req.Version ∧
      (readUntilCRLF c).1 =
        (req.Method ++ 32 :: req.RequestTarget ++ 32 :: req.Version, none) := by
  unfold ParseRequest at h
  rcases hl : parseRequestLine { Method := [], RequestTarget := [], Version := [], Headers := [] } c
    with ⟨res, c1⟩
  rw [hl] at h
  cases res with
  | error e => simp at h
  | ok req1 =>
    simp only at h
    rcases hh : parseHeaders req1 c1 with ⟨res2, c3⟩
    rw [hh] at h
    cases res2 with
    | error e => simp at h
    | ok req2 =>
      simp only [Prod.mk.injEq, Except.ok.injEq] at h
      obtain ⟨rfl, rfl⟩ := h
      obtain ⟨hm, ht, hv⟩ := (parseHeaders_inv req1 c1 c3 _ hh).1 req2 rfl
      unfold parseRequestLine at hl
      rcases hr : readUntilCRLF c with ⟨⟨line, e⟩, c4⟩
      rw [hr] at hl
      cases e with
      | some e => simp at hl
      | none =>
        simp only at hl
        by_cases h3 : (Split 32 line).length = 3
        swap
        · simp [h3] at hl
        obtain ⟨a, b, d, habd⟩ := list_length_three (Split 32 line) h3
        simp only [habd, List.length_cons, List.length_nil, ne_eq, not_true_eq_false, if_false,
          Prod.mk.injEq, Except.ok.injEq] at hl
        obtain ⟨hl, _⟩ := hl
        subst hl
        obtain ⟨h1, h2, h3, h4⟩ := Split_three 32 line a b d habd
        simp only [List.getD_cons_zero, List.getD_cons_succ] at hm ht hv
        rw [hm, ht, hv]
        exact ⟨h1, h2, h3, by rw [h4]⟩

/-- A request parsed from `GET /a HTTP/1.1`. -/
theorem ParseRequest_tokens_witness :
    ParseRequest (Conn.fresh [.data (ascii "GET /a HTTP/1.1\r\n"), .data (ascii "\r\n")])
        = (.ok ⟨ascii "GET", ascii "/a", ascii "HTTP/1.1", []⟩, Conn.fresh []) ∧
      32 ∉ ascii "GET" ∧ 32 ∉ ascii "/a" ∧ 32 ∉ ascii "HTTP/1.1" ∧
      (readUntilCRLF (Conn.fresh [.data (ascii "GET /a HTTP/1.1\r\n"), .data (ascii "\r\n")])).1
        = (ascii "GET" ++ 32 :: ascii "/a" ++ 32 :: ascii "HTTP/1.1", none) :=
  ⟨by decide,
   ParseRequest_tokens (Conn.fresh [.data (ascii "GET /a HTTP/1.1\r\n"), .data (ascii "\r\n")])
     (Conn.fresh []) ⟨ascii "GET", ascii "/a", ascii "HTTP/1.1", []⟩ (by decide)⟩

/-- C3 as stated fails: a request line made of two spaces has three empty tokens, and
`ParseRequest` returns a Request whose Method, RequestTarget and Version are all empty. -/
theorem ParseRequest_empty_tokens :
    (ParseRequest (Conn.fresh [.data (ascii "  \r\n"), .data (ascii "\r\n")])).1
      = .ok { Method := [], RequestTarget := [], Version := [], Headers := [] } := by
  decide

/-- C5: for every non-empty header line, `parseHeaders` fails (at that line) if and
only if the line contains no colon; otherwise it stores one entry whose name is the text
before the first colon and whose value is all the text after it, both trimmed, the name
kept byte for byte as the key, and goes on with the next line.  An empty line ends the
parsing of headers. -/
theorem parseHeaders_line (req : Request) (c c1 : Conn) (line : Bytes)
    (h : readUntilCRLF c = ((line, none), c1)) :
    (line = [] → parseHeaders req c = (.ok req, c1)) ∧
    (line ≠ [] →
      (parseHeaders req c = (.error (.badHeader line), c1) ↔ 58 ∉ line) ∧
      (∀ name value, line = name ++ 58 :: value → 58 ∉ name →
        parseHeaders req c =
          parseHeaders
            { req with Headers := mapSet req.Headers (TrimSpace name) (TrimSpace value) } c1 ∧
        mapGet (mapSet req.Headers (TrimSpace name) (TrimSpace value)) (TrimSpace name)
          = some (TrimSpace value) ∧
        ∀ k, k ≠ TrimSpace name →
          mapGet (mapSet req.Headers (TrimSpace name) (TrimSpace value)) k
            = mapGet req.Headers k)) := by
  refine ⟨fun hl => ?_, fun hne => ⟨⟨fun herr => ?_, fun hno => ?_⟩, fun name value hline hname => ?_⟩⟩
  · subst hl
    exact parseHeaders_empty req c c1 h
  · intro hcolon
    rw [parseHeaders_step req c c1 line h hne hcolon] at herr
    exact (parseHeaders_inv _ _ _ _ herr).2 line rfl hcolon
  · exact parseHeaders_nocolon req c c1 line h hne hno
  · refine ⟨?_, mapGet_mapSet_self _ _ _, fun k hk => mapGet_mapSet_other _ _ _ _ hk⟩
    have hcolon : 58 ∈ line := by rw [hline]; simp
    rw [parseHeaders_step req c c1 line h hne hcolon, storeHeader_eq]
    simp [headerName, headerValue, hline, SplitN_two_parts 58 name value hname]

/-- The header line `user-agent: a:b ` stores the value `a:b` under the key `user-agent`,
and the key `User-Agent` stays absent. -/
theorem parseHeaders_line_witness :
    readUntilCRLF (Conn.fresh [.data (ascii "user-agent: a:b \r\n"), .data (ascii "\r\n")])
        = ((ascii "user-agent: a:b ", none), Conn.fresh [.data (ascii "\r\n")]) ∧
      parseHeaders ⟨[], [], [], []⟩
          (Conn.fresh [.data (ascii "user-agent: a:b \r\n"), .data (ascii "\r\n")])
        = parseHeaders ⟨[], [], [], [(ascii "user-agent", ascii "a:b")]⟩
            (Conn.fresh [.data (ascii "\r\n")]) ∧
      mapGet [(ascii "user-agent", ascii "a:b")] (ascii "User-Agent") = none :=
  ⟨by decide,
   ((parseHeaders_line ⟨[], [], [], []⟩
      (Conn.fresh [.data (ascii "user-agent: a:b \r\n"), .data (ascii "\r\n")])
      (Conn.fresh [.data (ascii "\r\n")]) (ascii "user-agent: a:b ") (by decide)).2 (by decide)).2
      (ascii "user-agent") (ascii " a:b ") (by decide) (by decide) |>.1,
   by decide⟩

/-- C6: for every sequence of well-formed header lines (followed by the empty line),
the Headers map `parseHeaders` produces maps each trimmed name that occurs to the
trimmed value of the LAST line carrying that name, and holds no other key beyond those
it started with; a second sequence that lists the same lines under each name, in any
order across names, gives the same map. -/
theorem parseHeaders_last_wins (req : Request) (c c2 : Conn) (lines : List Bytes)
    (hread : readLines (lines.length + 1) c
      = (lines.map (fun l => (l, none)) ++ [([], none)], c2))
    (hwf : ∀ l ∈ lines, l ≠ [] ∧ 58 ∈ l) :
    ∃ r, parseHeaders req c = (.ok r, c2) ∧
      (∀ k, mapGet r.Headers k =
        (match lastValue k lines with
        | some v => some v
        | none => mapGet req.Headers k)) ∧
      (∀ (d d2 : Conn) (lines2 : List Bytes),
        readLines (lines2.length + 1) d
          = (lines2.map (fun l => (l, none)) ++ [([], none)], d2) →
        (∀ l ∈ lines2, l ≠ [] ∧ 58 ∈ l) →
        (∀ k, lines2.filter (fun l => decide (headerName l = k))
          = lines.filter (fun l => decide (headerName l = k))) →
        ∃ r2, parseHeaders req d = (.ok r2, d2) ∧ ∀ k, mapGet r2.Headers k = mapGet r.Headers k) := by
  refine ⟨_, parseHeaders_lines lines req c c2 hread hwf, mapGet_foldl_storeHeader lines req, ?_⟩
  intro d d2 lines2 hread2 hwf2 hsame
  refine ⟨_, parseHeaders_lines lines2 req d d2 hread2 hwf2, fun k => ?_⟩
  rw [mapGet_foldl_storeHeader, mapGet_foldl_storeHeader, ← lastValue_filter k lines2,
    ← lastValue_filter k lines, hsame k]

/-- The lines `A: 1`, `B: 2`, `A: 3`, each arriving in a segment of its own. -/
theorem parseHeaders_last_wins_witness :
    ∃ r, parseHeaders ⟨[], [], [], []⟩
        (Conn.fresh [.data (ascii "A: 1\r\n"), .data (ascii "B: 2\r\n"), .data (ascii "A: 3\r\n"),
          .data (ascii "\r\n")]) = (.ok r, Conn.fresh []) ∧
      (∀ k, mapGet r.Headers k =
        (match lastValue k [ascii "A: 1", ascii "B: 2", ascii "A: 3"] with
        | some v => some v
        | none => mapGet [] k)) ∧
      (∀ (d d2 : Conn) (lines2 : List Bytes),
        readLines (lines2.length + 1) d
          = (lines2.map (fun l => (l, none)) ++ [([], none)], d2) →
        (∀ l ∈ lines2, l ≠ [] ∧ 58 ∈ l) →
        (∀ k, lines2.filter (fun l => decide (headerName l = k))
          = [ascii "A: 1", ascii "B: 2", ascii "A: 3"].filter
              (fun l => decide (headerName l = k))) →
        ∃ r2, parseHeaders ⟨[], [], [], []⟩ d = (.ok r2, d2) ∧
          ∀ k, mapGet r2.Headers k = mapGet r.Headers k) :=
  parseHeaders_last_wins ⟨[], [], [], []⟩
    (Conn.fresh [.data (ascii "A: 1\r\n"), .data (ascii "B: 2\r\n"), .data (ascii "A: 3\r\n"),
      .data (ascii "\r\n")])
    (Conn.fresh []) [ascii "A: 1", ascii "B: 2", ascii "A: 3"] (by decide) (by decide)

/-- C7: after a request has been parsed and its response written successfully,
`handleConnection` closes the connection if and only if the request's Headers hold the
key `Connection` with the value `close`, byte for byte; in every other case (header
absent, `keep-alive`, `Close`, `connection: close`) the loop goes on with the next turn,
on the connection as the handler left it. -/
theorem handleConnection_close_iff (env : Env) (config : Config) (w w1 : World) (req : Request)
    (c1 : Conn) (hp : ParseRequest w.conn = (.ok req, c1))
    (hh : HandleRequest env config req { w with conn := c1 } = (.returned false, w1)) :
    ((turn env config w).2.2.1 = .closed ↔
      mapGet req.Headers (ascii "Connection") = some (ascii "close")) ∧
    (mapGet req.Headers (ascii "Connection") = some (ascii "close") →
      handleConnection env config w = ([req], .closed, { w1 with conn := w1.conn.Close })) ∧
    (mapGet req.Headers (ascii "Connection") ≠ some (ascii "close") →
      turn env config w = (some req, false, .awaiting, w1) ∧
      handleConnection env config w =
        (req :: (handleConnection env config w1).1, (handleConnection env config w1).2)) ∧
    (∀ m t v, ShouldCloseConnection ⟨m, t, v, []⟩ = false ∧
      ShouldCloseConnection ⟨m, t, v, [(ascii "Connection", ascii "keep-alive")]⟩ = false ∧
      ShouldCloseConnection ⟨m, t, v, [(ascii "Connection", ascii "Close")]⟩ = false ∧
      ShouldCloseConnection ⟨m, t, v, [(ascii "connection", ascii "close")]⟩ = false ∧
      ShouldCloseConnection ⟨m, t, v, [(ascii "Connection", ascii "close")]⟩ = true) := by
  have hturn : turn env config w =
      if ShouldCloseConnection req then (some req, false, .closed, { w1 with conn := w1.conn.Close })
      else (some req, false, .awaiting, w1) := by
    simp only [turn, hp, hh]
  have hshould : ShouldCloseConnection req = true ↔
      mapGet req.Headers (ascii "Connection") = some (ascii "close") := by
    unfold ShouldCloseConnection
    cases mapGet req.Headers (ascii "Connection") with
    | none => simp
    | some v => simp
  refine ⟨?_, ?_, ?_, ?_⟩
  · rw [hturn, ← hshould]
    split_ifs with hs <;> simp [hs]
  · intro hc
    rw [handleConnection_unfold, hturn, if_pos (hshould.mpr hc)]
  · intro hc
    have hs : ¬ ShouldCloseConnection req = true := fun h => hc (hshould.mp h)
    rw [handleConnection_unfold, hturn, if_neg hs]
    exact ⟨rfl, rfl⟩
  · intro m t v
    exact ⟨rfl, rfl, rfl, rfl, rfl⟩

/-- A request `GET /` with `Connection: close`, each line in a segment of its own. -/
theorem handleConnection_close_iff_witness :
    handleConnection Env.plain ⟨[]⟩
        ⟨Conn.fresh [.data (ascii "GET / HTTP/1.1\r\n"), .data (ascii "Connection: close\r\n"),
          .data (ascii "\r\n"), .data (ascii "GET / HTTP/1.1\r\n")], []⟩
      = ([⟨ascii "GET", ascii "/", ascii "HTTP/1.1", [(ascii "Connection", ascii "close")]⟩],
          .closed,
          ⟨{ input := [.data (ascii "GET / HTTP/1.1\r\n")], deadline := false, wscript := [],
             written := [ascii "HTTP/1.1 200 OK\r\n\r\n"], wire := ascii "HTTP/1.1 200 OK\r\n\r\n",
             closed := true }, []⟩) :=
  (handleConnection_close_iff Env.plain ⟨[]⟩
    ⟨Conn.fresh [.data (ascii "GET / HTTP/1.1\r\n"), .data (ascii "Connection: close\r\n"),
      .data (ascii "\r\n"), .data (ascii "GET / HTTP/1.1\r\n")], []⟩
    ⟨{ input := [.data (ascii "GET / HTTP/1.1\r\n")], deadline := false, wscript := [],
       written := [ascii "HTTP/1.1 200 OK\r\n\r\n"], wire := ascii "HTTP/1.1 200 OK\r\n\r\n",
       closed := false }, []⟩
    ⟨ascii "GET", ascii "/", ascii "HTTP/1.1", [(ascii "Connection", ascii "close")]⟩
    (Conn.fresh [.data (ascii "GET / HTTP/1.1\r\n")]) (by decide) (by decide)).2.1 (by decide)

/-- C8, as the code has it: when writing the response fails, `handleConnection` prints
the error and goes on as after a successful write: the connection is closed if and only
if the request's `Connection` header is exactly `close`; otherwise the loop goes on and
the next request is parsed on the same connection. -/
theorem handleConnection_write_error (env : Env) (config : Config) (w w1 : World)
    (req : Request) (c1 : Conn) (hp : ParseRequest w.conn = (.ok req, c1))
    (hh : HandleRequest env config req { w with conn := c1 } = (.returned true, w1)) :
    ((turn env config w).2.2.1 = .closed ↔
      mapGet req.Headers (ascii "Connection") = some (ascii "close")) ∧
    (mapGet req.Headers (ascii "Connection") = some (ascii "close") →
      handleConnection env config w = ([req], .closed, { w1 with conn := w1.conn.Close })) ∧
    (mapGet req.Headers (ascii "Connection") ≠ some (ascii "close") →
      turn env config w = (some req, true, .awaiting, w1) ∧
      handleConnection env config w =
        (req :: (handleConnection env config w1).1, (handleConnection env config w1).2)) := by
  have hturn : turn env config w =
      if ShouldCloseConnection req then (some req, true, .closed, { w1 with conn := w1.conn.Close })
      else (some req, true, .awaiting, w1) := by
    simp only [turn, hp, hh]
  have hshould : ShouldCloseConnection req = true ↔
      mapGet req.Headers (ascii "Connection") = some (ascii "close") := by
    unfold ShouldCloseConnection
    cases mapGet req.Headers (ascii "Connection") with
    | none => simp
    | some v => simp
  refine ⟨?_, ?_, ?_⟩
  · rw [hturn, ← hshould]
    split_ifs with hs <;> simp [hs]
  · intro hc
    rw [handleConnection_unfold, hturn, if_pos (hshould.mpr hc)]
  · intro hc
    have hs : ¬ ShouldCloseConnection req = true := fun h => hc (hshould.mp h)
    rw [handleConnection_unfold, hturn, if_neg hs]
    exact ⟨rfl, rfl⟩

/-- The write of the response to `GET /` fails after 5 bytes; the request has no
`Connection` header, and the turn ends awaiting. -/
theorem handleConnection_write_error_witness :
    turn Env.plain ⟨[]⟩
        ⟨{ input := [.data (ascii "GET / HTTP/1.1\r\n"), .data (ascii "\r\n")], deadline := false,
           wscript := [.fail 5], written := [], wire := [], closed := false }, []⟩
      = (some ⟨ascii "GET", ascii "/", ascii "HTTP/1.1", []⟩, true, .awaiting,
          ⟨{ input := [], deadline := false, wscript := [],
             written := [ascii "HTTP/1.1 200 OK\r\n\r\n"], wire := ascii "HTTP/",
             closed := false }, []⟩) :=
  ((handleConnection_write_error Env.plain ⟨[]⟩
    ⟨{ input := [.data (ascii "GET / HTTP/1.1\r\n"), .data (ascii "\r\n")], deadline := false,
       wscript := [.fail 5], written := [], wire := [], closed := false }, []⟩
    ⟨{ input := [], deadline := false, wscript := [],
       written := [ascii "HTTP/1.1 200 OK\r\n\r\n"], wire := ascii "HTTP/",
       closed := false }, []⟩
    ⟨ascii "GET", ascii "/", ascii "HTTP/1.1", []⟩
    { input := [], deadline := false, wscript := [.fail 5], written := [], wire := [],
      closed := false } (by decide) (by decide)).2.2 (by decide)).1

/-- C8 as stated fails: the write of the first response fails, the request carries no
`Connection: close`, and `handleConnection` goes on to parse the second request on the
same connection and to answer it. -/
theorem handleConnection_parses_after_write_error :
    (turn Env.plain ⟨[]⟩
        ⟨{ input := [.data (ascii "GET / HTTP/1.1\r\n"), .data (ascii "\r\n"),
                     .data (ascii "GET /x HTTP/1.1\r\n"), .data (ascii "\r\n")],
           deadline := false, wscript := [.fail 5], written := [], wire := [],
           closed := false }, []⟩).2.1 = true ∧
    (turn Env.plain ⟨[]⟩
        ⟨{ input := [.data (ascii "GET / HTTP/1.1\r\n"), .data (ascii "\r\n"),
                     .data (ascii "GET /x HTTP/1.1\r\n"), .data (ascii "\r\n")],
           deadline := false, wscript := [.fail 5], written := [], wire := [],
           closed := false }, []⟩).2.2.1 = .awaiting ∧
    (handleConnection Env.plain ⟨[]⟩
        ⟨{ input := [.data (ascii "GET / HTTP/1.1\r\n"), .data (ascii "\r\n"),
                     .data (ascii "GET /x HTTP/1.1\r\n"), .data (ascii "\r\n")],
           deadline := false, wscript := [.fail 5], written := [], wire := [],
           closed := false }, []⟩).1
      = [⟨ascii "GET", ascii "/", ascii "HTTP/1.1", []⟩,
         ⟨ascii "GET", ascii "/x", ascii "HTTP/1.1", []⟩] ∧
    (handleConnection Env.plain ⟨[]⟩
        ⟨{ input := [.data (ascii "GET / HTTP/1.1\r\n"), .data (ascii "\r\n"),
                     .data (ascii "GET /x HTTP/1.1\r\n"), .data (ascii "\r\n")],
           deadline := false, wscript := [.fail 5], written := [], wire := [],
           closed := false }, []⟩).2.2.conn.wire
      = ascii "HTTP/" ++ ascii "HTTP/1.1 404 Not Found\r\n\r\n" := by
  decide

/-- C2: for every Response, `WriteResponse` calls `Write` once, with exactly these
bytes: the status line `HTTP/1.1 SP <decimal StatusCode> SP <StatusText> CRLF`, one line
`Name: Value CRLF` for each entry of Headers, each entry once, in some order, a bare
CRLF, and the Body bytes if there is a Body, nothing otherwise.  When the write
succeeds these bytes are what the stream gets and no error is returned. -/
theorem WriteResponse_layout (env : Env) (resp : Response) (c : Conn) :
    ∃ hs : Headers, hs.Perm resp.Headers ∧
      (WriteResponse env resp c).2.written = c.written ++
        [ascii "HTTP/1.1" ++ [32] ++ intToDec resp.StatusCode ++ [32] ++ resp.StatusText
          ++ [13, 10]
          ++ (hs.map fun kv => kv.1 ++ [58, 32] ++ kv.2 ++ [13, 10]).flatten
          ++ [13, 10]
          ++ (match resp.Body with
              | some body => body
              | none => [])] ∧
      ((∀ n, c.wscript.head? ≠ some (.fail n)) →
        (WriteResponse env resp c).1 = false ∧
        (WriteResponse env resp c).2.wire = c.wire ++
          (ascii "HTTP/1.1" ++ [32] ++ intToDec resp.StatusCode ++ [32] ++ resp.StatusText
            ++ [13, 10]
            ++ (hs.map fun kv => kv.1 ++ [58, 32] ++ kv.2 ++ [13, 10]).flatten
            ++ [13, 10]
            ++ (match resp.Body with
                | some body => body
                | none => []))) ∧
      (∀ n, c.wscript.head? = some (.fail n) → (WriteResponse env resp c).1 = true) := by
  refine ⟨env.order c.written.length resp.Headers, env.order_perm _ _, ?_⟩
  have hb : responseBytes resp (env.order c.written.length resp.Headers) =
      ascii "HTTP/1.1" ++ [32] ++ intToDec resp.StatusCode ++ [32] ++ resp.StatusText
        ++ [13, 10]
        ++ ((env.order c.written.length resp.Headers).map
            fun kv => kv.1 ++ [58, 32] ++ kv.2 ++ [13, 10]).flatten
        ++ [13, 10]
        ++ (match resp.Body with
            | some body => body
            | none => []) := by
    have hl : (fun kv : Bytes × Bytes => kv.1 ++ [58, 32] ++ kv.2 ++ [13, 10]) = headerLine := by
      funext kv
      simp [headerLine, ascii, CRLF]
    rw [hl]
    unfold responseBytes
    cases resp.Body <;> simp [ascii, CRLF]
  rw [← hb]
  unfold WriteResponse Conn.Write
  cases hw : c.wscript with
  | nil => simp
  | cons o ws =>
    cases o with
    | ok => simp
    | fail n => simp

/-- C9, as the code has it: `ReadBody` fails when the `Content-Length` header is absent
and when its value is not a decimal integer.  When the value is a number `n ≥ 0` that
can be allocated and the read of the stream does not fail, `ReadBody` returns a byte
sequence of length exactly `n`: the bytes ONE read of the connection delivers (the next
bytes of the stream, at most `n` of them) followed by zero bytes up to the length `n`;
it is the next `n` bytes of the stream when that one read delivers `n` bytes. -/
theorem ReadBody_one_read (memLimit : Nat) (req : Request) (c : Conn) :
    (mapGet req.Headers (ascii "Content-Length") = none →
      ReadBody memLimit req c = (.error .missingContentLength, c)) ∧
    (∀ s, mapGet req.Headers (ascii "Content-Length") = some s → isDecimalInteger s = false →
      ReadBody memLimit req c = (.error .invalidContentLength, c)) ∧
    (∀ s (n : Nat) bs c1, mapGet req.Headers (ascii "Content-Length") = some s →
      Atoi s = some (n : Int) → n ≤ memLimit → c.Read n = ((bs, none), c1) →
      ReadBody memLimit req c = (.data (bs ++ List.replicate (n - bs.length) 0), c1) ∧
      (bs ++ List.replicate (n - bs.length) 0).length = n ∧
      streamBytes c.input = bs ++ streamBytes c1.input ∧
      (bs.length = n →
        ReadBody memLimit req c = (.data ((streamBytes c.input).take n), c1))) := by
  refine ⟨fun h => ?_, fun s h hs => ?_, fun s n bs c1 h ha hm hr => ?_⟩
  · simp [ReadBody, h]
  · simp [ReadBody, h, Atoi_not_decimal s hs]
  · obtain ⟨hst, hlen⟩ := Read_stream c c1 n bs hr
    have hrb : ReadBody memLimit req c = (.data (bs ++ List.replicate (n - bs.length) 0), c1) := by
      have h1 : ¬ ((n : Int) < 0 ∨ (memLimit : Int) < (n : Int)) := by omega
      simp only [ReadBody, h, ha, h1, if_false, Int.toNat_ofNat, hr]
    refine ⟨hrb, by simp; omega, hst, fun hfull => ?_⟩
    rw [hrb, hst]
    subst hfull
    simp

/-- A body of 5 bytes arriving in one segment. -/
theorem ReadBody_one_read_witness :
    ReadBody 1024 ⟨ascii "POST", ascii "/files/a", ascii "HTTP/1.1", [(ascii "Content-Length", ascii "5")]⟩
        (Conn.fresh [.data (ascii "hello")])
      = (.data ((streamBytes [.data (ascii "hello")]).take 5), Conn.fresh []) :=
  ((ReadBody_one_read 1024
      ⟨ascii "POST", ascii "/files/a", ascii "HTTP/1.1", [(ascii "Content-Length", ascii "5")]⟩
      (Conn.fresh [.data (ascii "hello")])).2.2 (ascii "5") 5 (ascii "hello") (Conn.fresh [])
      (by decide) (by decide) (by decide) (by decide)).2.2.2 (by decide)

/-- C9 as stated fails: with `Content-Length: 5` and a body that arrives as `he` and
then `llo`, the read does not fail, and `ReadBody` returns `he` followed by three zero
bytes, not the next five bytes `hello` of the stream. -/
theorem ReadBody_short_read :
    ((Conn.fresh [.data (ascii "he"), .data (ascii "llo")]).Read 5).1 = (ascii "he", none) ∧
    (streamBytes [.data (ascii "he"), .data (ascii "llo")]).take 5 = ascii "hello" ∧
    (ReadBody 1024
        ⟨ascii "POST", ascii "/files/a", ascii "HTTP/1.1", [(ascii "Content-Length", ascii "5")]⟩
        (Conn.fresh [.data (ascii "he"), .data (ascii "llo")])).1
      = .data [104, 101, 0, 0, 0] := by
  decide

/-- C10, as the code has it: for every Response whose status text, header names and
header values hold no carriage return, whose header names hold no colon, and whose
header names and values are left unchanged by trimming, the bytes `WriteResponse`
hands to the connection, parsed back (status line split into version, code and text;
header block by the rule of `parseHeaders`; the remainder as body), give the same
status code, the same Headers map and the same body bytes (none for an absent body).
The status code is a Go `int` and the Headers a Go map (one entry per key). -/
theorem WriteResponse_roundtrip (env : Env) (resp : Response) (c : Conn)
    (hcode : -(2 : Int) ^ 63 ≤ resp.StatusCode ∧ resp.StatusCode < (2 : Int) ^ 63)
    (hkeys : (mapKeys resp.Headers).Nodup)
    (htext : 13 ∉ resp.StatusText)
    (hhdr : ∀ kv ∈ resp.Headers,
      13 ∉ kv.1 ∧ 13 ∉ kv.2 ∧ 58 ∉ kv.1 ∧ TrimSpace kv.1 = kv.1 ∧ TrimSpace kv.2 = kv.2) :
    ∃ (bytes : Bytes) (m : Headers),
      (WriteResponse env resp c).2.written = c.written ++ [bytes] ∧
      readBack bytes = some (resp.StatusCode, m, resp.Body.getD []) ∧
      ∀ k, mapGet m k = mapGet resp.Headers k := by
  have hperm := env.order_perm c.written.length resp.Headers
  have hw : (WriteResponse env resp c).2.written
      = c.written ++ [responseBytes resp (env.order c.written.length resp.Headers)] := by
    unfold WriteResponse Conn.Write
    split <;> rfl
  generalize env.order c.written.length resp.Headers = hs at hperm hw
  refine ⟨responseBytes resp hs, hs, hw, ?_, fun k => mapGet_perm _ _ hperm hkeys k⟩
  · have hb : responseBytes resp hs =
        (ascii "HTTP/1.1" ++ 32 :: (intToDec resp.StatusCode ++ 32 :: resp.StatusText))
          ++ 13 :: 10 :: ((hs.map headerLine).flatten ++ 13 :: 10 :: resp.Body.getD []) := by
      unfold responseBytes
      cases resp.Body <;> simp [ascii, CRLF]
    have hdec := intToDec_chars resp.StatusCode
    have h13 : 13 ∉ ascii "HTTP/1.1" ++ 32 :: (intToDec resp.StatusCode ++ 32 :: resp.StatusText) := by
      simp only [List.mem_append, List.mem_cons, not_or]
      refine ⟨by decide, by decide, fun h => ?_, by decide, htext⟩
      have := hdec 13 h
      omega
    have h32 : 32 ∉ intToDec resp.StatusCode := by
      intro h
      have := hdec 32 h
      omega
    have hsplit : SplitN 32 3 (ascii "HTTP/1.1" ++ 32 :: (intToDec resp.StatusCode ++ 32 :: resp.StatusText))
        = [ascii "HTTP/1.1", intToDec resp.StatusCode, resp.StatusText] := by
      rw [SplitN, (cut_eq_some 32 _ (ascii "HTTP/1.1") _).mpr ⟨rfl, by decide⟩]
      simp only [SplitN_two_parts 32 _ _ h32]
    have hwf : ∀ kv ∈ hs,
        13 ∉ kv.1 ∧ 13 ∉ kv.2 ∧ 58 ∉ kv.1 ∧ TrimSpace kv.1 = kv.1 ∧ TrimSpace kv.2 = kv.2 :=
      fun kv hkv => hhdr kv (hperm.mem_iff.mp hkv)
    have hnd : (mapKeys ([] ++ hs)).Nodup := by
      simpa [mapKeys] using (hperm.map Prod.fst).nodup_iff.mpr hkeys
    have hlen := headerLines_length hs
    have hheaders := readBackHeaders_lines hs [] (((hs.map headerLine).flatten ++
      13 :: 10 :: resp.Body.getD []).length + 1) (resp.Body.getD [])
      (by simp only [List.length_append]; omega) hwf hnd
    rw [hb, readBack, cutCRLF_line _ _ h13]
    simp only [hsplit, Atoi_intToDec _ hcode.1 hcode.2, hheaders, List.nil_append]

/-- A 404 response with two headers and a body of three bytes. -/
theorem WriteResponse_roundtrip_witness :
    ∃ (bytes : Bytes) (m : Headers),
      (WriteResponse Env.plain
          ⟨404, ascii "Not Found",
            [(ascii "Content-Type", ascii "text/plain"), (ascii "Content-Length", ascii "3")],
            some (ascii "abc")⟩ (Conn.fresh [])).2.written = (Conn.fresh []).written ++ [bytes] ∧
      readBack bytes = some (404, m, (some (ascii "abc")).getD []) ∧
      ∀ k, mapGet m k = mapGet
        [(ascii "Content-Type", ascii "text/plain"), (ascii "Content-Length", ascii "3")] k :=
  WriteResponse_roundtrip Env.plain
    ⟨404, ascii "Not Found",
      [(ascii "Content-Type", ascii "text/plain"), (ascii "Content-Length", ascii "3")],
      some (ascii "abc")⟩ (Conn.fresh [])
    (by constructor <;> norm_num) (by decide) (by decide) (by decide)

/-- C10 as stated fails: a Response whose header value starts with a space is written
as `X:  a`, and parsing the bytes back gives the value `a` without the space: the
Headers map read back is not the one written. -/
theorem roundtrip_trims_value :
    (WriteResponse Env.plain ⟨200, ascii "OK", [(ascii "X", ascii " a")], none⟩
        (Conn.fresh [])).2.written = [ascii "HTTP/1.1 200 OK\r\nX:  a\r\n\r\n"] ∧
    readBack (ascii "HTTP/1.1 200 OK\r\nX:  a\r\n\r\n")
      = some (200, [(ascii "X", ascii "a")], []) ∧
    mapGet [(ascii "X", ascii "a")] (ascii "X") ≠ mapGet [(ascii "X", ascii " a")] (ascii "X") := by
  decide

/-- C1: the code loses the header lines when they arrive in the same read as the
request line.  `readUntilCRLF` makes a new `bufio.Reader` on every call; the first call
fetches the whole segment into that reader's buffer, returns the request line, and the
rest of the buffer goes away with the reader.  The next call finds the peer idle, the
read times out, the empty result ends `parseHeaders`, and `ParseRequest` returns the
request WITHOUT its `User-Agent` header.  The same bytes arriving one line per read are
parsed in full. -/
theorem ParseRequest_drops_buffered_lines :
    (ParseRequest (Conn.fresh
        [.data (ascii "GET /user-agent HTTP/1.1\r\nUser-Agent: x\r\n\r\n"), .idle])).1
      = .ok ⟨ascii "GET", ascii "/user-agent", ascii "HTTP/1.1", []⟩ ∧
    (ParseRequest (Conn.fresh
        [.data (ascii "GET /user-agent HTTP/1.1\r\n"), .data (ascii "User-Agent: x\r\n"),
         .data (ascii "\r\n"), .idle])).1
      = .ok ⟨ascii "GET", ascii "/user-agent", ascii "HTTP/1.1",
          [(ascii "User-Agent", ascii "x")]⟩ ∧
    (readLines 2 (Conn.fresh
        [.data (ascii "GET /user-agent HTTP/1.1\r\nUser-Agent: x\r\n\r\n"), .idle])).1
      = [(ascii "GET /user-agent HTTP/1.1", none), ([], none)] := by
  decide

/-- C13: for every string `s`, `SupportsGzip(s)` is true if and only if at least one of
the pieces obtained by splitting `s` on commas equals `gzip` after trimming surrounding
white space; it is false for the empty string, for `GZIP` and for `gzip;q=1.0`, and true
for `deflate ,  gzip`. -/
theorem SupportsGzip_iff (s : Bytes) :
    (SupportsGzip s = true ↔ ∃ piece ∈ Split 44 s, TrimSpace piece = ascii "gzip") ∧
    SupportsGzip (ascii "") = false ∧
    SupportsGzip (ascii "GZIP") = false ∧
    SupportsGzip (ascii "gzip;q=1.0") = false ∧
    SupportsGzip (ascii "deflate ,  gzip") = true := by
  refine ⟨?_, by decide, by decide, by decide, by decide⟩
  unfold SupportsGzip
  split_ifs with h
  · subst h
    simp only [Bool.false_eq_true, false_iff, not_exists, not_and]
    intro piece hp
    have : piece = [] := by simpa [Split] using hp
    subst this
    decide
  · simp only [List.any_eq_true, decide_eq_true_eq]

/-- C15: `StatusCodeToText` maps 200 to `OK`, 201 to `Created`, 400 to `Bad Request`,
404 to `Not Found`, 500 to `Internal Server Error`, and every other integer, negative
codes and 0 among them, to `Unknown`. -/
theorem StatusCodeToText_table :
    StatusCodeToText 200 = ascii "OK" ∧
    StatusCodeToText 201 = ascii "Created" ∧
    StatusCodeToText 400 = ascii "Bad Request" ∧
    StatusCodeToText 404 = ascii "Not Found" ∧
    StatusCodeToText 500 = ascii "Internal Server Error" ∧
    StatusCodeToText 0 = ascii "Unknown" ∧
    StatusCodeToText (-1) = ascii "Unknown" ∧
    (∀ code : Int, code ≠ 200 → code ≠ 201 → code ≠ 400 → code ≠ 404 → code ≠ 500 →
      StatusCodeToText code = ascii "Unknown") := by
  refine ⟨rfl, rfl, rfl, rfl, rfl, rfl, rfl, ?_⟩
  intro code h1 h2 h3 h4 h5
  simp [StatusCodeToText, h1, h2, h3, h4, h5]

/-- C14: for every method and every target that is not `/`, not `/user-agent`, and
matches neither `^/echo/(.+)$` nor `^/files/(.+)$` (`/echo/`, `/echo`, `/files/` and
`/nonexistent` among them), `Router.HandleRequest` hands to the connection exactly the
bytes `HTTP/1.1 404 Not Found CRLF CRLF`: status 404, no headers, no body. -/
theorem HandleRequest_not_found (env : Env) (config : Config) (req : Request) (w : World)
    (h1 : req.RequestTarget ≠ ascii "/") (h2 : req.RequestTarget ≠ ascii "/user-agent")
    (h3 : EchoEndpointRegex req.RequestTarget = none)
    (h4 : FileEndpointRegex req.RequestTarget = none) :
    (HandleRequest env config req w).2.conn.written
      = w.conn.written ++ [ascii "HTTP/1.1 404 Not Found\r\n\r\n"] ∧
    ((∀ n, w.conn.wscript.head? ≠ some (.fail n)) →
      (HandleRequest env config req w).1 = .returned false ∧
      (HandleRequest env config req w).2.conn.wire
        = w.conn.wire ++ ascii "HTTP/1.1 404 Not Found\r\n\r\n") ∧
    (HandleRequest env config req w).2.files = w.files ∧
    (∀ target ∈ [ascii "/echo/", ascii "/echo", ascii "/files/", ascii "/nonexistent"],
      target ≠ ascii "/" ∧ target ≠ ascii "/user-agent" ∧
      EchoEndpointRegex target = none ∧ FileEndpointRegex target = none) := by
  rw [HandleRequest_default env config req w h1 h2 h3 h4]
  refine ⟨?_, fun hok => ?_, rfl, by decide⟩
  · rw [respond_written, order_nil]
    rfl
  · have := respond_wire env
      { StatusCode := 404, StatusText := ascii "Not Found", Headers := [], Body := none } w hok
    rw [order_nil] at this
    exact this

/-- The request `DELETE /nonexistent` is answered with the 404 bytes. -/
theorem HandleRequest_not_found_witness :
    (HandleRequest Env.plain ⟨ascii "/srv"⟩
        ⟨ascii "DELETE", ascii "/nonexistent", ascii "HTTP/1.1", []⟩
        ⟨Conn.fresh [], []⟩).2.conn.written
      = (Conn.fresh []).written ++ [ascii "HTTP/1.1 404 Not Found\r\n\r\n"] :=
  (HandleRequest_not_found Env.plain ⟨ascii "/srv"⟩
    ⟨ascii "DELETE", ascii "/nonexistent", ascii "HTTP/1.1", []⟩ ⟨Conn.fresh [], []⟩
    (by decide) (by decide) (by decide) (by decide)).1

/-- C16: when no directory is configured (`Config.Directory` is the empty string), every
GET or POST request whose target matches `/files/{name}`, the name not empty, is
answered with status 500 Internal Server Error and no body; nothing is read from the
connection and no file is written on the way. -/
theorem HandleRequest_files_no_directory (env : Env) (config : Config) (req : Request)
    (w : World) (name : Bytes) (hdir : config.Directory = [])
    (hmatch : FileEndpointRegex req.RequestTarget = some name)
    (hmethod : req.Method = ascii "GET" ∨ req.Method = ascii "POST") :
    name ≠ [] ∧
    (HandleRequest env config req w).2.conn.written
      = w.conn.written ++ [ascii "HTTP/1.1 500 Internal Server Error\r\n\r\n"] ∧
    ((∀ n, w.conn.wscript.head? ≠ some (.fail n)) →
      (HandleRequest env config req w).1 = .returned false ∧
      (HandleRequest env config req w).2.conn.wire
        = w.conn.wire ++ ascii "HTTP/1.1 500 Internal Server Error\r\n\r\n") ∧
    (HandleRequest env config req w).2.conn.input = w.conn.input ∧
    (HandleRequest env config req w).2.files = w.files := by
  rw [HandleRequest_files_unconfigured env config req w name hdir hmatch hmethod]
  refine ⟨((matchAfter_eq_some _ _ _).mp hmatch).2.1, ?_, fun hok => ?_, respond_input _ _ _, rfl⟩
  · rw [respond_written, order_nil]
    rfl
  · have := respond_wire env
      { StatusCode := 500, StatusText := ascii "Internal Server Error", Headers := [],
        Body := none } w hok
    rw [order_nil] at this
    exact this

/-- A `POST /files/a.txt` with a body waiting on the connection, no directory configured:
the answer is 500 and the body stays unread. -/
theorem HandleRequest_files_no_directory_witness :
    (HandleRequest Env.plain ⟨[]⟩
        ⟨ascii "POST", ascii "/files/a.txt", ascii "HTTP/1.1", [(ascii "Content-Length", ascii "5")]⟩
        ⟨Conn.fresh [.data (ascii "hello")], []⟩).2.conn.input
      = (Conn.fresh [.data (ascii "hello")]).input :=
  (HandleRequest_files_no_directory Env.plain ⟨[]⟩
    ⟨ascii "POST", ascii "/files/a.txt", ascii "HTTP/1.1", [(ascii "Content-Length", ascii "5")]⟩
    ⟨Conn.fresh [.data (ascii "hello")], []⟩ (ascii "a.txt") rfl (by decide)
    (Or.inr rfl)).2.2.2.1

/-- C11: the code answers `/files/` with an empty name by 404, not by 400.  The router
sends a target to the file handlers only when it matches `^/files/(.+)$`, which asks
for a name of one byte or more; `/files/` does not match and goes to `NotFoundHandler`,
whatever the method and the directory.  The branch of `GetFileHandler` and
`SaveFileHandler` that answers an empty name by 400 is never reached: a name the
regular expression captures is never empty. -/
theorem HandleRequest_files_empty_name (env : Env) (config : Config) (method version : Bytes)
    (headers : Headers) (w : World) :
    (HandleRequest env config ⟨method, ascii "/files/", version, headers⟩ w).2.conn.written
      = w.conn.written ++ [ascii "HTTP/1.1 404 Not Found\r\n\r\n"] ∧
    (HandleRequest Env.plain ⟨ascii "/srv"⟩ ⟨ascii "GET", ascii "/files/", ascii "HTTP/1.1", []⟩
        ⟨Conn.fresh [], []⟩).2.conn.wire = ascii "HTTP/1.1 404 Not Found\r\n\r\n" ∧
    (HandleRequest Env.plain ⟨ascii "/srv"⟩ ⟨ascii "POST", ascii "/files/", ascii "HTTP/1.1", []⟩
        ⟨Conn.fresh [], []⟩).2.conn.wire = ascii "HTTP/1.1 404 Not Found\r\n\r\n" ∧
    (∀ target name, FileEndpointRegex target = some name → name ≠ []) := by
  refine ⟨?_, by decide, by decide, fun target name h => ((matchAfter_eq_some _ _ _).mp h).2.1⟩
  have h1 : ascii "/files/" ≠ ascii "/" := by decide
  have h2 : ascii "/files/" ≠ ascii "/user-agent" := by decide
  have h3 : EchoEndpointRegex (ascii "/files/") = none := by decide
  have h4 : FileEndpointRegex (ascii "/files/") = none := by decide
  rw [HandleRequest_default env config _ w h1 h2 h3 h4, respond_written, order_nil]
  rfl

/-- C12: for every non-empty text `t` without a line feed and every method, a request
with target `/echo/` followed by `t`, whose `Accept-Encoding` header is absent or does
not hold the token `gzip`, is answered by `Router.HandleRequest` with status 200 OK,
body exactly the bytes of `t` (further `/` included), header `Content-Length` the
decimal byte length of `t`, and no `Content-Encoding` header. -/
theorem HandleRequest_echo_plain (env : Env) (config : Config) (req : Request) (w : World)
    (t : Bytes) (ht : t ≠ []) (hlf : 10 ∉ t) (htarget : req.RequestTarget = ascii "/echo/" ++ t)
    (hAE : ∀ s, mapGet req.Headers (ascii "Accept-Encoding") = some s → SupportsGzip s = false) :
    ∃ (resp : Response) (hs : Headers),
      HandleRequest env config req w = respond env resp w ∧
      resp.StatusCode = 200 ∧ resp.StatusText = ascii "OK" ∧ resp.Body = some t ∧
      mapGet resp.Headers (ascii "Content-Length") = some (natToDec t.length) ∧
      mapGet resp.Headers (ascii "Content-Encoding") = none ∧
      hs.Perm resp.Headers ∧
      (HandleRequest env config req w).2.conn.written = w.conn.written ++
        [ascii "HTTP/1.1 200 OK\r\n"
          ++ (hs.map fun kv => kv.1 ++ [58, 32] ++ kv.2 ++ [13, 10]).flatten
          ++ [13, 10] ++ t] := by
  obtain ⟨hm, hroute⟩ := HandleRequest_echo env config req w t ht hlf htarget
  have hgz : SupportsGzip ((mapGet req.Headers (ascii "Accept-Encoding")).getD []) = false := by
    cases hg : mapGet req.Headers (ascii "Accept-Encoding") with
    | none => rfl
    | some s => exact hAE s hg
  have hecho : EchoHandler env config req w = respond env
      { StatusCode := 200, StatusText := ascii "OK",
        Headers := [(ascii "Content-Type", ascii "text/plain"),
                    (ascii "Content-Length", natToDec t.length)],
        Body := some t } w := by
    simp only [EchoHandler, hm, hgz, Bool.false_eq_true, if_false, echo_headers]
    rfl
  refine ⟨_, env.order w.conn.written.length
      [(ascii "Content-Type", ascii "text/plain"), (ascii "Content-Length", natToDec t.length)],
    hroute.trans hecho, rfl, rfl, rfl, ?_, ?_, env.order_perm _ _, ?_⟩
  · have hne : ¬ ascii "Content-Type" = ascii "Content-Length" := by decide
    simp [mapGet, hne]
  · have h1 : ¬ ascii "Content-Type" = ascii "Content-Encoding" := by decide
    have h2 : ¬ ascii "Content-Length" = ascii "Content-Encoding" := by decide
    simp [mapGet, h1, h2]
  · rw [hroute, hecho, respond_written]
    have hl : (fun kv : Bytes × Bytes => kv.1 ++ [58, 32] ++ kv.2 ++ [13, 10]) = headerLine := by
      funext kv
      simp [headerLine, ascii, CRLF]
    rw [hl]
    simp [responseBytes, intToDec, natToDec, natDigits, ascii, CRLF]

/-- The request `GET /echo/a/b` with `Accept-Encoding: deflate`. -/
theorem HandleRequest_echo_plain_witness :
    ∃ (resp : Response) (hs : Headers),
      HandleRequest Env.plain ⟨[]⟩
          ⟨ascii "GET", ascii "/echo/" ++ ascii "a/b", ascii "HTTP/1.1",
            [(ascii "Accept-Encoding", ascii "deflate")]⟩ ⟨Conn.fresh [], []⟩
        = respond Env.plain resp ⟨Conn.fresh [], []⟩ ∧
      resp.StatusCode = 200 ∧ resp.StatusText = ascii "OK" ∧ resp.Body = some (ascii "a/b") ∧
      mapGet resp.Headers (ascii "Content-Length") = some (natToDec (ascii "a/b").length) ∧
      mapGet resp.Headers (ascii "Content-Encoding") = none ∧
      hs.Perm resp.Headers ∧
      (HandleRequest Env.plain ⟨[]⟩
          ⟨ascii "GET", ascii "/echo/" ++ ascii "a/b", ascii "HTTP/1.1",
            [(ascii "Accept-Encoding", ascii "deflate")]⟩ ⟨Conn.fresh [], []⟩).2.conn.written
        = (Conn.fresh []).written ++
          [ascii "HTTP/1.1 200 OK\r\n"
            ++ (hs.map fun kv => kv.1 ++ [58, 32] ++ kv.2 ++ [13, 10]).flatten
            ++ [13, 10] ++ ascii "a/b"] :=
  HandleRequest_echo_plain Env.plain ⟨[]⟩
    ⟨ascii "GET", ascii "/echo/" ++ ascii "a/b", ascii "HTTP/1.1",
      [(ascii "Accept-Encoding", ascii "deflate")]⟩ ⟨Conn.fresh [], []⟩ (ascii "a/b")
    (by decide) (by decide) rfl (by decide)

/-- C18: every response that the handlers (Root, NotFound, BadRequest,
InternalServerError, Echo, UserAgent, GetFile, SaveFile) pass to `WriteResponse` has
`StatusText` equal to `StatusCodeToText(StatusCode)`, and if it has a body it has a
`Content-Length` header whose value is the decimal byte length of that body; in the gzip
branch of Echo the body is the compressed bytes and the header gives their length, not
the length of the text. -/
theorem handlers_wellFormed (env : Env) (config : Config) (req : Request) (w : World) :
    (∀ handler ∈ [RootHandler, NotFoundHandler, BadRequestHandler, InternalServerErrorHandler,
        EchoHandler, UserAgentHandler, GetFileHandler, SaveFileHandler],
      (∃ resp w1, handler env config req w = respond env resp w1 ∧
        resp.StatusText = StatusCodeToText resp.StatusCode ∧
        ∀ body, resp.Body = some body →
          mapGet resp.Headers (ascii "Content-Length") = some (natToDec body.length)) ∨
      (handler env config req w).1 = .exit 1 ∨ (handler env config req w).1 = .panic) ∧
    (∀ str compressed, EchoEndpointRegex req.RequestTarget = some str →
      SupportsGzip ((mapGet req.Headers (ascii "Accept-Encoding")).getD []) = true →
      env.gzip str = some compressed →
      ∃ resp, EchoHandler env config req w = respond env resp w ∧
        resp.StatusCode = 200 ∧ resp.Body = some compressed ∧
        mapGet resp.Headers (ascii "Content-Length") = some (natToDec compressed.length) ∧
        mapGet resp.Headers (ascii "Content-Encoding") = some (ascii "gzip")) := by
  refine ⟨?_, ?_⟩
  · intro handler hmem
    simp only [List.mem_cons, List.mem_singleton, List.not_mem_nil, or_false] at hmem
    rcases hmem with rfl | rfl | rfl | rfl | rfl | rfl | rfl | rfl
    · exact sends_plain env 200 w
    · exact sends_plain env 404 w
    · exact sends_plain env 400 w
    · exact sends_plain env 500 w
    · exact sends_Echo env config req w
    · exact sends_UserAgent env config req w
    · exact sends_GetFile env config req w
    · exact sends_SaveFile env config req w
  · intro str compressed hm hgz hc
    refine ⟨{ StatusCode := 200, StatusText := StatusCodeToText 200,
              Headers := [(ascii "Content-Type", ascii "text/plain"),
                          (ascii "Content-Encoding", ascii "gzip"),
                          (ascii "Content-Length", natToDec compressed.length)],
              Body := some compressed }, ?_, rfl, rfl, ?_, ?_⟩
    · simp only [EchoHandler, hm, hgz, if_true, hc, echo_gzip_headers]
    · have h1 : ¬ ascii "Content-Type" = ascii "Content-Length" := by decide
      have h2 : ¬ ascii "Content-Encoding" = ascii "Content-Length" := by decide
      simp [mapGet, h1, h2]
    · have h1 : ¬ ascii "Content-Type" = ascii "Content-Encoding" := by decide
      simp [mapGet, h1]

/-- An echo of `abc` for a client that accepts gzip, with a compressor that gives five bytes. -/
theorem handlers_wellFormed_witness :
    ∃ resp, EchoHandler
        { order := fun _ m => m, order_perm := fun _ m => List.Perm.refl m,
          gzip := fun _ => some [31, 139, 8, 0, 0], memLimit := 1024 } ⟨[]⟩
        ⟨ascii "GET", ascii "/echo/abc", ascii "HTTP/1.1", [(ascii "Accept-Encoding", ascii "gzip")]⟩
        ⟨Conn.fresh [], []⟩
      = respond
        { order := fun _ m => m, order_perm := fun _ m => List.Perm.refl m,
          gzip := fun _ => some [31, 139, 8, 0, 0], memLimit := 1024 } resp ⟨Conn.fresh [], []⟩ ∧
      resp.StatusCode = 200 ∧ resp.Body = some [31, 139, 8, 0, 0] ∧
      mapGet resp.Headers (ascii "Content-Length") = some (natToDec [31, 139, 8, 0, 0].length) ∧
      mapGet resp.Headers (ascii "Content-Encoding") = some (ascii "gzip") :=
  (handlers_wellFormed
    { order := fun _ m => m, order_perm := fun _ m => List.Perm.refl m,
      gzip := fun _ => some [31, 139, 8, 0, 0], memLimit := 1024 } ⟨[]⟩
    ⟨ascii "GET", ascii "/echo/abc", ascii "HTTP/1.1", [(ascii "Accept-Encoding", ascii "gzip")]⟩
    ⟨Conn.fresh [], []⟩).2 (ascii "abc") [31, 139, 8, 0, 0] (by decide) (by decide) rfl

/-- C19: the code panics on a negative `Content-Length`.  The value `-1` parses as an
integer, `make([]byte, -1)` is a run-time panic, and nothing in `ReadBody` or in
`SaveFileHandler` stands before it: the `POST` ends the goroutine and with it the
process.  The value `0` is harmless (an empty body, no read). -/
theorem ReadBody_negative_length_panics :
    Atoi (ascii "-1") = some (-1) ∧
    (ReadBody 1024
        ⟨ascii "POST", ascii "/files/a", ascii "HTTP/1.1", [(ascii "Content-Length", ascii "-1")]⟩
        (Conn.fresh [.data (ascii "x")])).1 = .panic ∧
    (HandleRequest Env.plain ⟨ascii "/srv"⟩
        ⟨ascii "POST", ascii "/files/a", ascii "HTTP/1.1", [(ascii "Content-Length", ascii "-1")]⟩
        ⟨Conn.fresh [.data (ascii "x")], []⟩).1 = .panic ∧
    (turn Env.plain ⟨ascii "/srv"⟩
        ⟨Conn.fresh [.data (ascii "POST /files/a HTTP/1.1\r\n"),
          .data (ascii "Content-Length: -1\r\n"), .data (ascii "\r\n")], []⟩).2.2.1 = .dead ∧
    (ReadBody 1024
        ⟨ascii "POST", ascii "/files/a", ascii "HTTP/1.1", [(ascii "Content-Length", ascii "0")]⟩
        (Conn.fresh [.data (ascii "x")])).1 = .data [] ∧
    (∀ (memLimit : Nat) (req : Request) (c : Conn) (s : Bytes) (n : Int),
      mapGet req.Headers (ascii "Content-Length") = some s → Atoi s = some n → n < 0 →
      ReadBody memLimit req c = (.panic, c)) := by
  refine ⟨by decide, by decide, by decide, by decide, by decide, ?_⟩
  intro memLimit req c s n hs ha hn
  simp [ReadBody, hs, ha, hn]

/-- C17: one call of `readUntilCRLF`, whatever the split of the bytes into reads.  When
the stream holds a CRLF and arrives without time-out or read error, the call returns the
text before the FIRST CRLF of the stream, the CRLF left out (a bare line feed does not
end the line and stays in it).  When the stream ends before any CRLF the call returns the
end-of-stream error `io.EOF`; when the peer goes idle before any CRLF it returns without
error.  In both cases the text returned is NOT the data read so far: it is exactly the
stream up to and including its last line feed, so the bytes after the last line feed,
which `ReadBytes` hands back together with the error, are consumed and dropped.  On the
bytes `abc` followed by a silence longer than the deadline the call returns the empty
text with no error, and `abc` is gone from the connection: the bytes `def` and a CRLF
sent afterwards are all that is left to read. -/
theorem readUntilCRLF_timeout_drops_bytes :
    readUntilCRLF (Conn.fresh [.data (ascii "abc"), .idle, .data (ascii "def\r\n")])
      = (([], none), Conn.fresh [.data (ascii "def\r\n")]) ∧
    readUntilCRLF (Conn.fresh [.data (ascii "abc")]) = (([], some .EOF), Conn.fresh []) ∧
    (readUntilCRLF (Conn.fresh [.data (ascii "a\nb"), .data (ascii "c"), .idle])).1
      = (ascii "a\n", none) ∧
    (readUntilCRLF (Conn.fresh [.data (ascii "GET / HT"), .data (ascii "TP/1.1\r"),
        .data (ascii "\nHost: x\r\n")])).1 = (ascii "GET / HTTP/1.1", none) ∧
    cutCRLF (ascii "a\nb\r\nc") = some (ascii "a\nb", ascii "c") ∧
    (∀ (c : Conn) (segs : List Bytes) (tail : List Event),
      c.input = segs.map Event.data ++ tail →
      (∀ pre post, cutCRLF segs.flatten = some (pre, post) →
        (∃ segs2 : List Bytes, readUntilCRLF c
          = ((pre, none), { c with input := segs2.map Event.data ++ tail, deadline := false })) ∧
        segs.flatten = pre ++ 13 :: 10 :: post ∧
        (∀ pre2 post2, segs.flatten = pre2 ++ 13 :: 10 :: post2 → pre.length ≤ pre2.length)) ∧
      (cutCRLF segs.flatten = none → tail = [] →
        (readUntilCRLF c).1 = (throughLastLF segs.flatten, some .EOF)) ∧
      (cutCRLF segs.flatten = none → ∀ rest, tail = .idle :: rest →
        (readUntilCRLF c).1 = (throughLastLF segs.flatten, none))) := by
  refine ⟨by decide, by decide, by decide, by decide, by decide, ?_⟩
  intro c segs tail hin
  have hin0 : (c.SetReadDeadline true).input = segs.map Event.data ++ tail := hin
  have hfuel : ([] : Bytes).length + weight (c.SetReadDeadline true).input < weight c.input + 1 := by
    simp [Conn.SetReadDeadline]
  refine ⟨fun pre post hcut => ⟨?_, cutCRLF_spec _ pre post hcut⟩, fun hcut htail => ?_,
    fun hcut rest htail => ?_⟩
  · obtain ⟨segs2, h⟩ := readLoopFuel_line (weight c.input + 1) [] [] segs tail
      (c.SetReadDeadline true) pre post hin0 (Or.inl rfl) (by simpa using hcut) hfuel
    exact ⟨segs2, by rw [readUntilCRLF_of_fuel _ c _ h]; rfl⟩
  · subst htail
    obtain ⟨text, c2, h, hpre⟩ := readLoopFuel_no_line (weight c.input + 1) [] [] segs []
      (c.SetReadDeadline true) .EOF hin0 (Or.inl rfl) (by simpa using hcut) (fun _ => rfl) hfuel
    have ht : text = throughLastLF segs.flatten := by simpa using hpre (by decide)
    rw [readUntilCRLF_of_fuel _ c _ h, ht]
    rfl
  · subst htail
    obtain ⟨text, c2, h, hpre⟩ := readLoopFuel_no_line (weight c.input + 1) [] [] segs
      (.idle :: rest) (c.SetReadDeadline true) .Timeout hin0 (Or.inl rfl) (by simpa using hcut)
      (fun _ => rfl) hfuel
    have ht : text = throughLastLF segs.flatten := by simpa using hpre (by decide)
    rw [readUntilCRLF_of_fuel _ c _ h, ht]
    rfl

end HttpServer
